import Mathlib

/-!
Verification of the qub-typescript collections/lexing library (src/sources/Qub.ts).

The TS code is a pull-based iterator library.  A TS `Iterator<T>` object is a
mutable state machine with methods `hasStarted`, `hasCurrent`, `next`,
`getCurrent`.  Some observer methods mutate internal state (e.g.
`SkipIterator.hasCurrent` triggers the pending `skipValues` walk), so in the
shallow embedding every observer returns the updated state together with its
result.  TS `undefined` is modelled by `Option.none`; TS `number` arguments
that the code compares with integers are modelled by `Int` (optional arguments
by `Option Int`).
-/

set_option maxHeartbeats 1000000

namespace Qub

/-- Shallow embedding of the `Iterator<T>` object interface (src/sources/Qub.ts 37-128).
`σ` is the iterator's internal state.  Beside the four methods we record the
bookkeeping needed for reasoning: `inv` (states reachable by the library),
`fresh` (states produced by a constructor before any iteration), `dead`
(exhausted states) and `rem` (an upper bound on the number of remaining
successful `next` calls, used for termination of loops that drain an
iterator). -/
structure IterKit (σ : Type) (α : Type) where
  hasStarted : σ → Bool
  hasCurrent : σ → σ × Bool
  next : σ → σ × Bool
  getCurrent : σ → σ × Option α
  inv : σ → Prop
  fresh : σ → Prop
  dead : σ → Prop
  rem : σ → Nat

/-- The behavioural laws of the iterator contract, proved for every iterator
of the library and used to reason about decorators over an arbitrary inner
iterator. -/
structure IterLaws {σ α : Type} (K : IterKit σ α) : Prop where
  inv_next : ∀ s, K.inv s → K.inv (K.next s).1
  inv_hc : ∀ s, K.inv s → K.inv (K.hasCurrent s).1
  inv_gc : ∀ s, K.inv s → K.inv (K.getCurrent s).1
  fresh_inv : ∀ s, K.fresh s → K.inv s
  fresh_started : ∀ s, K.fresh s → K.hasStarted s = false
  fresh_hc : ∀ s, K.fresh s → (K.hasCurrent s).2 = false
  fresh_hc_id : ∀ s, K.fresh s → (K.hasCurrent s).1 = s
  started_next : ∀ s, K.inv s → K.hasStarted s = true → K.hasStarted (K.next s).1 = true
  started_hc : ∀ s, K.inv s → K.hasStarted s = true → K.hasStarted (K.hasCurrent s).1 = true
  started_gc : ∀ s, K.inv s → K.hasStarted s = true → K.hasStarted (K.getCurrent s).1 = true
  next_hc : ∀ s, K.inv s → (K.hasCurrent (K.next s).1).2 = (K.next s).2
  hc_hc : ∀ s, K.inv s → (K.hasCurrent (K.hasCurrent s).1).2 = (K.hasCurrent s).2
  hc_gc : ∀ s, K.inv s → (K.hasCurrent (K.getCurrent s).1).2 = (K.hasCurrent s).2
  next_false_dead : ∀ s, K.inv s → (K.next s).2 = false → K.dead (K.next s).1
  dead_next : ∀ s, K.dead s → (K.next s).2 = false ∧ K.dead (K.next s).1
  dead_hc : ∀ s, K.dead s → (K.hasCurrent s).2 = false ∧ K.dead (K.hasCurrent s).1
  dead_gc : ∀ s, K.dead s → (K.getCurrent s).2 = none ∧ K.dead (K.getCurrent s).1
  rem_next_true : ∀ s, K.inv s → (K.next s).2 = true → K.rem (K.next s).1 < K.rem s
  rem_next_le : ∀ s, K.inv s → K.rem (K.next s).1 ≤ K.rem s
  rem_hc : ∀ s, K.inv s → K.rem (K.hasCurrent s).1 ≤ K.rem s
  rem_gc : ∀ s, K.inv s → K.rem (K.getCurrent s).1 ≤ K.rem s

/-- "after the first `next()` call `hasStarted()` is true" -/
def StartsOnFirstNext {σ α : Type} (K : IterKit σ α) : Prop :=
  ∀ s, K.fresh s → K.hasStarted (K.next s).1 = true

/-- Iterate `next`, keeping only the state (used to express "every further
`next()` call"). -/
def nextIter {σ α : Type} (K : IterKit σ α) (s : σ) : Nat → σ
  | 0 => s
  | n + 1 => (K.next (nextIter K s n)).1

/-- The iterator stays exhausted: every later `next()` returns false and
`getCurrent()` returns the undefined sentinel. -/
def ExhaustedForever {σ α : Type} (K : IterKit σ α) (s : σ) : Prop :=
  ∀ n, (K.next (nextIter K s n)).2 = false ∧ (K.getCurrent (nextIter K s n)).2 = none

/-- The three clauses of the iterator contract claimed by the spec that hold
for every iterator of this library without exception:
fresh states have not started and have no current value; `next()` returns
exactly what `hasCurrent()` returns immediately afterwards; once `next()`
returns false the iterator is exhausted forever. -/
def MeetsContract {σ α : Type} (K : IterKit σ α) : Prop :=
  (∀ s, K.fresh s → K.hasStarted s = false ∧ (K.hasCurrent s).2 = false)
  ∧ (∀ s, K.inv s → (K.hasCurrent (K.next s).1).2 = (K.next s).2)
  ∧ (∀ s, K.inv s → (K.next s).2 = false → ExhaustedForever K (K.next s).1)

/-- `ArrayList.get` (src 1020-1026): an undefined, negative, fractional or
out-of-range index yields `undefined` (a fractional in-range JS index would
read a hole of the backing array, which is also `undefined`; integer indices
are modelled). -/
def arrayListGet {α : Type} (data : List α) : Option Int → Option α
  | none => none
  | some i =>
      if h : 0 ≤ i ∧ i < (data.length : Int) then some (data.get ⟨i.toNat, by omega⟩)
      else none

/-- `ArrayListForwardIterator.atEnd` (src 967-969): `currentIndex === count`;
comparing `undefined` with the count is false. -/
def arrFwdAtEnd {α : Type} (data : List α) : Option Nat → Bool
  | none => false
  | some i => i == data.length

/-- The index update of `ArrayListForwardIterator.next` (src 971-979). -/
def arrFwdNextIdx {α : Type} (data : List α) : Option Nat → Option Nat
  | none => some 0
  | some i => if i = data.length then some i else some (i + 1)

/-- `ArrayListForwardIterator` (src 962-980) over a snapshot of the
ArrayList's contents.  State: the optional `_currentIndex`. -/
def arrKit {α : Type} (data : List α) : IterKit (Option Nat) α where
  hasStarted s := s.isSome
  hasCurrent s := (s, s.isSome && !(arrFwdAtEnd data s))
  next s := (arrFwdNextIdx data s, !(arrFwdAtEnd data (arrFwdNextIdx data s)))
  getCurrent s := (s, arrayListGet data (s.map (fun i => (i : Int))))
  inv s := ∀ i, s = some i → i ≤ data.length
  fresh s := s = none
  dead s := s = some data.length
  rem s :=
    match s with
    | none => data.length + 1
    | some i => data.length - i

/-- `ArrayListReverseIterator.atEnd` (src 987-989): `currentIndex < 0`
(false while `currentIndex` is `undefined`). -/
def arrRevAtEnd : Option Int → Bool
  | none => false
  | some i => i < 0

/-- The index update of `ArrayListReverseIterator.next` (src 991-999). -/
def arrRevNextIdx {α : Type} (data : List α) : Option Int → Option Int
  | none => some ((data.length : Int) - 1)
  | some i => if i < 0 then some i else some (i - 1)

/-- `ArrayListReverseIterator` (src 982-1000). -/
def arrRevKit {α : Type} (data : List α) : IterKit (Option Int) α where
  hasStarted s := s.isSome
  hasCurrent s := (s, s.isSome && !(arrRevAtEnd s))
  next s := (arrRevNextIdx data s, !(arrRevAtEnd (arrRevNextIdx data s)))
  getCurrent s := (s, arrayListGet data s)
  inv s := ∀ i, s = some i → i < (data.length : Int)
  fresh s := s = none
  dead s := ∃ i, s = some i ∧ i < 0
  rem s :=
    match s with
    | none => data.length + 1
    | some i => (i + 1).toNat

/-- `getLength` (src 1323-1325) on a possibly-absent string. -/
def jsGetLength : Option (List Char) → Int
  | none => 0
  | some cs => cs.length

/-- `StringIterator._step` (src 2222): `endIndex >= startIndex ? 1 : -1`. -/
def strStep (startIndex endIndex : Int) : Int :=
  if startIndex ≤ endIndex then 1 else -1

/-- `StringIterator.hasMore` (src 2252-2254). -/
def strHasMoreB (startIndex endIndex idx : Int) : Bool :=
  if 0 < strStep startIndex endIndex then idx < endIndex else endIndex < idx

/-- JS string indexing `text[i]`: `undefined` outside the string. -/
def strCharAt (text : Option (List Char)) (i : Int) : Option Char :=
  match text with
  | none => none
  | some cs =>
      if h : 0 ≤ i ∧ i < (cs.length : Int) then some (cs.get ⟨i.toNat, by omega⟩)
      else none

/-- State of a `StringIterator`: `(_started, _currentIndex)`. -/
abbrev StrSt : Type := Bool × Int

/-- The state update of `StringIterator.next` (src 2241-2250). -/
def strNextIdx (startIndex endIndex : Int) (s : StrSt) : StrSt :=
  match s.1 with
  | false => (true, s.2)
  | true =>
      if strHasMoreB startIndex endIndex s.2 then (true, s.2 + strStep startIndex endIndex)
      else s

/-- `StringIterator.next` (src 2241-2250). -/
def strNextSt (startIndex endIndex : Int) (s : StrSt) : StrSt × Bool :=
  (strNextIdx startIndex endIndex s,
    strHasMoreB startIndex endIndex (strNextIdx startIndex endIndex s).2)

/-- `StringIterator.getCurrent` (src 2237-2239). -/
def strGetCur (text : Option (List Char)) (startIndex endIndex : Int) (s : StrSt) : Option Char :=
  if s.1 && strHasMoreB startIndex endIndex s.2 then strCharAt text s.2 else none

/-- Remaining-step bound for a `StringIterator` state. -/
def strRem (startIndex endIndex : Int) (s : StrSt) : Nat :=
  (if 0 < strStep startIndex endIndex then (endIndex - s.2).toNat else (s.2 - endIndex).toNat)
    + (if s.1 then 0 else 1)

/-- `StringIterator` (src 2213-2255) with constructor arguments
`(text, startIndex, endIndex)`. -/
def strKit (text : Option (List Char)) (startIndex endIndex : Int) : IterKit StrSt Char where
  hasStarted s := s.1
  hasCurrent s := (s, s.1 && strHasMoreB startIndex endIndex s.2)
  next s := strNextSt startIndex endIndex s
  getCurrent s := (s, strGetCur text startIndex endIndex s)
  inv _ := True
  fresh s := s = (false, startIndex)
  dead s := s.1 = true ∧ strHasMoreB startIndex endIndex s.2 = false
  rem s := strRem startIndex endIndex s

/-- `SkipIterator.skipValues` loop body (src 295-304):
`while (skipped < toSkip) { if (!super.next()) { skipped = toSkip; } else { ++skipped; } }`.
The fuel `(toSkip - skipped).toNat` is exactly the number of loop iterations
left, so the fuelled recursion is the loop. -/
def skipValuesLoop {σ α : Type} (K : IterKit σ α) (toSkip : Int) :
    Nat → Int → σ → Int × σ
  | 0, k, s => (k, s)
  | fuel + 1, k, s =>
      if k < toSkip then
        match K.next s with
        | (s1, false) => (toSkip, s1)
        | (s1, true) => skipValuesLoop K toSkip fuel (k + 1) s1
      else (k, s)

/-- `SkipIterator.skipValues` (src 295-304).  When `_toSkip` is `undefined`
the JS comparison `skipped < undefined` is false and the loop never runs. -/
def skipValues {σ α : Type} (K : IterKit σ α) (toSkip : Option Int) (k : Int) (s : σ) :
    Int × σ :=
  match toSkip with
  | none => (k, s)
  | some t => skipValuesLoop K t (t - k).toNat k s

/-- `SkipIterator` (src 288-324) over an arbitrary inner iterator.
State: `(_skipped, inner state)`.  `hasCurrent`/`getCurrent` first call the
inner `hasCurrent`, run the pending `skipValues` when it was true, and then
ask the inner iterator again, exactly as the JS methods do. -/
def skipKit {σ α : Type} (K : IterKit σ α) (toSkip : Option Int) : IterKit (Int × σ) α where
  hasStarted s := K.hasStarted s.2
  hasCurrent s :=
    if (K.hasCurrent s.2).2 then
      (((skipValues K toSkip s.1 (K.hasCurrent s.2).1).1,
          (K.hasCurrent (skipValues K toSkip s.1 (K.hasCurrent s.2).1).2).1),
        (K.hasCurrent (skipValues K toSkip s.1 (K.hasCurrent s.2).1).2).2)
    else
      ((s.1, (K.hasCurrent (K.hasCurrent s.2).1).1), (K.hasCurrent (K.hasCurrent s.2).1).2)
  next s :=
    (((skipValues K toSkip s.1 s.2).1, (K.next (skipValues K toSkip s.1 s.2).2).1),
      (K.next (skipValues K toSkip s.1 s.2).2).2)
  getCurrent s :=
    if (K.hasCurrent s.2).2 then
      (((skipValues K toSkip s.1 (K.hasCurrent s.2).1).1,
          (K.getCurrent (skipValues K toSkip s.1 (K.hasCurrent s.2).1).2).1),
        (K.getCurrent (skipValues K toSkip s.1 (K.hasCurrent s.2).1).2).2)
    else
      ((s.1, (K.getCurrent (K.hasCurrent s.2).1).1), (K.getCurrent (K.hasCurrent s.2).1).2)
  inv s := K.inv s.2
  fresh s := s.1 = 0 ∧ K.fresh s.2
  dead s := K.dead s.2
  rem s := K.rem s.2

/-- `TakeIterator.canTakeValue` (src 338-340):
`isDefined(_toTake) && _taken <= _toTake`. -/
def canTakeValue (toTake : Option Int) (taken : Int) : Bool :=
  match toTake with
  | none => false
  | some t => taken ≤ t

/-- `TakeIterator` constructor (src 332-336): `_taken = super.hasCurrent() ? 1 : 0`. -/
def takeMk {σ α : Type} (K : IterKit σ α) (s : σ) : Int × σ :=
  ((if (K.hasCurrent s).2 then 1 else 0), (K.hasCurrent s).1)

/-- `TakeIterator` (src 329-357) over an arbitrary inner iterator.
State: `(_taken, inner state)`. -/
def takeKit {σ α : Type} (K : IterKit σ α) (toTake : Option Int) : IterKit (Int × σ) α where
  hasStarted s := K.hasStarted s.2
  hasCurrent s :=
    ((s.1, (K.hasCurrent s.2).1), (K.hasCurrent s.2).2 && canTakeValue toTake s.1)
  next s :=
    if canTakeValue toTake s.1 then
      ((s.1 + 1, (K.hasCurrent (K.next s.2).1).1),
        (K.hasCurrent (K.next s.2).1).2 && canTakeValue toTake (s.1 + 1))
    else
      ((s.1, (K.hasCurrent s.2).1), (K.hasCurrent s.2).2 && canTakeValue toTake s.1)
  getCurrent s :=
    if (K.hasCurrent s.2).2 && canTakeValue toTake s.1 then
      ((s.1, (K.getCurrent (K.hasCurrent s.2).1).1), (K.getCurrent (K.hasCurrent s.2).1).2)
    else ((s.1, (K.hasCurrent s.2).1), none)
  inv s := K.inv s.2
  fresh s := s.1 = 0 ∧ K.fresh s.2
  dead s := toTake = none ∨ (∃ t, toTake = some t ∧ t < s.1) ∨ K.dead s.2
  rem s := K.rem s.2

/-- `MapIterator` constructor (src 362-364): `_started = inner.hasStarted()`. -/
def mapMk {σ α : Type} (K : IterKit σ α) (s : σ) : Bool × σ := (K.hasStarted s, s)

/-- `MapIterator` (src 359-452) over an arbitrary inner iterator.  The map
function receives the raw `getCurrent()` value (possibly `undefined`), so it
is modelled as `Option α → Option β`; an absent function makes the view
permanently empty.  State: `(_started, inner state)`. -/
def mapKit {σ α β : Type} (K : IterKit σ α) (f : Option (Option α → Option β)) :
    IterKit (Bool × σ) β where
  hasStarted s := s.1
  hasCurrent s :=
    match f with
    | none => (s, false)
    | some _ => ((s.1, (K.hasCurrent s.2).1), (K.hasCurrent s.2).2)
  next s :=
    match f with
    | none => ((true, s.2), false)
    | some _ => ((true, (K.next s.2).1), (K.next s.2).2)
  getCurrent s :=
    match f with
    | none => (s, none)
    | some g =>
        if (K.hasCurrent s.2).2 then
          ((s.1, (K.getCurrent (K.hasCurrent s.2).1).1),
            g (K.getCurrent (K.hasCurrent s.2).1).2)
        else ((s.1, (K.hasCurrent s.2).1), none)
  inv s := K.inv s.2
  fresh s := s.1 = false ∧ K.fresh s.2
  dead s := f = none ∨ K.dead s.2
  rem s := K.rem s.2

/-- `ConcatenateIterator` (src 454-474) over two arbitrary inner iterators.
`next` and `hasCurrent` short-circuit exactly as the JS `||` does. -/
def concatKit {σ₁ σ₂ α : Type} (K₁ : IterKit σ₁ α) (K₂ : IterKit σ₂ α) :
    IterKit (σ₁ × σ₂) α where
  hasStarted s := K₁.hasStarted s.1
  hasCurrent s :=
    if (K₁.hasCurrent s.1).2 then (((K₁.hasCurrent s.1).1, s.2), true)
    else (((K₁.hasCurrent s.1).1, (K₂.hasCurrent s.2).1), (K₂.hasCurrent s.2).2)
  next s :=
    if (K₁.next s.1).2 then (((K₁.next s.1).1, s.2), true)
    else (((K₁.next s.1).1, (K₂.next s.2).1), (K₂.next s.2).2)
  getCurrent s :=
    if (K₁.hasCurrent s.1).2 then
      (((K₁.getCurrent (K₁.hasCurrent s.1).1).1, s.2), (K₁.getCurrent (K₁.hasCurrent s.1).1).2)
    else (((K₁.hasCurrent s.1).1, (K₂.getCurrent s.2).1), (K₂.getCurrent s.2).2)
  inv s := K₁.inv s.1 ∧ K₂.inv s.2
  fresh s := K₁.fresh s.1 ∧ K₂.fresh s.2
  dead s := K₁.dead s.1 ∧ K₂.dead s.2
  rem s := K₁.rem s.1 + K₂.rem s.2

/-- The loop of `WhereIterator.next` (src 272-283):
`while (super.next() && !condition(getCurrent())) {}`.
It terminates because a successful inner `next` strictly decreases `rem`
(law `rem_next_true`); the inner laws are passed in for that purpose, and
the state carries the inner invariant.  The condition receives the raw
`getCurrent()` value, hence `Option α → Bool`. -/
def whereLoop {σ α : Type} (K : IterKit σ α) (L : IterLaws K) (c : Option α → Bool)
    (s : {x : σ // K.inv x}) : {x : σ // K.inv x} :=
  if hb : (K.next s.1).2 = false then ⟨(K.next s.1).1, L.inv_next s.1 s.2⟩
  else if c (K.getCurrent (K.next s.1).1).2 then
    ⟨(K.getCurrent (K.next s.1).1).1, L.inv_gc _ (L.inv_next s.1 s.2)⟩
  else whereLoop K L c ⟨(K.getCurrent (K.next s.1).1).1, L.inv_gc _ (L.inv_next s.1 s.2)⟩
termination_by K.rem s.1
decreasing_by
  have h1 : (K.next s.1).2 = true := by revert hb; cases hx : (K.next s.1).2 <;> simp
  have t1 := L.rem_next_true s.1 s.2 h1
  have t2 := L.rem_gc (K.next s.1).1 (L.inv_next s.1 s.2)
  omega

/-- `WhereIterator` (src 261-283) over an arbitrary inner iterator.  The
state is the inner state together with its invariant (the loop needs it for
termination).  The constructor's catch-up loop (src 265-269) is a no-op on a
fresh inner iterator because `hasCurrent()` is false there, so a freshly
created where decorator carries exactly the fresh inner state. -/
def whereKit {σ α : Type} (K : IterKit σ α) (L : IterLaws K)
    (cond : Option (Option α → Bool)) : IterKit {x : σ // K.inv x} α where
  hasStarted s := K.hasStarted s.1
  hasCurrent s := (⟨(K.hasCurrent s.1).1, L.inv_hc s.1 s.2⟩, (K.hasCurrent s.1).2)
  next s :=
    match cond with
    | none =>
        (⟨(K.hasCurrent (K.next s.1).1).1, L.inv_hc _ (L.inv_next s.1 s.2)⟩,
          (K.hasCurrent (K.next s.1).1).2)
    | some c =>
        (⟨(K.hasCurrent (whereLoop K L c s).1).1,
            L.inv_hc _ (whereLoop K L c s).2⟩,
          (K.hasCurrent (whereLoop K L c s).1).2)
  getCurrent s := (⟨(K.getCurrent s.1).1, L.inv_gc s.1 s.2⟩, (K.getCurrent s.1).2)
  inv _ := True
  fresh s := K.fresh s.1
  dead s := K.dead s.1
  rem s := K.rem s.1

/-- An iterator kit bundled with its laws. -/
structure QIter (σ : Type) (α : Type) where
  kit : IterKit σ α
  laws : IterLaws kit

/-- The loop of `IteratorBase.toArray` (src 193-199) as executed through the
for-of adapter `JavascriptIterator.next` (src 17-31): every round calls
`next()`, then `getCurrent()`, and pushes the value while `next()` was true.
Returns the pushed values and the final iterator state. -/
def drainLoop {σ α : Type} (B : QIter σ α) (s : σ) (h : B.kit.inv s) :
    List (Option α) × σ :=
  if hb : (B.kit.next s).2 = true then
    ((B.kit.getCurrent (B.kit.next s).1).2 ::
        (drainLoop B (B.kit.getCurrent (B.kit.next s).1).1
          (B.laws.inv_gc _ (B.laws.inv_next s h))).1,
      (drainLoop B (B.kit.getCurrent (B.kit.next s).1).1
        (B.laws.inv_gc _ (B.laws.inv_next s h))).2)
  else ([], (B.kit.getCurrent (B.kit.next s).1).1)
termination_by B.kit.rem s
decreasing_by
  have t1 := B.laws.rem_next_true s h hb
  have t2 := B.laws.rem_gc (B.kit.next s).1 (B.laws.inv_next s h)
  omega

/-- `toArray` on an iterator (src 193-199 with the adapter src 9-32): the
adapter first records `hasCurrent()`; when the iterator already has a current
value that value is visited first without advancing. -/
def drainJs {σ α : Type} (B : QIter σ α) (s : σ) (h : B.kit.inv s) :
    List (Option α) × σ :=
  if (B.kit.hasCurrent s).2 = true then
    ((B.kit.getCurrent (B.kit.hasCurrent s).1).2 ::
        (drainLoop B (B.kit.getCurrent (B.kit.hasCurrent s).1).1
          (B.laws.inv_gc _ (B.laws.inv_hc s h))).1,
      (drainLoop B (B.kit.getCurrent (B.kit.hasCurrent s).1).1
        (B.laws.inv_gc _ (B.laws.inv_hc s h))).2)
  else drainLoop B (B.kit.hasCurrent s).1 (B.laws.inv_hc s h)

/-- The loop of `IteratorBase.getCount` (src 146-158): `while (next()) ++result`. -/
def getCountLoop {σ α : Type} (B : QIter σ α) (s : σ) (h : B.kit.inv s) : Nat :=
  if hb : (B.kit.next s).2 = true then
    1 + getCountLoop B (B.kit.next s).1 (B.laws.inv_next s h)
  else 0
termination_by B.kit.rem s
decreasing_by
  exact B.laws.rem_next_true s h hb

/-- `IteratorBase.getCount` (src 146-158): counts the current value (if any)
plus one per successful `next()`. -/
def getCountJs {σ α : Type} (B : QIter σ α) (s : σ) (h : B.kit.inv s) : Nat :=
  (if (B.kit.hasCurrent s).2 then 1 else 0)
    + getCountLoop B (B.kit.hasCurrent s).1 (B.laws.inv_hc s h)

/-- Denotational characterisation of an iterator state: `mdl s` is the list
of values the iterator will still produce (`getCurrent` after each further
successful `next`).  These laws let drains and counts be computed. -/
structure ModelProps {σ α : Type} (K : IterKit σ α) (mdl : σ → List (Option α)) : Prop where
  nil_next : ∀ s, K.inv s → mdl s = [] → (K.next s).2 = false ∧ mdl (K.next s).1 = []
  cons_next : ∀ s v rest, K.inv s → mdl s = v :: rest →
    (K.next s).2 = true ∧ mdl (K.next s).1 = rest ∧ (K.getCurrent (K.next s).1).2 = v
  mdl_hc : ∀ s, K.inv s → mdl (K.hasCurrent s).1 = mdl s
  mdl_gc : ∀ s, K.inv s → mdl (K.getCurrent s).1 = mdl s
  gcv_hc : ∀ s, K.inv s → (K.getCurrent (K.hasCurrent s).1).2 = (K.getCurrent s).2
  gcv_gc : ∀ s, K.inv s → (K.getCurrent (K.getCurrent s).1).2 = (K.getCurrent s).2

/-- A model (denotation) for an iterator kit. -/
structure IterModel {σ α : Type} (K : IterKit σ α) where
  mdl : σ → List (Option α)
  props : ModelProps K mdl

/-- `LexType` (src 1666-1702). -/
inductive LexType where
  | LeftCurlyBracket
  | RightCurlyBracket
  | LeftSquareBracket
  | RightSquareBracket
  | LeftAngleBracket
  | RightAngleBracket
  | LeftParenthesis
  | RightParenthesis
  | Letters
  | SingleQuote
  | DoubleQuote
  | Digits
  | Comma
  | Colon
  | Semicolon
  | ExclamationPoint
  | Backslash
  | ForwardSlash
  | QuestionMark
  | Dash
  | Plus
  | EqualsSign
  | Period
  | Underscore
  | Ampersand
  | VerticalBar
  | Space
  | Tab
  | CarriageReturn
  | NewLine
  | CarriageReturnNewLine
  | Asterisk
  | Percent
  | Hash
  | Unrecognized
  deriving DecidableEq, Repr

/-- `Lex` (src 1707-1769): text, start index and type.  Text is a character
list. -/
structure Lex where
  text : List Char
  startIndex : Int
  type : LexType
  deriving DecidableEq, Repr

/-- `Lex.isWhitespace` (src 1747-1757). -/
def Lex.isWhitespace (l : Lex) : Bool :=
  match l.type with
  | LexType.Space => true
  | LexType.Tab => true
  | LexType.CarriageReturn => true
  | _ => false

/-- `Lex.isNewLine` (src 1759-1768). -/
def Lex.isNewLine (l : Lex) : Bool :=
  match l.type with
  | LexType.CarriageReturnNewLine => true
  | LexType.NewLine => true
  | _ => false

/-- The single-quote character. -/
def singleQuoteChar : Char := Char.ofNat 39

def LeftCurlyBracket (startIndex : Int) : Lex := ⟨['{'], startIndex, LexType.LeftCurlyBracket⟩

def RightCurlyBracket (startIndex : Int) : Lex := ⟨['}'], startIndex, LexType.RightCurlyBracket⟩

def LeftSquareBracket (startIndex : Int) : Lex := ⟨['['], startIndex, LexType.LeftSquareBracket⟩

def RightSquareBracket (startIndex : Int) : Lex := ⟨[']'], startIndex, LexType.RightSquareBracket⟩

def LeftAngleBracket (startIndex : Int) : Lex := ⟨['<'], startIndex, LexType.LeftAngleBracket⟩

def RightAngleBracket (startIndex : Int) : Lex := ⟨['>'], startIndex, LexType.RightAngleBracket⟩

def LeftParenthesis (startIndex : Int) : Lex := ⟨['('], startIndex, LexType.LeftParenthesis⟩

def RightParenthesis (startIndex : Int) : Lex := ⟨[')'], startIndex, LexType.RightParenthesis⟩

def SingleQuote (startIndex : Int) : Lex := ⟨[singleQuoteChar], startIndex, LexType.SingleQuote⟩

def DoubleQuote (startIndex : Int) : Lex := ⟨['\"'], startIndex, LexType.DoubleQuote⟩

def Comma (startIndex : Int) : Lex := ⟨[','], startIndex, LexType.Comma⟩

def Colon (startIndex : Int) : Lex := ⟨[':'], startIndex, LexType.Colon⟩

def Semicolon (startIndex : Int) : Lex := ⟨[';'], startIndex, LexType.Semicolon⟩

def ExclamationPoint (startIndex : Int) : Lex := ⟨['!'], startIndex, LexType.ExclamationPoint⟩

def Backslash (startIndex : Int) : Lex := ⟨['\\'], startIndex, LexType.Backslash⟩

def ForwardSlash (startIndex : Int) : Lex := ⟨['/'], startIndex, LexType.ForwardSlash⟩

def QuestionMark (startIndex : Int) : Lex := ⟨['?'], startIndex, LexType.QuestionMark⟩

def Dash (startIndex : Int) : Lex := ⟨['-'], startIndex, LexType.Dash⟩

def Plus (startIndex : Int) : Lex := ⟨['+'], startIndex, LexType.Plus⟩

def EqualsSign (startIndex : Int) : Lex := ⟨['='], startIndex, LexType.EqualsSign⟩

def Period (startIndex : Int) : Lex := ⟨['.'], startIndex, LexType.Period⟩

def Underscore (startIndex : Int) : Lex := ⟨['_'], startIndex, LexType.Underscore⟩

def Ampersand (startIndex : Int) : Lex := ⟨['&'], startIndex, LexType.Ampersand⟩

def VerticalBar (startIndex : Int) : Lex := ⟨['|'], startIndex, LexType.VerticalBar⟩

def Space (startIndex : Int) : Lex := ⟨[' '], startIndex, LexType.Space⟩

def Tab (startIndex : Int) : Lex := ⟨['\t'], startIndex, LexType.Tab⟩

def CarriageReturn (startIndex : Int) : Lex := ⟨['\r'], startIndex, LexType.CarriageReturn⟩

def NewLine (startIndex : Int) : Lex := ⟨['\n'], startIndex, LexType.NewLine⟩

/-- `CarriageReturnNewLine` factory (src 1883-1885).  Faithful to the source:
the factory passes `LexType.NewLine` as the type, not
`LexType.CarriageReturnNewLine`. -/
def CarriageReturnNewLine (startIndex : Int) : Lex := ⟨['\r', '\n'], startIndex, LexType.NewLine⟩

def Asterisk (startIndex : Int) : Lex := ⟨['*'], startIndex, LexType.Asterisk⟩

def Percent (startIndex : Int) : Lex := ⟨['%'], startIndex, LexType.Percent⟩

def Hash (startIndex : Int) : Lex := ⟨['#'], startIndex, LexType.Hash⟩

def Letters (text : List Char) (startIndex : Int) : Lex := ⟨text, startIndex, LexType.Letters⟩

def Digits (text : List Char) (startIndex : Int) : Lex := ⟨text, startIndex, LexType.Digits⟩

def Unrecognized (character : List Char) (startIndex : Int) : Lex :=
  ⟨character, startIndex, LexType.Unrecognized⟩

/-- `isLetter` (src 2197-2200). -/
def isLetter (c : Char) : Bool := (('a' ≤ c) && (c ≤ 'z')) || (('A' ≤ c) && (c ≤ 'Z'))

/-- `isDigit` (src 2205-2207). -/
def isDigit (c : Char) : Bool := ('0' ≤ c) && (c ≤ '9')

/-- The loop of `readWhile` (src 2160-2168):
`while (iterator.next() && condition(iterator.getCurrent())) result += getCurrent()`.
In JS the condition applied to `undefined` is false for `isLetter`/`isDigit`
(string comparisons with `undefined` are false), which matches treating an
absent current value as a non-match. -/
def readWhileLoop (text : Option (List Char)) (startIndex endIndex : Int)
    (cond : Char → Bool) (s : StrSt) : List Char × StrSt :=
  if h : (strNextSt startIndex endIndex s).2 = true then
    match strGetCur text startIndex endIndex (strNextSt startIndex endIndex s).1 with
    | some c =>
        if cond c then
          (c :: (readWhileLoop text startIndex endIndex cond
              (strNextSt startIndex endIndex s).1).1,
            (readWhileLoop text startIndex endIndex cond
              (strNextSt startIndex endIndex s).1).2)
        else ([], (strNextSt startIndex endIndex s).1)
    | none => ([], (strNextSt startIndex endIndex s).1)
  else ([], (strNextSt startIndex endIndex s).1)
termination_by strRem startIndex endIndex s
decreasing_by
  have key : ∀ b i, (strNextSt startIndex endIndex (b, i)).2 = true →
      strRem startIndex endIndex (strNextSt startIndex endIndex (b, i)).1 <
        strRem startIndex endIndex (b, i) := by
    intro b i hsnd
    cases b
    · simp only [strNextSt, strNextIdx] at hsnd ⊢
      simp [strRem]
    · simp only [strNextSt, strNextIdx] at hsnd ⊢
      by_cases hm : strHasMoreB startIndex endIndex i = true
      · rw [if_pos hm] at hsnd ⊢
        simp only [strRem, strHasMoreB, strStep] at *
        split_ifs at * <;> simp_all <;> omega
      · rw [if_neg hm] at hsnd
        simp only at hsnd
        exact absurd hsnd hm
  have h2 : (strNextSt startIndex endIndex (s.1, s.2)).2 = true := by
    rw [Prod.mk.eta]; exact h
  have := key s.1 s.2 h2
  rw [Prod.mk.eta] at this
  exact this

/-- `readWhile` (src 2160-2168).  `result` starts as the iterator's current
character (the lexer only calls this while a matching character is current). -/
def readWhile (text : Option (List Char)) (startIndex endIndex : Int)
    (cond : Char → Bool) (s : StrSt) : List Char × StrSt :=
  ((match strGetCur text startIndex endIndex s with
    | some c => [c]
    | none => []) ++ (readWhileLoop text startIndex endIndex cond s).1,
   (readWhileLoop text startIndex endIndex cond s).2)

/-- State of the `Lexer` (src 1917-2158): the inner `StringIterator` state and
the optional `_currentLex`. -/
abbrev LexSt : Type := StrSt × Option Lex

/-- The `if (!this.hasStarted()) this._characters.next();` prologue of
`Lexer.next` (src 1971-1973): the character iterator state the body works on. -/
def lexStartIt (text : Option (List Char)) (s : LexSt) : StrSt :=
  if s.1.1 = false then (strNextSt 0 (jsGetLength text) s.1).1 else s.1

/-- The simple arms of the classification `switch` of `Lexer.next`
(src 1977-2136): each is `this._currentLex = Factory(startIndex);
this.nextCharacter();`.  `'\r'` and the `default` arm are handled separately
in `lexClassify`. -/
def singleCharLexFactory (c : Char) : Option (Int → Lex) :=
  match c with
  | '\x7b' => some LeftCurlyBracket
  | '\x7d' => some RightCurlyBracket
  | '[' => some LeftSquareBracket
  | ']' => some RightSquareBracket
  | '(' => some LeftParenthesis
  | ')' => some RightParenthesis
  | '<' => some LeftAngleBracket
  | '>' => some RightAngleBracket
  | '\"' => some DoubleQuote
  | '\'' => some SingleQuote
  | '-' => some Dash
  | '+' => some Plus
  | ',' => some Comma
  | ':' => some Colon
  | ';' => some Semicolon
  | '!' => some ExclamationPoint
  | '\\' => some Backslash
  | '/' => some ForwardSlash
  | '?' => some QuestionMark
  | '=' => some EqualsSign
  | '.' => some Period
  | '_' => some Underscore
  | '&' => some Ampersand
  | ' ' => some Space
  | '\t' => some Tab
  | '\n' => some NewLine
  | '*' => some Asterisk
  | '%' => some Percent
  | '|' => some VerticalBar
  | '#' => some Hash
  | _ => none

/-- The classification `switch` of `Lexer.next` (src 1977-2149), given the
current character `c` at character-iterator state `it0`: the produced lex and
the character-iterator state afterwards.  `'\r'` does one character of
lookahead (src 2103-2110); the `default` arm (src 2138-2148) tries letters,
then digits, then a one-character `Unrecognized` lex. -/
def lexClassify (text : Option (List Char)) (offset : Int) (it0 : StrSt) (c : Char) :
    Lex × StrSt :=
  match singleCharLexFactory c with
  | some f => (f (it0.2 + offset), (strNextSt 0 (jsGetLength text) it0).1)
  | none =>
      if c = '\r' then
        (if (strNextSt 0 (jsGetLength text) it0).2 = true then
          (if strGetCur text 0 (jsGetLength text) (strNextSt 0 (jsGetLength text) it0).1
              = some '\n' then
            (CarriageReturnNewLine (it0.2 + offset),
              (strNextSt 0 (jsGetLength text) (strNextSt 0 (jsGetLength text) it0).1).1)
          else (CarriageReturn (it0.2 + offset), (strNextSt 0 (jsGetLength text) it0).1))
        else (CarriageReturn (it0.2 + offset), (strNextSt 0 (jsGetLength text) it0).1))
      else if isLetter c then
        (Letters (readWhile text 0 (jsGetLength text) isLetter it0).1 (it0.2 + offset),
          (readWhile text 0 (jsGetLength text) isLetter it0).2)
      else if isDigit c then
        (Digits (readWhile text 0 (jsGetLength text) isDigit it0).1 (it0.2 + offset),
          (readWhile text 0 (jsGetLength text) isDigit it0).2)
      else (Unrecognized [c] (it0.2 + offset), (strNextSt 0 (jsGetLength text) it0).1)

/-- `Lexer.next` (src 1970-2157).  The lexer's `StringIterator` runs over the
whole text (`startIndex 0`, `endIndex` the text length).  `offset` is the
constructor's `startIndex` argument (`_characterStartIndexOffset`). -/
def lexNext (text : Option (List Char)) (offset : Int) (s : LexSt) : LexSt × Bool :=
  match strGetCur text 0 (jsGetLength text) (lexStartIt text s) with
  | none => ((lexStartIt text s, none), false)
  | some c =>
      (((lexClassify text offset (lexStartIt text s) c).2,
          some (lexClassify text offset (lexStartIt text s) c).1), true)

/-- `Lexer` (src 1917-2158) as an iterator of lexes. -/
def lexerKit (text : Option (List Char)) (offset : Int) : IterKit LexSt Lex where
  hasStarted s := s.1.1
  hasCurrent s := (s, s.2.isSome)
  next s := lexNext text offset s
  getCurrent s := (s, s.2)
  inv s := 0 ≤ s.1.2
  fresh s := s.1 = (false, 0) ∧ s.2 = none
  dead s := s.1.1 = true ∧ strHasMoreB 0 (jsGetLength text) s.1.2 = false ∧ s.2 = none
  rem s := strRem 0 (jsGetLength text) s.1

/-- `Span` (src 1623-1661). -/
structure Span where
  startIndex : Int
  length : Int
  deriving DecidableEq, Repr

/-- `Span.afterEndIndex` (src 1651-1653): `startIndex + length`. -/
def Span.afterEndIndex (s : Span) : Int := s.startIndex + s.length

/-- `Span.endIndex` (src 1644-1646): `afterEndIndex - 1`, with no special
case for zero length. -/
def Span.endIndex (s : Span) : Int := s.afterEndIndex - 1

/-- `Span.toString` (src 1658-1660): the half-open form. -/
def Span.asString (s : Span) : String :=
  "[" ++ toString s.startIndex ++ "," ++ toString s.afterEndIndex ++ ")"

/-- `ArrayList.indexOf` (src 1074-1083): index of the first match, `undefined`
when there is none. -/
def listIndexOf {γ : Type} (p : γ → Bool) : List γ → Option Nat
  | [] => none
  | x :: xs => if p x then some 0 else (listIndexOf p xs).map (· + 1)

/-- `ArrayList.remove` (src 1099-1108): remove the first match (via
`indexOf` and the shifting `removeAt`, src 1085-1097), no-op when absent. -/
def listRemoveFirst {γ : Type} (p : γ → Bool) (xs : List γ) : List γ :=
  match listIndexOf p xs with
  | none => xs
  | some i => xs.eraseIdx i

/-- `Map.add` (src 1145-1152): remove any existing pair with a matching key
(`lhs.key === rhs.key`), then append the new pair. -/
def qubMapAdd {κ β : Type} [DecidableEq κ] (pairs : List (κ × β)) (k : κ) (v : β) :
    List (κ × β) :=
  listRemoveFirst (fun pr => pr.1 = k) pairs ++ [(k, v)]

/-- `Map.get` (src 1177-1180): the first pair whose key matches, else
`undefined`.  (`first` with a condition walks the pair list front to back.) -/
def qubMapGet {κ β : Type} [DecidableEq κ] (pairs : List (κ × β)) (k : κ) : Option β :=
  (pairs.find? (fun pr => pr.1 = k)).map (·.2)

/-- `Map.getCount` (src 1137-1139): the number of stored pairs. -/
def qubMapGetCount {κ β : Type} (pairs : List (κ × β)) : Nat := pairs.length

/-- The ArrayList forward iterator bundled with its laws. -/
def arrQ {α : Type} (data : List α) : QIter (Option Nat) α where
  kit := arrKit data
  laws :=
    { inv_next := by
        rintro (_ | j) h i hi <;> simp only [arrKit, arrFwdNextIdx] at hi
        · injection hi with hi
          omega
        · have hj2 := h j rfl
          by_cases hj : j = data.length <;>
            simp only [hj, if_pos, if_neg, if_true, if_false] at hi <;>
            injection hi with hi <;> omega
      inv_hc := by intro s h; exact h
      inv_gc := by intro s h; exact h
      fresh_inv := by rintro s rfl i hi; cases hi
      fresh_started := by rintro s rfl; rfl
      fresh_hc := by rintro s rfl; rfl
      fresh_hc_id := by rintro s rfl; rfl
      started_next := by
        rintro (_ | j) h hs
        · cases hs
        · by_cases hj : j = data.length <;> simp [arrKit, arrFwdNextIdx, hj]
      started_hc := by intro s h hs; exact hs
      started_gc := by intro s h hs; exact hs
      next_hc := by
        rintro (_ | j) h
        · simp [arrKit, arrFwdNextIdx]
        · by_cases hj : j = data.length <;> simp [arrKit, arrFwdNextIdx, hj]
      hc_hc := by intro s h; rfl
      hc_gc := by intro s h; rfl
      next_false_dead := by
        rintro (_ | j) h hb
        · simp only [arrKit, arrFwdNextIdx, arrFwdAtEnd] at hb ⊢
          simp at hb
          simp [hb]
        · by_cases hj : j = data.length
          · subst hj
            simp [arrKit, arrFwdNextIdx, arrFwdAtEnd]
          · simp only [arrKit, arrFwdNextIdx, arrFwdAtEnd] at hb ⊢
            rw [if_neg hj] at hb ⊢
            simp at hb
            simp [hb]
      dead_next := by
        rintro s rfl
        simp [arrKit, arrFwdNextIdx, arrFwdAtEnd]
      dead_hc := by
        rintro s rfl
        simp [arrKit, arrFwdNextIdx, arrFwdAtEnd]
      dead_gc := by
        rintro s rfl
        simp [arrKit, arrFwdNextIdx, arrayListGet]
      rem_next_true := by
        rintro (_ | j) h hb
        · simp only [arrKit, arrFwdNextIdx]
          omega
        · have hj2 := h j rfl
          by_cases hj : j = data.length
          · subst hj
            simp [arrKit, arrFwdNextIdx, arrFwdAtEnd] at hb
          · simp only [arrKit, arrFwdNextIdx, arrFwdAtEnd] at hb ⊢
            rw [if_neg hj] at hb ⊢
            simp only at hb ⊢
            omega
      rem_next_le := by
        rintro (_ | j) h
        · simp only [arrKit, arrFwdNextIdx]
          omega
        · by_cases hj : j = data.length
          · subst hj
            simp [arrKit, arrFwdNextIdx]
          · simp only [arrKit, arrFwdNextIdx]
            rw [if_neg hj]
            simp only
            omega
      rem_hc := by intro s h; exact Nat.le_refl _
      rem_gc := by intro s h; exact Nat.le_refl _ }

/-- The ArrayList reverse iterator bundled with its laws. -/
def arrRevQ {α : Type} (data : List α) : QIter (Option Int) α where
  kit := arrRevKit data
  laws :=
    { inv_next := by
        rintro (_ | j) h i hi <;> simp only [arrRevKit, arrRevNextIdx] at hi
        · injection hi with hi
          omega
        · have hj2 := h j rfl
          by_cases hj : j < 0 <;> simp only [hj, if_pos, if_neg, if_true, if_false] at hi <;>
            injection hi with hi <;> omega
      inv_hc := by intro s h; exact h
      inv_gc := by intro s h; exact h
      fresh_inv := by rintro s rfl i hi; cases hi
      fresh_started := by rintro s rfl; rfl
      fresh_hc := by rintro s rfl; rfl
      fresh_hc_id := by rintro s rfl; rfl
      started_next := by
        rintro (_ | j) h hs
        · cases hs
        · by_cases hj : j < 0 <;> simp [arrRevKit, arrRevNextIdx, hj]
      started_hc := by intro s h hs; exact hs
      started_gc := by intro s h hs; exact hs
      next_hc := by
        rintro (_ | j) h
        · simp [arrRevKit, arrRevNextIdx]
        · by_cases hj : j < 0 <;> simp [arrRevKit, arrRevNextIdx, hj]
      hc_hc := by intro s h; rfl
      hc_gc := by intro s h; rfl
      next_false_dead := by
        rintro (_ | j) h hb
        · simp only [arrRevKit, arrRevNextIdx, arrRevAtEnd] at hb ⊢
          refine ⟨(data.length : Int) - 1, rfl, ?_⟩
          simpa using hb
        · by_cases hj : j < 0
          · simp only [arrRevKit, arrRevNextIdx, arrRevAtEnd] at hb ⊢
            rw [if_pos hj] at hb ⊢
            exact ⟨j, rfl, hj⟩
          · simp only [arrRevKit, arrRevNextIdx, arrRevAtEnd] at hb ⊢
            rw [if_neg hj] at hb ⊢
            refine ⟨j - 1, rfl, ?_⟩
            simpa using hb
      dead_next := by
        rintro s ⟨i, rfl, hi⟩
        simp [arrRevKit, arrRevNextIdx, arrRevAtEnd, hi]
      dead_hc := by
        rintro s ⟨i, rfl, hi⟩
        constructor
        · simp [arrRevKit, arrRevNextIdx, arrRevAtEnd, hi]
        · exact ⟨i, rfl, hi⟩
      dead_gc := by
        rintro s ⟨i, rfl, hi⟩
        constructor
        · simp only [arrRevKit, arrayListGet]
          rw [dif_neg (by omega)]
        · exact ⟨i, rfl, hi⟩
      rem_next_true := by
        rintro (_ | j) h hb
        · simp only [arrRevKit, arrRevNextIdx]
          omega
        · by_cases hj : j < 0
          · exfalso
            simp [arrRevKit, arrRevNextIdx, arrRevAtEnd, hj] at hb
          · simp only [arrRevKit, arrRevNextIdx, arrRevAtEnd] at hb ⊢
            rw [if_neg hj] at hb ⊢
            simp only at hb ⊢
            omega
      rem_next_le := by
        rintro (_ | j) h
        · simp only [arrRevKit, arrRevNextIdx]
          omega
        · by_cases hj : j < 0
          · simp only [arrRevKit, arrRevNextIdx]
            rw [if_pos hj]
          · simp only [arrRevKit, arrRevNextIdx]
            rw [if_neg hj]
            simp only
            omega
      rem_hc := by intro s h; exact Nat.le_refl _
      rem_gc := by intro s h; exact Nat.le_refl _ }

/-- The `StringIterator` bundled with its laws. -/
def strQ (text : Option (List Char)) (startIndex endIndex : Int) : QIter StrSt Char where
  kit := strKit text startIndex endIndex
  laws :=
    { inv_next := by intro s h; trivial
      inv_hc := by intro s h; trivial
      inv_gc := by intro s h; trivial
      fresh_inv := by intro s h; trivial
      fresh_started := by rintro s rfl; rfl
      fresh_hc := by rintro s rfl; rfl
      fresh_hc_id := by rintro s rfl; rfl
      started_next := by
        rintro ⟨b, i⟩ h hs
        cases b
        · cases hs
        · simp only [strKit, strNextSt, strNextIdx]
          by_cases hm : strHasMoreB startIndex endIndex i = true <;>
            simp [hm]
      started_hc := by intro s h hs; exact hs
      started_gc := by intro s h hs; exact hs
      next_hc := by
        rintro ⟨b, i⟩ h
        cases b
        · simp [strKit, strNextSt, strNextIdx]
        · simp only [strKit, strNextSt, strNextIdx]
          by_cases hm : strHasMoreB startIndex endIndex i = true <;> simp [hm]
      hc_hc := by intro s h; rfl
      hc_gc := by intro s h; rfl
      next_false_dead := by
        rintro ⟨b, i⟩ h hb
        cases b
        · simp only [strKit, strNextSt, strNextIdx] at hb ⊢
          exact ⟨by simp, by simpa using hb⟩
        · simp only [strKit, strNextSt, strNextIdx] at hb ⊢
          by_cases hm : strHasMoreB startIndex endIndex i = true <;>
            simp only [hm, if_pos, if_neg, if_true, if_false] at hb ⊢ <;>
            exact ⟨by simp, by simpa using hb⟩
      dead_next := by
        rintro ⟨b, i⟩ ⟨h1, h2⟩
        cases b
        · cases h1
        · simp only [strKit, strNextSt, strNextIdx] at h2 ⊢
          simp [h2]
      dead_hc := by
        rintro ⟨b, i⟩ ⟨h1, h2⟩
        cases b
        · cases h1
        · simp only [strKit] at h2 ⊢
          exact ⟨by simp [h2], by simp, h2⟩
      dead_gc := by
        rintro ⟨b, i⟩ ⟨h1, h2⟩
        cases b
        · cases h1
        · simp only [strKit, strGetCur] at h2 ⊢
          exact ⟨by simp [h2], by simp, h2⟩
      rem_next_true := by
        rintro ⟨b, i⟩ h hb
        have key : ∀ s1, strNextSt startIndex endIndex (b, i) = (s1, true) →
            strRem startIndex endIndex s1 < strRem startIndex endIndex (b, i) := by
          intro s1 hstep
          have hfst := congrArg Prod.fst hstep
          have hsnd := congrArg Prod.snd hstep
          clear hstep
          cases b
          · simp only [strNextSt, strNextIdx] at hfst hsnd
            subst hfst
            simp only [strRem, strHasMoreB, strStep] at *
            split_ifs at * <;> simp_all
          · simp only [strNextSt, strNextIdx] at hfst hsnd
            by_cases hm : strHasMoreB startIndex endIndex i = true
            · rw [if_pos hm] at hfst hsnd
              subst hfst
              simp only [strRem, strHasMoreB, strStep] at *
              split_ifs at * <;> simp_all <;> omega
            · rw [if_neg hm] at hfst hsnd
              subst hfst
              simp only [strRem, strHasMoreB, strStep] at *
              split_ifs at * <;> simp_all
        have hb2 : (strNextSt startIndex endIndex (b, i)).2 = true := by
          simpa [strKit] using hb
        have hp := (Prod.mk.eta (p := strNextSt startIndex endIndex (b, i))).symm
        rw [hb2] at hp
        exact key _ hp
      rem_next_le := by
        rintro ⟨b, i⟩ h
        simp only [strKit, strNextSt, strNextIdx]
        cases b
        · simp only [strRem, strHasMoreB, strStep]
          split_ifs <;> simp_all <;> omega
        · by_cases hm : strHasMoreB startIndex endIndex i = true <;>
            simp only [hm, if_pos, if_neg, if_true, if_false]
          · simp only [strRem, strHasMoreB, strStep] at hm ⊢
            split_ifs at * <;> simp_all <;> omega
          · exact Nat.le_refl _
      rem_hc := by intro s h; exact Nat.le_refl _
      rem_gc := by intro s h; exact Nat.le_refl _ }

/-- The `SkipIterator` decorator bundled with its laws, over any law-abiding
inner iterator. -/
def skipQ {σ α : Type} (B : QIter σ α) (toSkip : Option Int) : QIter (Int × σ) α where
  kit := skipKit B.kit toSkip
  laws := by
    have SLinv : ∀ (t : Int) fuel k s, B.kit.inv s →
        B.kit.inv (skipValuesLoop B.kit t fuel k s).2 := by
      intro t fuel
      induction fuel with
      | zero => intro k s h; exact h
      | succ n ih =>
          intro k s h
          simp only [skipValuesLoop]
          by_cases hk : k < t
          · rw [if_pos hk]
            rcases hn : B.kit.next s with ⟨s1, b⟩
            have h1 : B.kit.inv s1 := by have := B.laws.inv_next s h; rwa [hn] at this
            cases b
            · exact h1
            · exact ih (k + 1) s1 h1
          · rw [if_neg hk]; exact h
    have SVinv : ∀ k s, B.kit.inv s → B.kit.inv (skipValues B.kit toSkip k s).2 := by
      intro k s h
      cases toSkip with
      | none => exact h
      | some t => exact SLinv t _ k s h
    have SLrem : ∀ (t : Int) fuel k s, B.kit.inv s →
        B.kit.rem (skipValuesLoop B.kit t fuel k s).2 ≤ B.kit.rem s := by
      intro t fuel
      induction fuel with
      | zero => intro k s h; exact Nat.le_refl _
      | succ n ih =>
          intro k s h
          simp only [skipValuesLoop]
          by_cases hk : k < t
          · rw [if_pos hk]
            rcases hn : B.kit.next s with ⟨s1, b⟩
            have h1 : B.kit.inv s1 := by have := B.laws.inv_next s h; rwa [hn] at this
            have hle : B.kit.rem s1 ≤ B.kit.rem s := by
              have := B.laws.rem_next_le s h; rwa [hn] at this
            cases b
            · exact hle
            · exact le_trans (ih (k + 1) s1 h1) hle
          · rw [if_neg hk]
    have SVrem : ∀ k s, B.kit.inv s →
        B.kit.rem (skipValues B.kit toSkip k s).2 ≤ B.kit.rem s := by
      intro k s h
      cases toSkip with
      | none => exact Nat.le_refl _
      | some t => exact SLrem t _ k s h
    have SLstarted : ∀ (t : Int) fuel k s, B.kit.inv s → B.kit.hasStarted s = true →
        B.kit.hasStarted (skipValuesLoop B.kit t fuel k s).2 = true := by
      intro t fuel
      induction fuel with
      | zero => intro k s h hs; exact hs
      | succ n ih =>
          intro k s h hs
          simp only [skipValuesLoop]
          by_cases hk : k < t
          · rw [if_pos hk]
            rcases hn : B.kit.next s with ⟨s1, b⟩
            have h1 : B.kit.inv s1 := by have := B.laws.inv_next s h; rwa [hn] at this
            have hs1 : B.kit.hasStarted s1 = true := by
              have := B.laws.started_next s h hs; rwa [hn] at this
            cases b
            · exact hs1
            · exact ih (k + 1) s1 h1 hs1
          · rw [if_neg hk]; exact hs
    have SVstarted : ∀ k s, B.kit.inv s → B.kit.hasStarted s = true →
        B.kit.hasStarted (skipValues B.kit toSkip k s).2 = true := by
      intro k s h hs
      cases toSkip with
      | none => exact hs
      | some t => exact SLstarted t _ k s h hs
    have SLdead : ∀ (t : Int) fuel k s, B.kit.dead s →
        B.kit.dead (skipValuesLoop B.kit t fuel k s).2 := by
      intro t fuel
      induction fuel with
      | zero => intro k s h; exact h
      | succ n ih =>
          intro k s h
          simp only [skipValuesLoop]
          by_cases hk : k < t
          · rw [if_pos hk]
            rcases hn : B.kit.next s with ⟨s1, b⟩
            have hd := B.laws.dead_next s h
            rw [hn] at hd
            cases b
            · exact hd.2
            · cases hd.1
          · rw [if_neg hk]; exact h
    have SVdead : ∀ k s, B.kit.dead s → B.kit.dead (skipValues B.kit toSkip k s).2 := by
      intro k s h
      cases toSkip with
      | none => exact h
      | some t => exact SLdead t _ k s h
    have SLpost : ∀ (t : Int) fuel k s, (t - k).toNat = fuel →
        t ≤ (skipValuesLoop B.kit t fuel k s).1 := by
      intro t fuel
      induction fuel with
      | zero => intro k s hf; simp only [skipValuesLoop]; omega
      | succ n ih =>
          intro k s hf
          simp only [skipValuesLoop]
          have hk : k < t := by omega
          rw [if_pos hk]
          rcases B.kit.next s with ⟨s1, b⟩
          cases b
          · exact le_refl t
          · exact ih (k + 1) s1 (by omega)
    have SVnoopK : ∀ k0 (s0 : σ) (x : σ),
        skipValues B.kit toSkip (skipValues B.kit toSkip k0 s0).1 x =
          ((skipValues B.kit toSkip k0 s0).1, x) := by
      intro k0 s0 x
      cases toSkip with
      | none => simp [skipValues]
      | some t =>
          have hp := SLpost t _ k0 s0 rfl
          simp only [skipValues] at hp ⊢
          rw [Int.toNat_of_nonpos (by omega)]
          simp [skipValuesLoop]
    have SHCeval : ∀ k1 (s1 : σ), B.kit.inv s1 →
        ((B.kit.hasCurrent s1).2 = true →
          skipValues B.kit toSkip k1 (B.kit.hasCurrent s1).1 =
            (k1, (B.kit.hasCurrent s1).1)) →
        ((skipKit B.kit toSkip).hasCurrent (k1, s1)).2 = (B.kit.hasCurrent s1).2 := by
      intro k1 s1 h1 hno
      simp only [skipKit]
      by_cases hb : (B.kit.hasCurrent s1).2 = true
      · rw [if_pos hb, hno hb]
        have := B.laws.hc_hc s1 h1
        simp only at this ⊢
        rw [this, hb]
      · rw [if_neg hb]
        have hbf : (B.kit.hasCurrent s1).2 = false := by
          revert hb; cases hx : (B.kit.hasCurrent s1).2 <;> simp
        have := B.laws.hc_hc s1 h1
        simp only at this ⊢
        rw [this, hbf]
    refine
      { inv_next := ?_, inv_hc := ?_, inv_gc := ?_, fresh_inv := ?_, fresh_started := ?_,
        fresh_hc := ?_, fresh_hc_id := ?_, started_next := ?_, started_hc := ?_,
        started_gc := ?_, next_hc := ?_, hc_hc := ?_, hc_gc := ?_, next_false_dead := ?_,
        dead_next := ?_, dead_hc := ?_, dead_gc := ?_, rem_next_true := ?_,
        rem_next_le := ?_, rem_hc := ?_, rem_gc := ?_ }
    · -- inv_next
      rintro ⟨k, si⟩ h
      exact B.laws.inv_next _ (SVinv k si h)
    · -- inv_hc
      rintro ⟨k, si⟩ h
      simp only [skipKit]
      by_cases hb : (B.kit.hasCurrent si).2 = true
      · rw [if_pos hb]
        exact B.laws.inv_hc _ (SVinv _ _ (B.laws.inv_hc si h))
      · rw [if_neg hb]
        exact B.laws.inv_hc _ (B.laws.inv_hc si h)
    · -- inv_gc
      rintro ⟨k, si⟩ h
      simp only [skipKit]
      by_cases hb : (B.kit.hasCurrent si).2 = true
      · rw [if_pos hb]
        exact B.laws.inv_gc _ (SVinv _ _ (B.laws.inv_hc si h))
      · rw [if_neg hb]
        exact B.laws.inv_gc _ (B.laws.inv_hc si h)
    · -- fresh_inv
      rintro ⟨k, si⟩ ⟨hk, hf⟩
      exact B.laws.fresh_inv si hf
    · -- fresh_started
      rintro ⟨k, si⟩ ⟨hk, hf⟩
      exact B.laws.fresh_started si hf
    · -- fresh_hc
      rintro ⟨k, si⟩ ⟨hk, hf⟩
      simp only [skipKit]
      rw [if_neg (by rw [B.laws.fresh_hc si hf]; simp)]
      rw [B.laws.fresh_hc_id si hf]
      exact B.laws.fresh_hc si hf
    · -- fresh_hc_id
      rintro ⟨k, si⟩ ⟨hk, hf⟩
      simp only [skipKit]
      rw [if_neg (by rw [B.laws.fresh_hc si hf]; simp)]
      rw [B.laws.fresh_hc_id si hf, B.laws.fresh_hc_id si hf]
    · -- started_next
      rintro ⟨k, si⟩ h hs
      simp only [skipKit] at hs ⊢
      exact B.laws.started_next _ (SVinv k si h) (SVstarted k si h hs)
    · -- started_hc
      rintro ⟨k, si⟩ h hs
      simp only [skipKit] at hs ⊢
      by_cases hb : (B.kit.hasCurrent si).2 = true
      · rw [if_pos hb]
        exact B.laws.started_hc _ (SVinv _ _ (B.laws.inv_hc si h))
          (SVstarted _ _ (B.laws.inv_hc si h) (B.laws.started_hc si h hs))
      · rw [if_neg hb]
        exact B.laws.started_hc _ (B.laws.inv_hc si h) (B.laws.started_hc si h hs)
    · -- started_gc
      rintro ⟨k, si⟩ h hs
      simp only [skipKit] at hs ⊢
      by_cases hb : (B.kit.hasCurrent si).2 = true
      · rw [if_pos hb]
        exact B.laws.started_gc _ (SVinv _ _ (B.laws.inv_hc si h))
          (SVstarted _ _ (B.laws.inv_hc si h) (B.laws.started_hc si h hs))
      · rw [if_neg hb]
        exact B.laws.started_gc _ (B.laws.inv_hc si h) (B.laws.started_hc si h hs)
    · -- next_hc
      rintro ⟨k, si⟩ h
      have hnx : (skipKit B.kit toSkip).next (k, si) =
          (((skipValues B.kit toSkip k si).1,
              (B.kit.next (skipValues B.kit toSkip k si).2).1),
            (B.kit.next (skipValues B.kit toSkip k si).2).2) := rfl
      rw [hnx]
      have h1 : B.kit.inv (skipValues B.kit toSkip k si).2 := SVinv k si h
      have h2 : B.kit.inv (B.kit.next (skipValues B.kit toSkip k si).2).1 :=
        B.laws.inv_next _ h1
      rw [SHCeval _ _ h2 (fun _ => SVnoopK k si _)]
      exact B.laws.next_hc _ h1
    · -- hc_hc
      rintro ⟨k, si⟩ h
      by_cases hb : (B.kit.hasCurrent si).2 = true
      · have hhc : (skipKit B.kit toSkip).hasCurrent (k, si) =
            (((skipValues B.kit toSkip k (B.kit.hasCurrent si).1).1,
                (B.kit.hasCurrent (skipValues B.kit toSkip k (B.kit.hasCurrent si).1).2).1),
              (B.kit.hasCurrent (skipValues B.kit toSkip k (B.kit.hasCurrent si).1).2).2) := by
          simp only [skipKit]
          rw [if_pos hb]
        rw [hhc]
        have hq1 : B.kit.inv (skipValues B.kit toSkip k (B.kit.hasCurrent si).1).2 :=
          SVinv _ _ (B.laws.inv_hc si h)
        have hq2 : B.kit.inv
            (B.kit.hasCurrent (skipValues B.kit toSkip k (B.kit.hasCurrent si).1).2).1 :=
          B.laws.inv_hc _ hq1
        rw [SHCeval _ _ hq2 (fun _ => SVnoopK k _ _)]
        exact B.laws.hc_hc _ hq1
      · have hbf : (B.kit.hasCurrent si).2 = false := by
          revert hb; cases hx : (B.kit.hasCurrent si).2 <;> simp
        have hhc : (skipKit B.kit toSkip).hasCurrent (k, si) =
            ((k, (B.kit.hasCurrent (B.kit.hasCurrent si).1).1),
              (B.kit.hasCurrent (B.kit.hasCurrent si).1).2) := by
          simp only [skipKit]
          rw [if_neg hb]
        rw [hhc]
        have hp1 : B.kit.inv (B.kit.hasCurrent si).1 := B.laws.inv_hc si h
        have hpp : (B.kit.hasCurrent (B.kit.hasCurrent si).1).2 = false := by
          rw [B.laws.hc_hc si h, hbf]
        have hq2 : B.kit.inv (B.kit.hasCurrent (B.kit.hasCurrent si).1).1 :=
          B.laws.inv_hc _ hp1
        rw [SHCeval _ _ hq2 (fun hh => by
          rw [B.laws.hc_hc _ hp1, hpp] at hh
          cases hh)]
        rw [B.laws.hc_hc _ hp1, hpp]
    · -- hc_gc
      rintro ⟨k, si⟩ h
      by_cases hb : (B.kit.hasCurrent si).2 = true
      · have hgc : (skipKit B.kit toSkip).getCurrent (k, si) =
            (((skipValues B.kit toSkip k (B.kit.hasCurrent si).1).1,
                (B.kit.getCurrent (skipValues B.kit toSkip k (B.kit.hasCurrent si).1).2).1),
              (B.kit.getCurrent (skipValues B.kit toSkip k (B.kit.hasCurrent si).1).2).2) := by
          simp only [skipKit]
          rw [if_pos hb]
        have hhc : (skipKit B.kit toSkip).hasCurrent (k, si) =
            (((skipValues B.kit toSkip k (B.kit.hasCurrent si).1).1,
                (B.kit.hasCurrent (skipValues B.kit toSkip k (B.kit.hasCurrent si).1).2).1),
              (B.kit.hasCurrent (skipValues B.kit toSkip k (B.kit.hasCurrent si).1).2).2) := by
          simp only [skipKit]
          rw [if_pos hb]
        rw [hgc, hhc]
        have hq1 : B.kit.inv (skipValues B.kit toSkip k (B.kit.hasCurrent si).1).2 :=
          SVinv _ _ (B.laws.inv_hc si h)
        have hq2 : B.kit.inv
            (B.kit.getCurrent (skipValues B.kit toSkip k (B.kit.hasCurrent si).1).2).1 :=
          B.laws.inv_gc _ hq1
        rw [SHCeval _ _ hq2 (fun _ => SVnoopK k _ _)]
        simp only
        exact B.laws.hc_gc _ hq1
      · have hbf : (B.kit.hasCurrent si).2 = false := by
          revert hb; cases hx : (B.kit.hasCurrent si).2 <;> simp
        have hgc : (skipKit B.kit toSkip).getCurrent (k, si) =
            ((k, (B.kit.getCurrent (B.kit.hasCurrent si).1).1),
              (B.kit.getCurrent (B.kit.hasCurrent si).1).2) := by
          simp only [skipKit]
          rw [if_neg hb]
        have hhc : (skipKit B.kit toSkip).hasCurrent (k, si) =
            ((k, (B.kit.hasCurrent (B.kit.hasCurrent si).1).1),
              (B.kit.hasCurrent (B.kit.hasCurrent si).1).2) := by
          simp only [skipKit]
          rw [if_neg hb]
        rw [hgc, hhc]
        have hp1 : B.kit.inv (B.kit.hasCurrent si).1 := B.laws.inv_hc si h
        have hpp : (B.kit.hasCurrent (B.kit.hasCurrent si).1).2 = false := by
          rw [B.laws.hc_hc si h, hbf]
        have hgg : (B.kit.hasCurrent (B.kit.getCurrent (B.kit.hasCurrent si).1).1).2 = false := by
          rw [B.laws.hc_gc _ hp1]
          rw [B.laws.hc_hc si h, hbf]
        have hq2 : B.kit.inv (B.kit.getCurrent (B.kit.hasCurrent si).1).1 :=
          B.laws.inv_gc _ hp1
        rw [SHCeval _ _ hq2 (fun hh => by rw [hgg] at hh; cases hh)]
        rw [hgg, hpp]
    · -- next_false_dead
      rintro ⟨k, si⟩ h hbf
      have hnx : (skipKit B.kit toSkip).next (k, si) =
          (((skipValues B.kit toSkip k si).1,
              (B.kit.next (skipValues B.kit toSkip k si).2).1),
            (B.kit.next (skipValues B.kit toSkip k si).2).2) := rfl
      rw [hnx] at hbf ⊢
      have h1 : B.kit.inv (skipValues B.kit toSkip k si).2 := SVinv k si h
      exact B.laws.next_false_dead _ h1 hbf
    · -- dead_next
      rintro ⟨k, si⟩ h
      have hnx : (skipKit B.kit toSkip).next (k, si) =
          (((skipValues B.kit toSkip k si).1,
              (B.kit.next (skipValues B.kit toSkip k si).2).1),
            (B.kit.next (skipValues B.kit toSkip k si).2).2) := rfl
      rw [hnx]
      have hd : B.kit.dead (skipValues B.kit toSkip k si).2 := SVdead k si h
      exact ⟨(B.laws.dead_next _ hd).1, (B.laws.dead_next _ hd).2⟩
    · -- dead_hc
      rintro ⟨k, si⟩ h
      have hd1 := B.laws.dead_hc si h
      have hhc : (skipKit B.kit toSkip).hasCurrent (k, si) =
          ((k, (B.kit.hasCurrent (B.kit.hasCurrent si).1).1),
            (B.kit.hasCurrent (B.kit.hasCurrent si).1).2) := by
        simp only [skipKit]
        rw [if_neg (by rw [hd1.1]; simp)]
      rw [hhc]
      have hd2 := B.laws.dead_hc _ hd1.2
      exact ⟨hd2.1, hd2.2⟩
    · -- dead_gc
      rintro ⟨k, si⟩ h
      have hd1 := B.laws.dead_hc si h
      have hgc : (skipKit B.kit toSkip).getCurrent (k, si) =
          ((k, (B.kit.getCurrent (B.kit.hasCurrent si).1).1),
            (B.kit.getCurrent (B.kit.hasCurrent si).1).2) := by
        simp only [skipKit]
        rw [if_neg (by rw [hd1.1]; simp)]
      rw [hgc]
      have hd2 := B.laws.dead_gc _ hd1.2
      exact ⟨hd2.1, hd2.2⟩
    · -- rem_next_true
      rintro ⟨k, si⟩ h hbt
      have hnx : (skipKit B.kit toSkip).next (k, si) =
          (((skipValues B.kit toSkip k si).1,
              (B.kit.next (skipValues B.kit toSkip k si).2).1),
            (B.kit.next (skipValues B.kit toSkip k si).2).2) := rfl
      rw [hnx] at hbt ⊢
      have h1 : B.kit.inv (skipValues B.kit toSkip k si).2 := SVinv k si h
      have t1 := B.laws.rem_next_true _ h1 hbt
      have t2 := SVrem k si h
      simp only [skipKit]
      omega
    · -- rem_next_le
      rintro ⟨k, si⟩ h
      have h1 : B.kit.inv (skipValues B.kit toSkip k si).2 := SVinv k si h
      have t1 := B.laws.rem_next_le _ h1
      have t2 := SVrem k si h
      simp only [skipKit]
      omega
    · -- rem_hc
      rintro ⟨k, si⟩ h
      simp only [skipKit]
      by_cases hb : (B.kit.hasCurrent si).2 = true
      · rw [if_pos hb]
        dsimp only
        have t1 := B.laws.rem_hc si h
        have t2 := SVrem k _ (B.laws.inv_hc si h)
        have t3 := B.laws.rem_hc _ (SVinv k _ (B.laws.inv_hc si h))
        omega
      · rw [if_neg hb]
        dsimp only
        have t1 := B.laws.rem_hc si h
        have t2 := B.laws.rem_hc _ (B.laws.inv_hc si h)
        omega
    · -- rem_gc
      rintro ⟨k, si⟩ h
      simp only [skipKit]
      by_cases hb : (B.kit.hasCurrent si).2 = true
      · rw [if_pos hb]
        dsimp only
        have t1 := B.laws.rem_hc si h
        have t2 := SVrem k _ (B.laws.inv_hc si h)
        have t3 := B.laws.rem_gc _ (SVinv k _ (B.laws.inv_hc si h))
        omega
      · rw [if_neg hb]
        dsimp only
        have t1 := B.laws.rem_hc si h
        have t2 := B.laws.rem_gc _ (B.laws.inv_hc si h)
        omega

/-- The `TakeIterator` decorator bundled with its laws, over any law-abiding
inner iterator. -/
def takeQ {σ α : Type} (B : QIter σ α) (toTake : Option Int) : QIter (Int × σ) α where
  kit := takeKit B.kit toTake
  laws := by
    refine
      { inv_next := ?_, inv_hc := ?_, inv_gc := ?_, fresh_inv := ?_, fresh_started := ?_,
        fresh_hc := ?_, fresh_hc_id := ?_, started_next := ?_, started_hc := ?_,
        started_gc := ?_, next_hc := ?_, hc_hc := ?_, hc_gc := ?_, next_false_dead := ?_,
        dead_next := ?_, dead_hc := ?_, dead_gc := ?_, rem_next_true := ?_,
        rem_next_le := ?_, rem_hc := ?_, rem_gc := ?_ }
    · -- inv_next
      rintro ⟨k, si⟩ h
      simp only [takeKit]
      by_cases hc : canTakeValue toTake k = true
      · rw [if_pos hc]
        exact B.laws.inv_hc _ (B.laws.inv_next si h)
      · rw [if_neg hc]
        exact B.laws.inv_hc si h
    · -- inv_hc
      rintro ⟨k, si⟩ h
      exact B.laws.inv_hc si h
    · -- inv_gc
      rintro ⟨k, si⟩ h
      simp only [takeKit]
      by_cases hc : ((B.kit.hasCurrent si).2 && canTakeValue toTake k) = true
      · rw [if_pos hc]
        exact B.laws.inv_gc _ (B.laws.inv_hc si h)
      · rw [if_neg hc]
        exact B.laws.inv_hc si h
    · -- fresh_inv
      rintro ⟨k, si⟩ ⟨hk, hf⟩
      exact B.laws.fresh_inv si hf
    · -- fresh_started
      rintro ⟨k, si⟩ ⟨hk, hf⟩
      exact B.laws.fresh_started si hf
    · -- fresh_hc
      rintro ⟨k, si⟩ ⟨hk, hf⟩
      simp only [takeKit]
      rw [B.laws.fresh_hc si hf]
      simp
    · -- fresh_hc_id
      rintro ⟨k, si⟩ ⟨hk, hf⟩
      simp only [takeKit]
      rw [B.laws.fresh_hc_id si hf]
    · -- started_next
      rintro ⟨k, si⟩ h hs
      simp only [takeKit] at hs ⊢
      by_cases hc : canTakeValue toTake k = true
      · rw [if_pos hc]
        exact B.laws.started_hc _ (B.laws.inv_next si h) (B.laws.started_next si h hs)
      · rw [if_neg hc]
        exact B.laws.started_hc si h hs
    · -- started_hc
      rintro ⟨k, si⟩ h hs
      exact B.laws.started_hc si h hs
    · -- started_gc
      rintro ⟨k, si⟩ h hs
      simp only [takeKit] at hs ⊢
      by_cases hc : ((B.kit.hasCurrent si).2 && canTakeValue toTake k) = true
      · rw [if_pos hc]
        exact B.laws.started_gc _ (B.laws.inv_hc si h) (B.laws.started_hc si h hs)
      · rw [if_neg hc]
        exact B.laws.started_hc si h hs
    · -- next_hc
      rintro ⟨k, si⟩ h
      simp only [takeKit]
      by_cases hc : canTakeValue toTake k = true
      · rw [if_pos hc]
        dsimp only
        rw [B.laws.hc_hc _ (B.laws.inv_next si h)]
      · rw [if_neg hc]
        dsimp only
        rw [B.laws.hc_hc si h]
    · -- hc_hc
      rintro ⟨k, si⟩ h
      simp only [takeKit]
      rw [B.laws.hc_hc si h]
    · -- hc_gc
      rintro ⟨k, si⟩ h
      simp only [takeKit]
      by_cases hc : ((B.kit.hasCurrent si).2 && canTakeValue toTake k) = true
      · rw [if_pos hc]
        dsimp only
        rw [B.laws.hc_gc _ (B.laws.inv_hc si h), B.laws.hc_hc si h]
      · rw [if_neg hc]
        dsimp only
        rw [B.laws.hc_hc si h]
    · -- next_false_dead
      rintro ⟨k, si⟩ h hb
      simp only [takeKit] at hb ⊢
      by_cases hc : canTakeValue toTake k = true
      · rw [if_pos hc] at hb ⊢
        dsimp only at hb ⊢
        rw [Bool.and_eq_false_iff] at hb
        rcases hb with hb | hb
        · right; right
          have hb2 : (B.kit.next si).2 = false := by
            rw [← B.laws.next_hc si h]
            exact hb
          exact (B.laws.dead_hc _ (B.laws.next_false_dead si h hb2)).2
        · right; left
          rcases toTake with _ | t
          · cases hc
          · exact ⟨t, rfl, by simp [canTakeValue] at hb; omega⟩
      · rw [if_neg hc] at hb ⊢
        dsimp only at hb ⊢
        rcases toTake with _ | t
        · left; rfl
        · right; left
          exact ⟨t, rfl, by simp [canTakeValue] at hc; omega⟩
    · -- dead_next
      rintro ⟨k, si⟩ h
      simp only [takeKit]
      rcases h with h | ⟨t, ht, hlt⟩ | h
      · subst h
        rw [if_neg (by simp [canTakeValue])]
        constructor
        · rw [show canTakeValue none k = false from rfl, Bool.and_false]
        · left; rfl
      · subst ht
        have hcf : canTakeValue (some t) k = false := by
          simp [canTakeValue]; omega
        rw [if_neg (by rw [hcf]; simp)]
        constructor
        · rw [hcf, Bool.and_false]
        · right; left
          exact ⟨t, rfl, hlt⟩
      · by_cases hc : canTakeValue toTake k = true
        · rw [if_pos hc]
          have hd := B.laws.dead_next si h
          have hd2 := B.laws.dead_hc _ hd.2
          constructor
          · dsimp only
            rw [hd2.1]
            simp
          · right; right
            exact hd2.2
        · rw [if_neg hc]
          have hd := B.laws.dead_hc si h
          constructor
          · dsimp only
            rw [hd.1]
            simp
          · right; right
            exact hd.2
    · -- dead_hc
      rintro ⟨k, si⟩ h
      simp only [takeKit]
      rcases h with h | ⟨t, ht, hlt⟩ | h
      · subst h
        constructor
        · rw [show canTakeValue none k = false from rfl, Bool.and_false]
        · left; rfl
      · subst ht
        have hcf : canTakeValue (some t) k = false := by
          simp [canTakeValue]; omega
        constructor
        · rw [hcf, Bool.and_false]
        · right; left
          exact ⟨t, rfl, hlt⟩
      · have hd := B.laws.dead_hc si h
        constructor
        · rw [hd.1]
          simp
        · right; right
          exact hd.2
    · -- dead_gc
      rintro ⟨k, si⟩ h
      simp only [takeKit]
      rcases h with h | ⟨t, ht, hlt⟩ | h
      · subst h
        rw [if_neg (by rw [show canTakeValue none k = false from rfl, Bool.and_false]; simp)]
        exact ⟨rfl, Or.inl rfl⟩
      · subst ht
        have hcf : canTakeValue (some t) k = false := by
          simp [canTakeValue]; omega
        rw [if_neg (by rw [hcf, Bool.and_false]; simp)]
        exact ⟨rfl, Or.inr (Or.inl ⟨t, rfl, hlt⟩)⟩
      · have hd := B.laws.dead_hc si h
        rw [if_neg (by rw [hd.1]; simp)]
        exact ⟨rfl, Or.inr (Or.inr hd.2)⟩
    · -- rem_next_true
      rintro ⟨k, si⟩ h hb
      simp only [takeKit] at hb ⊢
      by_cases hc : canTakeValue toTake k = true
      · rw [if_pos hc] at hb ⊢
        dsimp only at hb ⊢
        rw [Bool.and_eq_true] at hb
        have hb2 : (B.kit.next si).2 = true := by
          rw [← B.laws.next_hc si h]
          exact hb.1
        have t1 := B.laws.rem_next_true si h hb2
        have t2 := B.laws.rem_hc _ (B.laws.inv_next si h)
        omega
      · rw [if_neg hc] at hb ⊢
        dsimp only at hb
        rw [Bool.and_eq_true] at hb
        exact absurd hb.2 hc
    · -- rem_next_le
      rintro ⟨k, si⟩ h
      simp only [takeKit]
      by_cases hc : canTakeValue toTake k = true
      · rw [if_pos hc]
        dsimp only
        have t1 := B.laws.rem_next_le si h
        have t2 := B.laws.rem_hc _ (B.laws.inv_next si h)
        omega
      · rw [if_neg hc]
        dsimp only
        exact B.laws.rem_hc si h
    · -- rem_hc
      rintro ⟨k, si⟩ h
      exact B.laws.rem_hc si h
    · -- rem_gc
      rintro ⟨k, si⟩ h
      simp only [takeKit]
      by_cases hc : ((B.kit.hasCurrent si).2 && canTakeValue toTake k) = true
      · rw [if_pos hc]
        dsimp only
        have t1 := B.laws.rem_hc si h
        have t2 := B.laws.rem_gc _ (B.laws.inv_hc si h)
        omega
      · rw [if_neg hc]
        dsimp only
        exact B.laws.rem_hc si h

/-- The `MapIterator` decorator bundled with its laws, over any law-abiding
inner iterator. -/
def mapQ {σ α β : Type} (B : QIter σ α) (f : Option (Option α → Option β)) :
    QIter (Bool × σ) β where
  kit := mapKit B.kit f
  laws := by
    refine
      { inv_next := ?_, inv_hc := ?_, inv_gc := ?_, fresh_inv := ?_, fresh_started := ?_,
        fresh_hc := ?_, fresh_hc_id := ?_, started_next := ?_, started_hc := ?_,
        started_gc := ?_, next_hc := ?_, hc_hc := ?_, hc_gc := ?_, next_false_dead := ?_,
        dead_next := ?_, dead_hc := ?_, dead_gc := ?_, rem_next_true := ?_,
        rem_next_le := ?_, rem_hc := ?_, rem_gc := ?_ }
    · rintro ⟨st, si⟩ h
      cases f
      · exact h
      · exact B.laws.inv_next si h
    · rintro ⟨st, si⟩ h
      cases f
      · exact h
      · exact B.laws.inv_hc si h
    · rintro ⟨st, si⟩ h
      rcases f with _ | g
      · exact h
      · simp only [mapKit]
        by_cases hb : (B.kit.hasCurrent si).2 = true
        · rw [if_pos hb]
          exact B.laws.inv_gc _ (B.laws.inv_hc si h)
        · rw [if_neg hb]
          exact B.laws.inv_hc si h
    · rintro ⟨st, si⟩ ⟨hs, hf⟩
      exact B.laws.fresh_inv si hf
    · rintro ⟨st, si⟩ ⟨hs, hf⟩
      exact hs
    · rintro ⟨st, si⟩ ⟨hs, hf⟩
      cases f
      · rfl
      · simp only [mapKit]
        exact B.laws.fresh_hc si hf
    · rintro ⟨st, si⟩ ⟨hs, hf⟩
      cases f
      · rfl
      · simp only [mapKit]
        rw [B.laws.fresh_hc_id si hf]
    · rintro ⟨st, si⟩ h hs
      cases f <;> rfl
    · rintro ⟨st, si⟩ h hs
      cases f
      · exact hs
      · exact hs
    · rintro ⟨st, si⟩ h hs
      rcases f with _ | g
      · exact hs
      · simp only [mapKit]
        by_cases hb : (B.kit.hasCurrent si).2 = true
        · rw [if_pos hb]
          exact hs
        · rw [if_neg hb]
          exact hs
    · -- next_hc
      rintro ⟨st, si⟩ h
      rcases f with _ | g
      · rfl
      · simp only [mapKit]
        exact B.laws.next_hc si h
    · -- hc_hc
      rintro ⟨st, si⟩ h
      rcases f with _ | g
      · rfl
      · simp only [mapKit]
        exact B.laws.hc_hc si h
    · -- hc_gc
      rintro ⟨st, si⟩ h
      rcases f with _ | g
      · rfl
      · simp only [mapKit]
        by_cases hb : (B.kit.hasCurrent si).2 = true
        · rw [if_pos hb]
          dsimp only
          rw [B.laws.hc_gc _ (B.laws.inv_hc si h), B.laws.hc_hc si h]
        · rw [if_neg hb]
          dsimp only
          rw [B.laws.hc_hc si h]
    · -- next_false_dead
      rintro ⟨st, si⟩ h hb
      rcases f with _ | g
      · left; rfl
      · simp only [mapKit] at hb ⊢
        right
        exact B.laws.next_false_dead si h hb
    · -- dead_next
      rintro ⟨st, si⟩ hd
      rcases f with _ | g
      · exact ⟨rfl, Or.inl rfl⟩
      · rcases hd with hd | hd
        · cases hd
        · simp only [mapKit]
          have h2 := B.laws.dead_next si hd
          exact ⟨h2.1, Or.inr h2.2⟩
    · -- dead_hc
      rintro ⟨st, si⟩ hd
      rcases f with _ | g
      · exact ⟨rfl, hd⟩
      · rcases hd with hd | hd
        · cases hd
        · simp only [mapKit]
          have h2 := B.laws.dead_hc si hd
          exact ⟨h2.1, Or.inr h2.2⟩
    · -- dead_gc
      rintro ⟨st, si⟩ hd
      rcases f with _ | g
      · exact ⟨rfl, hd⟩
      · rcases hd with hd | hd
        · cases hd
        · simp only [mapKit]
          have h2 := B.laws.dead_hc si hd
          rw [if_neg (by rw [h2.1]; simp)]
          exact ⟨rfl, Or.inr h2.2⟩
    · -- rem_next_true
      rintro ⟨st, si⟩ h hb
      rcases f with _ | g
      · cases hb
      · simp only [mapKit] at hb ⊢
        exact B.laws.rem_next_true si h hb
    · rintro ⟨st, si⟩ h
      rcases f with _ | g
      · exact Nat.le_refl _
      · exact B.laws.rem_next_le si h
    · rintro ⟨st, si⟩ h
      rcases f with _ | g
      · exact Nat.le_refl _
      · exact B.laws.rem_hc si h
    · rintro ⟨st, si⟩ h
      rcases f with _ | g
      · exact Nat.le_refl _
      · simp only [mapKit]
        by_cases hb : (B.kit.hasCurrent si).2 = true
        · rw [if_pos hb]
          dsimp only
          have t1 := B.laws.rem_hc si h
          have t2 := B.laws.rem_gc _ (B.laws.inv_hc si h)
          omega
        · rw [if_neg hb]
          dsimp only
          exact B.laws.rem_hc si h

/-- The `ConcatenateIterator` bundled with its laws, over two law-abiding
inner iterators. -/
def concatQ {σ₁ σ₂ α : Type} (B₁ : QIter σ₁ α) (B₂ : QIter σ₂ α) : QIter (σ₁ × σ₂) α where
  kit := concatKit B₁.kit B₂.kit
  laws := by
    refine
      { inv_next := ?_, inv_hc := ?_, inv_gc := ?_, fresh_inv := ?_, fresh_started := ?_,
        fresh_hc := ?_, fresh_hc_id := ?_, started_next := ?_, started_hc := ?_,
        started_gc := ?_, next_hc := ?_, hc_hc := ?_, hc_gc := ?_, next_false_dead := ?_,
        dead_next := ?_, dead_hc := ?_, dead_gc := ?_, rem_next_true := ?_,
        rem_next_le := ?_, rem_hc := ?_, rem_gc := ?_ }
    · rintro ⟨s1, s2⟩ ⟨h1, h2⟩
      simp only [concatKit]
      by_cases hb : (B₁.kit.next s1).2 = true
      · rw [if_pos hb]
        exact ⟨B₁.laws.inv_next s1 h1, h2⟩
      · rw [if_neg hb]
        exact ⟨B₁.laws.inv_next s1 h1, B₂.laws.inv_next s2 h2⟩
    · rintro ⟨s1, s2⟩ ⟨h1, h2⟩
      simp only [concatKit]
      by_cases hb : (B₁.kit.hasCurrent s1).2 = true
      · rw [if_pos hb]
        exact ⟨B₁.laws.inv_hc s1 h1, h2⟩
      · rw [if_neg hb]
        exact ⟨B₁.laws.inv_hc s1 h1, B₂.laws.inv_hc s2 h2⟩
    · rintro ⟨s1, s2⟩ ⟨h1, h2⟩
      simp only [concatKit]
      by_cases hb : (B₁.kit.hasCurrent s1).2 = true
      · rw [if_pos hb]
        exact ⟨B₁.laws.inv_gc _ (B₁.laws.inv_hc s1 h1), h2⟩
      · rw [if_neg hb]
        exact ⟨B₁.laws.inv_hc s1 h1, B₂.laws.inv_gc s2 h2⟩
    · rintro ⟨s1, s2⟩ ⟨h1, h2⟩
      exact ⟨B₁.laws.fresh_inv s1 h1, B₂.laws.fresh_inv s2 h2⟩
    · rintro ⟨s1, s2⟩ ⟨h1, h2⟩
      exact B₁.laws.fresh_started s1 h1
    · rintro ⟨s1, s2⟩ ⟨h1, h2⟩
      simp only [concatKit]
      rw [if_neg (by rw [B₁.laws.fresh_hc s1 h1]; simp)]
      exact B₂.laws.fresh_hc s2 h2
    · rintro ⟨s1, s2⟩ ⟨h1, h2⟩
      simp only [concatKit]
      rw [if_neg (by rw [B₁.laws.fresh_hc s1 h1]; simp)]
      rw [B₁.laws.fresh_hc_id s1 h1, B₂.laws.fresh_hc_id s2 h2]
    · rintro ⟨s1, s2⟩ ⟨h1, h2⟩ hs
      simp only [concatKit] at hs ⊢
      by_cases hb : (B₁.kit.next s1).2 = true
      · rw [if_pos hb]
        exact B₁.laws.started_next s1 h1 hs
      · rw [if_neg hb]
        exact B₁.laws.started_next s1 h1 hs
    · rintro ⟨s1, s2⟩ ⟨h1, h2⟩ hs
      simp only [concatKit] at hs ⊢
      by_cases hb : (B₁.kit.hasCurrent s1).2 = true
      · rw [if_pos hb]
        exact B₁.laws.started_hc s1 h1 hs
      · rw [if_neg hb]
        exact B₁.laws.started_hc s1 h1 hs
    · rintro ⟨s1, s2⟩ ⟨h1, h2⟩ hs
      simp only [concatKit] at hs ⊢
      by_cases hb : (B₁.kit.hasCurrent s1).2 = true
      · rw [if_pos hb]
        exact B₁.laws.started_gc _ (B₁.laws.inv_hc s1 h1) (B₁.laws.started_hc s1 h1 hs)
      · rw [if_neg hb]
        exact B₁.laws.started_hc s1 h1 hs
    · -- next_hc
      rintro ⟨s1, s2⟩ ⟨h1, h2⟩
      simp only [concatKit]
      by_cases hb : (B₁.kit.next s1).2 = true
      · rw [if_pos hb]
        dsimp only
        have t1 := B₁.laws.next_hc s1 h1
        rw [hb] at t1
        rw [if_pos t1]
      · rw [if_neg hb]
        dsimp only
        have hbf : (B₁.kit.next s1).2 = false := by
          revert hb; cases hx : (B₁.kit.next s1).2 <;> simp
        have t1 := B₁.laws.next_hc s1 h1
        rw [hbf] at t1
        rw [if_neg (by rw [t1]; simp)]
        exact B₂.laws.next_hc s2 h2
    · -- hc_hc
      rintro ⟨s1, s2⟩ ⟨h1, h2⟩
      simp only [concatKit]
      by_cases hb : (B₁.kit.hasCurrent s1).2 = true
      · rw [if_pos hb]
        dsimp only
        have t1 := B₁.laws.hc_hc s1 h1
        rw [hb] at t1
        rw [if_pos t1]
      · rw [if_neg hb]
        dsimp only
        have hbf : (B₁.kit.hasCurrent s1).2 = false := by
          revert hb; cases hx : (B₁.kit.hasCurrent s1).2 <;> simp
        have t1 := B₁.laws.hc_hc s1 h1
        rw [hbf] at t1
        rw [if_neg (by rw [t1]; simp)]
        exact B₂.laws.hc_hc s2 h2
    · -- hc_gc
      rintro ⟨s1, s2⟩ ⟨h1, h2⟩
      simp only [concatKit]
      by_cases hb : (B₁.kit.hasCurrent s1).2 = true
      · have t1 : (B₁.kit.hasCurrent (B₁.kit.getCurrent (B₁.kit.hasCurrent s1).1).1).2 = true := by
          rw [B₁.laws.hc_gc _ (B₁.laws.inv_hc s1 h1), B₁.laws.hc_hc s1 h1]
          exact hb
        simp only [if_pos hb, if_pos t1]
      · have hbf : (B₁.kit.hasCurrent s1).2 = false := by
          revert hb; cases hx : (B₁.kit.hasCurrent s1).2 <;> simp
        have t1 : (B₁.kit.hasCurrent (B₁.kit.hasCurrent s1).1).2 = false := by
          rw [B₁.laws.hc_hc s1 h1]
          exact hbf
        simp only [if_neg hb, if_neg (show ¬ (B₁.kit.hasCurrent (B₁.kit.hasCurrent s1).1).2 = true by rw [t1]; simp)]
        exact B₂.laws.hc_gc s2 h2
    · -- next_false_dead
      rintro ⟨s1, s2⟩ ⟨h1, h2⟩ hb
      simp only [concatKit] at hb ⊢
      by_cases hb1 : (B₁.kit.next s1).2 = true
      · rw [if_pos hb1] at hb
        cases hb
      · rw [if_neg hb1] at hb ⊢
        dsimp only at hb ⊢
        have hbf : (B₁.kit.next s1).2 = false := by
          revert hb1; cases hx : (B₁.kit.next s1).2 <;> simp
        exact ⟨B₁.laws.next_false_dead s1 h1 hbf, B₂.laws.next_false_dead s2 h2 hb⟩
    · -- dead_next
      rintro ⟨s1, s2⟩ ⟨h1, h2⟩
      simp only [concatKit]
      have t1 := B₁.laws.dead_next s1 h1
      have t2 := B₂.laws.dead_next s2 h2
      rw [if_neg (by rw [t1.1]; simp)]
      exact ⟨t2.1, t1.2, t2.2⟩
    · -- dead_hc
      rintro ⟨s1, s2⟩ ⟨h1, h2⟩
      simp only [concatKit]
      have t1 := B₁.laws.dead_hc s1 h1
      have t2 := B₂.laws.dead_hc s2 h2
      rw [if_neg (by rw [t1.1]; simp)]
      exact ⟨t2.1, t1.2, t2.2⟩
    · -- dead_gc
      rintro ⟨s1, s2⟩ ⟨h1, h2⟩
      simp only [concatKit]
      have t1 := B₁.laws.dead_hc s1 h1
      have t2 := B₂.laws.dead_gc s2 h2
      rw [if_neg (by rw [t1.1]; simp)]
      exact ⟨t2.1, t1.2, t2.2⟩
    · -- rem_next_true
      rintro ⟨s1, s2⟩ ⟨h1, h2⟩ hb
      simp only [concatKit] at hb ⊢
      by_cases hb1 : (B₁.kit.next s1).2 = true
      · rw [if_pos hb1]
        dsimp only
        have t1 := B₁.laws.rem_next_true s1 h1 hb1
        omega
      · rw [if_neg hb1] at hb ⊢
        dsimp only at hb ⊢
        have t1 := B₁.laws.rem_next_le s1 h1
        have t2 := B₂.laws.rem_next_true s2 h2 hb
        omega
    · rintro ⟨s1, s2⟩ ⟨h1, h2⟩
      simp only [concatKit]
      by_cases hb1 : (B₁.kit.next s1).2 = true
      · rw [if_pos hb1]
        dsimp only
        have t1 := B₁.laws.rem_next_le s1 h1
        omega
      · rw [if_neg hb1]
        dsimp only
        have t1 := B₁.laws.rem_next_le s1 h1
        have t2 := B₂.laws.rem_next_le s2 h2
        omega
    · rintro ⟨s1, s2⟩ ⟨h1, h2⟩
      simp only [concatKit]
      by_cases hb1 : (B₁.kit.hasCurrent s1).2 = true
      · rw [if_pos hb1]
        dsimp only
        have t1 := B₁.laws.rem_hc s1 h1
        omega
      · rw [if_neg hb1]
        dsimp only
        have t1 := B₁.laws.rem_hc s1 h1
        have t2 := B₂.laws.rem_hc s2 h2
        omega
    · rintro ⟨s1, s2⟩ ⟨h1, h2⟩
      simp only [concatKit]
      by_cases hb1 : (B₁.kit.hasCurrent s1).2 = true
      · rw [if_pos hb1]
        dsimp only
        have t1 := B₁.laws.rem_hc s1 h1
        have t2 := B₁.laws.rem_gc _ (B₁.laws.inv_hc s1 h1)
        omega
      · rw [if_neg hb1]
        dsimp only
        have t1 := B₁.laws.rem_hc s1 h1
        have t2 := B₂.laws.rem_gc s2 h2
        omega

/-- `WhereIterable.iterate` (src 727) wraps the inner iterator in a
`WhereIterator`; the laws hold for any condition. -/
def whereQ {σ α : Type} (B : QIter σ α) (cond : Option (Option α → Bool)) :
    QIter {x : σ // B.kit.inv x} α where
  kit := whereKit B.kit B.laws cond
  laws := by
    have WL : ∀ (c : Option α → Bool) (n : Nat) (s : {x : σ // B.kit.inv x}),
        B.kit.rem s.1 = n →
        B.kit.rem (whereLoop B.kit B.laws c s).1 ≤ B.kit.rem s.1
        ∧ ((B.kit.hasCurrent (whereLoop B.kit B.laws c s).1).2 = false →
            B.kit.dead (whereLoop B.kit B.laws c s).1)
        ∧ (B.kit.hasStarted (B.kit.next s.1).1 = true →
            B.kit.hasStarted (whereLoop B.kit B.laws c s).1 = true)
        ∧ ((B.kit.hasCurrent (whereLoop B.kit B.laws c s).1).2 = true →
            B.kit.rem (whereLoop B.kit B.laws c s).1 < B.kit.rem s.1) := by
      intro c n
      induction n using Nat.strong_induction_on with
      | _ n IH =>
        intro s hn
        by_cases hb : (B.kit.next s.1).2 = false
        · have heq : whereLoop B.kit B.laws c s =
              ⟨(B.kit.next s.1).1, B.laws.inv_next s.1 s.2⟩ := by
            conv_lhs => rw [whereLoop]
            rw [dif_pos hb]
          rw [heq]
          dsimp only
          have hd := B.laws.next_false_dead s.1 s.2 hb
          refine ⟨B.laws.rem_next_le s.1 s.2, fun _ => hd, fun hs => hs, fun ht => ?_⟩
          rw [(B.laws.dead_hc _ hd).1] at ht
          exact absurd ht (by simp)
        · have hbt : (B.kit.next s.1).2 = true := by
            revert hb; cases hx : (B.kit.next s.1).2 <;> simp
          have hin : B.kit.inv (B.kit.next s.1).1 := B.laws.inv_next s.1 s.2
          have hrlt : B.kit.rem (B.kit.getCurrent (B.kit.next s.1).1).1 < B.kit.rem s.1 := by
            have t1 := B.laws.rem_next_true s.1 s.2 hbt
            have t2 := B.laws.rem_gc (B.kit.next s.1).1 hin
            omega
          by_cases hcv : c (B.kit.getCurrent (B.kit.next s.1).1).2 = true
          · have heq : whereLoop B.kit B.laws c s =
                ⟨(B.kit.getCurrent (B.kit.next s.1).1).1, B.laws.inv_gc _ hin⟩ := by
              conv_lhs => rw [whereLoop]
              rw [dif_neg hb, if_pos hcv]
            rw [heq]
            dsimp only
            refine ⟨le_of_lt hrlt, fun hf => ?_,
              fun hs => B.laws.started_gc _ hin hs, fun _ => hrlt⟩
            have t := B.laws.hc_gc (B.kit.next s.1).1 hin
            rw [B.laws.next_hc s.1 s.2, hbt] at t
            rw [t] at hf
            exact absurd hf (by simp)
          · have heq : whereLoop B.kit B.laws c s =
                whereLoop B.kit B.laws c
                  ⟨(B.kit.getCurrent (B.kit.next s.1).1).1, B.laws.inv_gc _ hin⟩ := by
              conv_lhs => rw [whereLoop]
              rw [dif_neg hb, if_neg hcv]
            rw [heq]
            obtain ⟨P1, P2, P3, P4⟩ :=
              IH (B.kit.rem (B.kit.getCurrent (B.kit.next s.1).1).1) (by omega)
                ⟨(B.kit.getCurrent (B.kit.next s.1).1).1, B.laws.inv_gc _ hin⟩ rfl
            dsimp only at P1 P3 P4 ⊢
            refine ⟨by omega, P2, fun hs => P3 ?_, fun hh => by have := P4 hh; omega⟩
            exact B.laws.started_next _ (B.laws.inv_gc _ hin) (B.laws.started_gc _ hin hs)
    refine
      { inv_next := ?_, inv_hc := ?_, inv_gc := ?_, fresh_inv := ?_, fresh_started := ?_,
        fresh_hc := ?_, fresh_hc_id := ?_, started_next := ?_, started_hc := ?_,
        started_gc := ?_, next_hc := ?_, hc_hc := ?_, hc_gc := ?_, next_false_dead := ?_,
        dead_next := ?_, dead_hc := ?_, dead_gc := ?_, rem_next_true := ?_,
        rem_next_le := ?_, rem_hc := ?_, rem_gc := ?_ }
    · intro s _; exact trivial
    · intro s _; exact trivial
    · intro s _; exact trivial
    · intro s _; exact trivial
    · -- fresh_started
      intro s h
      simp only [whereKit] at h ⊢
      exact B.laws.fresh_started s.1 h
    · -- fresh_hc
      intro s h
      simp only [whereKit] at h ⊢
      exact B.laws.fresh_hc s.1 h
    · -- fresh_hc_id
      intro s h
      simp only [whereKit] at h ⊢
      exact Subtype.ext (B.laws.fresh_hc_id s.1 h)
    · -- started_next
      intro s _ hs
      rcases cond with _ | c
      · simp only [whereKit] at hs ⊢
        exact B.laws.started_hc _ (B.laws.inv_next s.1 s.2)
          (B.laws.started_next s.1 s.2 hs)
      · simp only [whereKit] at hs ⊢
        have hw := (WL c (B.kit.rem s.1) s rfl).2.2.1 (B.laws.started_next s.1 s.2 hs)
        exact B.laws.started_hc _ (whereLoop B.kit B.laws c s).2 hw
    · -- started_hc
      intro s _ hs
      simp only [whereKit] at hs ⊢
      exact B.laws.started_hc s.1 s.2 hs
    · -- started_gc
      intro s _ hs
      simp only [whereKit] at hs ⊢
      exact B.laws.started_gc s.1 s.2 hs
    · -- next_hc
      intro s _
      rcases cond with _ | c
      · simp only [whereKit]
        exact B.laws.hc_hc _ (B.laws.inv_next s.1 s.2)
      · simp only [whereKit]
        exact B.laws.hc_hc _ (whereLoop B.kit B.laws c s).2
    · -- hc_hc
      intro s _
      simp only [whereKit]
      exact B.laws.hc_hc s.1 s.2
    · -- hc_gc
      intro s _
      simp only [whereKit]
      exact B.laws.hc_gc s.1 s.2
    · -- next_false_dead
      intro s _ hb
      rcases cond with _ | c
      · simp only [whereKit] at hb ⊢
        have h1 : (B.kit.next s.1).2 = false := by
          rw [← B.laws.next_hc s.1 s.2]; exact hb
        exact (B.laws.dead_hc _ (B.laws.next_false_dead s.1 s.2 h1)).2
      · simp only [whereKit] at hb ⊢
        have hd := (WL c (B.kit.rem s.1) s rfl).2.1 hb
        exact (B.laws.dead_hc _ hd).2
    · -- dead_next
      intro s hd
      rcases cond with _ | c
      · simp only [whereKit] at hd ⊢
        have hd1 := B.laws.dead_next s.1 hd
        exact ⟨(B.laws.dead_hc _ hd1.2).1, (B.laws.dead_hc _ hd1.2).2⟩
      · simp only [whereKit] at hd ⊢
        have hd1 := B.laws.dead_next s.1 hd
        have heq : whereLoop B.kit B.laws c s =
            ⟨(B.kit.next s.1).1, B.laws.inv_next s.1 s.2⟩ := by
          conv_lhs => rw [whereLoop]
          rw [dif_pos hd1.1]
        rw [heq]
        dsimp only
        exact ⟨(B.laws.dead_hc _ hd1.2).1, (B.laws.dead_hc _ hd1.2).2⟩
    · -- dead_hc
      intro s hd
      simp only [whereKit] at hd ⊢
      exact ⟨(B.laws.dead_hc s.1 hd).1, (B.laws.dead_hc s.1 hd).2⟩
    · -- dead_gc
      intro s hd
      simp only [whereKit] at hd ⊢
      exact ⟨(B.laws.dead_gc s.1 hd).1, (B.laws.dead_gc s.1 hd).2⟩
    · -- rem_next_true
      intro s _ hb
      rcases cond with _ | c
      · simp only [whereKit] at hb ⊢
        have h1 : (B.kit.next s.1).2 = true := by
          rw [← B.laws.next_hc s.1 s.2]; exact hb
        have t1 := B.laws.rem_next_true s.1 s.2 h1
        have t2 := B.laws.rem_hc _ (B.laws.inv_next s.1 s.2)
        omega
      · simp only [whereKit] at hb ⊢
        have t1 := (WL c (B.kit.rem s.1) s rfl).2.2.2 hb
        have t2 := B.laws.rem_hc _ (whereLoop B.kit B.laws c s).2
        omega
    · -- rem_next_le
      intro s _
      rcases cond with _ | c
      · simp only [whereKit]
        have t1 := B.laws.rem_next_le s.1 s.2
        have t2 := B.laws.rem_hc _ (B.laws.inv_next s.1 s.2)
        omega
      · simp only [whereKit]
        have t1 := (WL c (B.kit.rem s.1) s rfl).1
        have t2 := B.laws.rem_hc _ (whereLoop B.kit B.laws c s).2
        omega
    · -- rem_hc
      intro s _
      simp only [whereKit]
      exact B.laws.rem_hc s.1 s.2
    · -- rem_gc
      intro s _
      simp only [whereKit]
      exact B.laws.rem_gc s.1 s.2

/-- The `Lexer` bundled with its laws.  The invariant (a non-negative
character index) holds for every reachable state and makes "no current
character" equivalent to "past the end". -/
def lexerQ (text : Option (List Char)) (offset : Int) : QIter LexSt Lex where
  kit := lexerKit text offset
  laws := by
    have hei : 0 ≤ jsGetLength text := by
      cases text
      · simp [jsGetLength]
      · simp only [jsGetLength]
        omega
    have hstep : strStep 0 (jsGetLength text) = 1 := by
      rw [strStep, if_pos hei]
    have hmB : ∀ i : Int, strHasMoreB 0 (jsGetLength text) i = true ↔ i < jsGetLength text := by
      intro i
      simp [strHasMoreB, hstep]
    have hit0 : ∀ s : LexSt, (lexStartIt text s).1 = true ∧ (lexStartIt text s).2 = s.1.2 := by
      intro s
      by_cases hb : s.1.1 = false
      · simp [lexStartIt, hb, strNextSt, strNextIdx]
      · simp only [lexStartIt, if_neg hb]
        exact ⟨by revert hb; cases s.1.1 <;> simp, trivial⟩
    have hremit0 : ∀ s : LexSt,
        strRem 0 (jsGetLength text) (lexStartIt text s) ≤ strRem 0 (jsGetLength text) s.1 := by
      intro s
      have h1 := (hit0 s).1
      have h2 := (hit0 s).2
      simp only [strRem, hstep, h1, h2]
      split_ifs <;> omega
    have hgcS : ∀ (st : StrSt) (c : Char),
        strGetCur text 0 (jsGetLength text) st = some c →
        st.1 = true ∧ strHasMoreB 0 (jsGetLength text) st.2 = true := by
      intro st c hg
      unfold strGetCur at hg
      split_ifs at hg with hcd
      simpa using hcd
    have hgcN : ∀ st : StrSt, st.1 = true → 0 ≤ st.2 →
        strGetCur text 0 (jsGetLength text) st = none →
        strHasMoreB 0 (jsGetLength text) st.2 = false := by
      intro st h1 h0 hg
      cases hx : strHasMoreB 0 (jsGetLength text) st.2 with
      | false => rfl
      | true =>
          exfalso
          have hlt : st.2 < jsGetLength text := (hmB st.2).1 hx
          unfold strGetCur at hg
          rw [if_pos (by rw [h1, hx]; rfl)] at hg
          cases text with
          | none => simp [jsGetLength] at hlt; omega
          | some cs =>
              simp only [jsGetLength] at hlt
              simp only [strCharAt] at hg
              split_ifs at hg with hcnd
              exact hcnd ⟨h0, hlt⟩
    have hnxT : ∀ st : StrSt, st.1 = true → strHasMoreB 0 (jsGetLength text) st.2 = true →
        strNextSt 0 (jsGetLength text) st =
          ((true, st.2 + 1), strHasMoreB 0 (jsGetLength text) (st.2 + 1)) := by
      rintro ⟨b, i⟩ h1 h2
      dsimp only at h1 h2 ⊢
      subst h1
      simp [strNextSt, strNextIdx, h2, hstep]
    have RWpost : ∀ (cond : Char → Bool) (n : Nat) (i : Int),
        strRem 0 (jsGetLength text) (true, i) = n →
        strHasMoreB 0 (jsGetLength text) i = true →
        (readWhileLoop text 0 (jsGetLength text) cond (true, i)).2.1 = true
        ∧ i + 1 ≤ (readWhileLoop text 0 (jsGetLength text) cond (true, i)).2.2 := by
      intro cond n
      induction n using Nat.strong_induction_on with
      | _ n IH =>
        intro i hn hm
        have hnx := hnxT (true, i) rfl hm
        dsimp only at hnx
        by_cases hb : (strNextSt 0 (jsGetLength text) (true, i)).2 = true
        · have hb' : strHasMoreB 0 (jsGetLength text) (i + 1) = true := by
            rw [hnx] at hb; exact hb
          rcases hgcv : strGetCur text 0 (jsGetLength text) (true, i + 1) with _ | ch
          · have heq : readWhileLoop text 0 (jsGetLength text) cond (true, i) =
                ([], (true, i + 1)) := by
              conv_lhs => rw [readWhileLoop]
              rw [dif_pos hb, hnx]
              dsimp only
              rw [hgcv]
            rw [heq]
            dsimp only
            exact ⟨rfl, by omega⟩
          · by_cases hcnd : cond ch = true
            · have hlt : i < jsGetLength text := (hmB i).1 hm
              have hrec := IH (strRem 0 (jsGetLength text) (true, i + 1))
                (by simp [strRem, hstep] at hn ⊢; omega) (i + 1) rfl hb'
              have heq : readWhileLoop text 0 (jsGetLength text) cond (true, i) =
                  (ch :: (readWhileLoop text 0 (jsGetLength text) cond (true, i + 1)).1,
                    (readWhileLoop text 0 (jsGetLength text) cond (true, i + 1)).2) := by
                conv_lhs => rw [readWhileLoop]
                rw [dif_pos hb, hnx]
                dsimp only
                rw [hgcv]
                dsimp only
                rw [if_pos hcnd]
              rw [heq]
              dsimp only
              exact ⟨hrec.1, by have := hrec.2; omega⟩
            · have heq : readWhileLoop text 0 (jsGetLength text) cond (true, i) =
                  ([], (true, i + 1)) := by
                conv_lhs => rw [readWhileLoop]
                rw [dif_pos hb, hnx]
                dsimp only
                rw [hgcv]
                dsimp only
                rw [if_neg hcnd]
              rw [heq]
              dsimp only
              exact ⟨rfl, by omega⟩
        · have heq : readWhileLoop text 0 (jsGetLength text) cond (true, i) =
              ([], (true, i + 1)) := by
            conv_lhs => rw [readWhileLoop]
            rw [dif_neg hb, hnx]
          rw [heq]
          dsimp only
          exact ⟨rfl, by omega⟩
    have LCpost : ∀ (it0 : StrSt) (c : Char), it0.1 = true →
        strHasMoreB 0 (jsGetLength text) it0.2 = true →
        (lexClassify text offset it0 c).2.1 = true
        ∧ it0.2 + 1 ≤ (lexClassify text offset it0 c).2.2 := by
      intro it0 c h1 h2
      have hnx := hnxT it0 h1 h2
      have hit : it0 = (true, it0.2) := by
        obtain ⟨b, i⟩ := it0
        dsimp only at h1 ⊢
        rw [h1]
      have hA : (strNextSt 0 (jsGetLength text) it0).1.1 = true
          ∧ it0.2 + 1 ≤ (strNextSt 0 (jsGetLength text) it0).1.2 := by
        rw [hnx]
        dsimp only
        exact ⟨rfl, by omega⟩
      have hB : (strNextSt 0 (jsGetLength text) (strNextSt 0 (jsGetLength text) it0).1).1.1 = true
          ∧ it0.2 + 1 ≤
            (strNextSt 0 (jsGetLength text) (strNextSt 0 (jsGetLength text) it0).1).1.2 := by
        rw [hnx]
        dsimp only
        by_cases hm2 : strHasMoreB 0 (jsGetLength text) (it0.2 + 1) = true
        · rw [hnxT (true, it0.2 + 1) rfl hm2]
          dsimp only
          exact ⟨rfl, by omega⟩
        · simp [strNextSt, strNextIdx, hm2]
      have hL : (readWhile text 0 (jsGetLength text) isLetter it0).2.1 = true
          ∧ it0.2 + 1 ≤ (readWhile text 0 (jsGetLength text) isLetter it0).2.2 := by
        simp only [readWhile]
        rw [hit]
        exact RWpost isLetter (strRem 0 (jsGetLength text) (true, it0.2)) it0.2 rfl h2
      have hD : (readWhile text 0 (jsGetLength text) isDigit it0).2.1 = true
          ∧ it0.2 + 1 ≤ (readWhile text 0 (jsGetLength text) isDigit it0).2.2 := by
        simp only [readWhile]
        rw [hit]
        exact RWpost isDigit (strRem 0 (jsGetLength text) (true, it0.2)) it0.2 rfl h2
      rcases hf : singleCharLexFactory c with _ | f
      · simp only [lexClassify, hf]
        split_ifs <;> (try dsimp only) <;> first | exact hA | exact hB | exact hL | exact hD
      · simp only [lexClassify, hf]
        exact hA
    refine
      { inv_next := ?_, inv_hc := ?_, inv_gc := ?_, fresh_inv := ?_, fresh_started := ?_,
        fresh_hc := ?_, fresh_hc_id := ?_, started_next := ?_, started_hc := ?_,
        started_gc := ?_, next_hc := ?_, hc_hc := ?_, hc_gc := ?_, next_false_dead := ?_,
        dead_next := ?_, dead_hc := ?_, dead_gc := ?_, rem_next_true := ?_,
        rem_next_le := ?_, rem_hc := ?_, rem_gc := ?_ }
    · -- inv_next
      intro s h
      rcases hg : strGetCur text 0 (jsGetLength text) (lexStartIt text s) with _ | c
      · simp only [lexerKit, lexNext, hg]
        rw [(hit0 s).2]
        exact h
      · simp only [lexerKit, lexNext, hg]
        have hPC := LCpost (lexStartIt text s) c (hit0 s).1 (hgcS _ c hg).2
        have e2 := (hit0 s).2
        simp only [lexerKit] at h
        omega
    · -- inv_hc
      intro s h
      exact h
    · -- inv_gc
      intro s h
      exact h
    · -- fresh_inv
      intro s h
      simp only [lexerKit] at h ⊢
      rw [h.1]
    · -- fresh_started
      intro s h
      simp only [lexerKit] at h ⊢
      rw [h.1]
    · -- fresh_hc
      intro s h
      simp only [lexerKit] at h ⊢
      rw [h.2]
      rfl
    · -- fresh_hc_id
      intro s _
      rfl
    · -- started_next
      intro s _ hs
      rcases hg : strGetCur text 0 (jsGetLength text) (lexStartIt text s) with _ | c
      · simp only [lexerKit, lexNext, hg]
        exact (hit0 s).1
      · simp only [lexerKit, lexNext, hg]
        exact (LCpost (lexStartIt text s) c (hit0 s).1 (hgcS _ c hg).2).1
    · -- started_hc
      intro s _ hs
      exact hs
    · -- started_gc
      intro s _ hs
      exact hs
    · -- next_hc
      intro s _
      rcases hg : strGetCur text 0 (jsGetLength text) (lexStartIt text s) with _ | c
      · simp only [lexerKit, lexNext, hg]
        rfl
      · simp only [lexerKit, lexNext, hg]
        rfl
    · -- hc_hc
      intro s _
      rfl
    · -- hc_gc
      intro s _
      rfl
    · -- next_false_dead
      intro s h hb
      rcases hg : strGetCur text 0 (jsGetLength text) (lexStartIt text s) with _ | c
      · simp only [lexerKit, lexNext, hg]
        refine ⟨(hit0 s).1, ?_, trivial⟩
        exact hgcN _ (hit0 s).1 (by rw [(hit0 s).2]; exact h) hg
      · simp only [lexerKit, lexNext, hg] at hb
        exact absurd hb (by simp)
    · -- dead_next
      intro s hd
      simp only [lexerKit] at hd
      have hid : lexStartIt text s = s.1 := by
        rw [lexStartIt, if_neg (by rw [hd.1]; simp)]
      have hg : strGetCur text 0 (jsGetLength text) (lexStartIt text s) = none := by
        rw [hid]
        unfold strGetCur
        rw [hd.2.1, Bool.and_false]
        rfl
      simp only [lexerKit, lexNext, hg]
      rw [hid]
      exact ⟨by simp, hd.1, hd.2.1, trivial⟩
    · -- dead_hc
      intro s hd
      simp only [lexerKit] at hd ⊢
      rw [hd.2.2]
      exact ⟨by simp, hd.1, hd.2.1, rfl⟩
    · -- dead_gc
      intro s hd
      simp only [lexerKit] at hd ⊢
      exact ⟨hd.2.2, hd⟩
    · -- rem_next_true
      intro s h hb
      rcases hg : strGetCur text 0 (jsGetLength text) (lexStartIt text s) with _ | c
      · simp only [lexerKit, lexNext, hg] at hb
        exact absurd hb (by simp)
      · simp only [lexerKit, lexNext, hg]
        have hPC := LCpost (lexStartIt text s) c (hit0 s).1 (hgcS _ c hg).2
        have hlt : (lexStartIt text s).2 < jsGetLength text := (hmB _).1 (hgcS _ c hg).2
        have e2 := (hit0 s).2
        rw [e2] at hlt
        have hPC2 := hPC.2
        rw [e2] at hPC2
        simp only [strRem, hstep, hPC.1]
        norm_num
        split_ifs <;> omega
    · -- rem_next_le
      intro s h
      rcases hg : strGetCur text 0 (jsGetLength text) (lexStartIt text s) with _ | c
      · simp only [lexerKit, lexNext, hg]
        exact hremit0 s
      · simp only [lexerKit, lexNext, hg]
        have hPC := LCpost (lexStartIt text s) c (hit0 s).1 (hgcS _ c hg).2
        have hlt : (lexStartIt text s).2 < jsGetLength text := (hmB _).1 (hgcS _ c hg).2
        have e2 := (hit0 s).2
        rw [e2] at hlt
        have hPC2 := hPC.2
        rw [e2] at hPC2
        simp only [strRem, hstep, hPC.1]
        norm_num
        split_ifs <;> omega
    · -- rem_hc
      intro s _
      exact le_refl _
    · -- rem_gc
      intro s _
      exact le_refl _

/-- Denotation of an `ArrayListForwardIterator` state: the values still to be
produced. -/
def arrMdl {α : Type} (data : List α) : Option Nat → List (Option α)
  | none => data.map some
  | some i => (data.drop (i + 1)).map some

/-- The forward ArrayList iterator models the list of its remaining
elements. -/
def arrM {α : Type} (data : List α) : IterModel (arrKit data) where
  mdl := arrMdl data
  props := by
    have hget : ∀ (j : Nat) (h : j < data.length),
        arrayListGet data (some (j : Int)) = some (data.get ⟨j, h⟩) := by
      intro j h
      simp only [arrayListGet]
      rw [dif_pos (by omega)]
      simp
    refine
      { nil_next := ?_, cons_next := ?_, mdl_hc := ?_, mdl_gc := ?_,
        gcv_hc := ?_, gcv_gc := ?_ }
    · -- nil_next
      intro s hinv hm
      cases s with
      | none =>
          simp only [arrMdl] at hm
          have hd : data = [] := by
            cases data
            · rfl
            · simp at hm
          subst hd
          simp [arrKit, arrFwdNextIdx, arrFwdAtEnd, arrMdl]
      | some i =>
          simp only [arrMdl] at hm
          have hlen : data.length ≤ i + 1 := by
            have := congrArg List.length hm
            simp at this
            omega
          have hi := hinv i rfl
          simp only [arrKit, arrFwdNextIdx, arrFwdAtEnd]
          by_cases he : i = data.length
          · rw [if_pos he]
            subst he
            simp [arrMdl, hm]
          · rw [if_neg he]
            have h2 : i + 1 = data.length := by omega
            simp [arrMdl, h2]
    · -- cons_next
      intro s v rest hinv hm
      cases s with
      | none =>
          simp only [arrMdl] at hm
          cases data with
          | nil => simp at hm
          | cons d ds =>
              simp only [List.map] at hm
              obtain ⟨h1, h2⟩ := List.cons.inj hm
              simp only [arrKit, arrFwdNextIdx, arrFwdAtEnd]
              refine ⟨by simp, ?_, ?_⟩
              · simp only [arrMdl, List.drop_succ_cons, List.drop_zero]
                exact h2
              · show arrayListGet (d :: ds) (some ((0 : Nat) : Int)) = v
                rw [hget 0 (by simp)]
                simpa using h1
      | some i =>
          simp only [arrMdl] at hm
          have hlt : i + 1 < data.length := by
            have := congrArg List.length hm
            simp at this
            omega
          have hne : ¬ i = data.length := by omega
          have hdrop := List.drop_eq_getElem_cons hlt
          rw [hdrop] at hm
          simp only [List.map] at hm
          obtain ⟨h1, h2⟩ := List.cons.inj hm
          simp only [arrKit, arrFwdNextIdx, arrFwdAtEnd]
          rw [if_neg hne]
          refine ⟨by simp [arrFwdAtEnd]; omega, ?_, ?_⟩
          · simp only [arrMdl]
            exact h2.symm ▸ rfl
          · show arrayListGet data (some ((i + 1 : Nat) : Int)) = v
            rw [hget (i + 1) hlt]
            rw [← h1]
            simp [List.get_eq_getElem]
    · intro s _
      rfl
    · intro s _
      rfl
    · intro s _
      rfl
    · intro s _
      rfl

/-- How many values a `TakeIterator` at `_taken = k` will still produce. -/
def takeAmt (toTake : Option Int) (k : Int) : Nat :=
  match toTake with
  | none => 0
  | some t => (t - k).toNat

/-- The `TakeIterator` over a modelled inner iterator models the prefix of
the inner model. -/
def takeM {σ α : Type} (B : QIter σ α) (M : IterModel B.kit) (toTake : Option Int) :
    IterModel (takeKit B.kit toTake) where
  mdl s := (M.mdl s.2).take (takeAmt toTake s.1)
  props := by
    refine
      { nil_next := ?_, cons_next := ?_, mdl_hc := ?_, mdl_gc := ?_,
        gcv_hc := ?_, gcv_gc := ?_ }
    · -- nil_next
      rintro ⟨k, s⟩ hinv hm
      dsimp only at hm ⊢
      by_cases hc0 : canTakeValue toTake k = true
      · rcases toSkipEq : toTake with _ | t
        · rw [toSkipEq] at hc0
          simp [canTakeValue] at hc0
        · rw [toSkipEq] at hc0 hm
          have hkt : k ≤ t := by simp [canTakeValue] at hc0; omega
          by_cases hmd : M.mdl s = []
          · obtain ⟨hn1, hn2⟩ := M.props.nil_next s hinv hmd
            have hh := B.laws.next_hc s hinv
            rw [hn1] at hh
            simp only [takeKit, hc0]
            rw [if_pos trivial]
            constructor
            · rw [hh]
              simp
            · dsimp only
              rw [M.props.mdl_hc _ (B.laws.inv_next s hinv), hn2]
              simp
          · have ht : t = k := by
              simp only [takeAmt] at hm
              rcases hmx : M.mdl s with _ | ⟨v0, r0⟩
              · exact absurd hmx hmd
              · rw [hmx] at hm
                by_cases hz : (t - k).toNat = 0
                · omega
                · exfalso
                  obtain ⟨n, hn⟩ := Nat.exists_eq_succ_of_ne_zero hz
                  rw [hn] at hm
                  simp at hm
            simp only [takeKit, hc0]
            rw [if_pos trivial]
            constructor
            · have hnt : canTakeValue (some t) (k + 1) = false := by
                simp [canTakeValue]
                omega
              rw [hnt]
              simp
            · dsimp only
              simp [takeAmt]
              omega
      · have hc0' : canTakeValue toTake k = false := by
          revert hc0; cases canTakeValue toTake k <;> simp
        simp only [takeKit]
        rw [if_neg (by rw [hc0']; simp)]
        dsimp only
        refine ⟨by rw [hc0']; simp, ?_⟩
        rw [M.props.mdl_hc s hinv]
        rcases toSkipEq : toTake with _ | t
        · rw [toSkipEq] at hm
          simpa [takeAmt] using hm
        · rw [toSkipEq] at hm hc0'
          simp only [takeAmt] at hm ⊢
          simp [canTakeValue] at hc0'
          rw [show (t - k).toNat = 0 from by omega] at hm ⊢
          exact hm
    · -- cons_next
      rintro ⟨k, s⟩ v rest hinv hm
      dsimp only at hm ⊢
      rcases toTakeEq : toTake with _ | t
      · rw [toTakeEq] at hm
        simp [takeAmt] at hm
      · rw [toTakeEq] at hm
        simp only [takeAmt] at hm
        rcases hmx : M.mdl s with _ | ⟨v0, r0⟩
        · rw [hmx] at hm
          simp at hm
        · rw [hmx] at hm
          by_cases hz : (t - k).toNat = 0
          · rw [hz] at hm
            simp at hm
          · obtain ⟨n, hn⟩ := Nat.exists_eq_succ_of_ne_zero hz
            rw [hn] at hm
            simp only [List.take_succ_cons] at hm
            obtain ⟨h1, h2⟩ := List.cons.inj hm
            have hkt : k < t := by omega
            have hct : canTakeValue (some t) k = true := by
              simp [canTakeValue]
              omega
            have hct1 : canTakeValue (some t) (k + 1) = true := by
              simp [canTakeValue]
              omega
            obtain ⟨hn1, hn2, hn3⟩ := M.props.cons_next s v0 r0 hinv hmx
            have hinv1 : B.kit.inv (B.kit.next s).1 := B.laws.inv_next s hinv
            have hh := B.laws.next_hc s hinv
            rw [hn1] at hh
            simp only [takeKit, hct]
            rw [if_pos trivial]
            refine ⟨?_, ?_, ?_⟩
            · rw [hh, hct1]
              rfl
            · dsimp only
              rw [M.props.mdl_hc _ hinv1, hn2]
              simp only [takeAmt]
              rw [show (t - (k + 1)).toNat = n from by omega]
              rw [← h2]
            · simp only [takeKit]
              rw [if_pos ?side]
              case side =>
                rw [B.laws.hc_hc _ hinv1, hh, hct1]
                rfl
              dsimp only
              rw [M.props.gcv_hc _ (B.laws.inv_hc _ hinv1)]
              rw [M.props.gcv_hc _ hinv1, hn3]
              exact h1
    · -- mdl_hc
      rintro ⟨k, s⟩ hinv
      simp only [takeKit]
      rw [M.props.mdl_hc s hinv]
    · -- mdl_gc
      rintro ⟨k, s⟩ hinv
      simp only [takeKit]
      by_cases hb : ((B.kit.hasCurrent s).2 && canTakeValue toTake k) = true
      · rw [if_pos hb]
        dsimp only
        rw [M.props.mdl_gc _ (B.laws.inv_hc s hinv), M.props.mdl_hc s hinv]
      · rw [if_neg hb]
        dsimp only
        rw [M.props.mdl_hc s hinv]
    · -- gcv_hc
      rintro ⟨k, s⟩ hinv
      simp only [takeKit]
      have hinv1 : B.kit.inv (B.kit.hasCurrent s).1 := B.laws.inv_hc s hinv
      have hhc : (B.kit.hasCurrent (B.kit.hasCurrent s).1).2 = (B.kit.hasCurrent s).2 :=
        B.laws.hc_hc s hinv
      by_cases hb : ((B.kit.hasCurrent s).2 && canTakeValue toTake k) = true
      · dsimp only
        rw [hhc]
        rw [if_pos hb, if_pos hb]
        dsimp only
        rw [M.props.gcv_hc _ hinv1]
      · dsimp only
        rw [hhc]
        rw [if_neg hb, if_neg hb]
    · -- gcv_gc
      rintro ⟨k, s⟩ hinv
      simp only [takeKit]
      have hinv1 : B.kit.inv (B.kit.hasCurrent s).1 := B.laws.inv_hc s hinv
      by_cases hb : ((B.kit.hasCurrent s).2 && canTakeValue toTake k) = true
      · rw [if_pos hb]
        dsimp only
        have hg : (B.kit.hasCurrent (B.kit.getCurrent (B.kit.hasCurrent s).1).1).2
            = (B.kit.hasCurrent s).2 := by
          rw [B.laws.hc_gc _ hinv1, B.laws.hc_hc s hinv]
        rw [hg]
        rw [if_pos hb]
        dsimp only
        rw [M.props.gcv_hc _ (B.laws.inv_gc _ hinv1), M.props.gcv_gc _ hinv1]
      · rw [if_neg hb]
        dsimp only
        rw [B.laws.hc_hc s hinv]
        rw [if_neg hb]

/-- How many values a `SkipIterator` at `_skipped = k` still has to skip. -/
def skipDropAmt (toSkip : Option Int) (k : Int) : Nat :=
  match toSkip with
  | none => 0
  | some t => (t - k).toNat

/-- The `SkipIterator` over a modelled inner iterator models the suffix of
the inner model. -/
def skipM {σ α : Type} (B : QIter σ α) (M : IterModel B.kit) (toSkip : Option Int) :
    IterModel (skipKit B.kit toSkip) where
  mdl s := (M.mdl s.2).drop (skipDropAmt toSkip s.1)
  props := by
    have hPeta : ∀ (p : σ × Bool) (b : Bool), p.2 = b → p = (p.1, b) := by
      rintro ⟨x, y⟩ b h
      dsimp only at h
      rw [h]
    have SVloop : ∀ (t : Int) (fuel : Nat) (k : Int) (s : σ), B.kit.inv s →
        fuel = (t - k).toNat →
        B.kit.inv (skipValuesLoop B.kit t fuel k s).2
        ∧ (t - (skipValuesLoop B.kit t fuel k s).1).toNat = 0
        ∧ M.mdl (skipValuesLoop B.kit t fuel k s).2 = (M.mdl s).drop fuel := by
      intro t fuel
      induction fuel with
      | zero =>
          intro k s hinv hf
          simp only [skipValuesLoop]
          exact ⟨hinv, hf.symm, by simp⟩
      | succ fuel IH =>
          intro k s hinv hf
          have hkt : k < t := by omega
          simp only [skipValuesLoop]
          rw [if_pos hkt]
          rcases hmx : M.mdl s with _ | ⟨v0, r0⟩
          · obtain ⟨hn1, hn2⟩ := M.props.nil_next s hinv hmx
            rw [hPeta (B.kit.next s) false hn1]
            dsimp only
            exact ⟨B.laws.inv_next s hinv, by omega, by rw [hn2]; simp⟩
          · obtain ⟨hn1, hn2, _⟩ := M.props.cons_next s v0 r0 hinv hmx
            rw [hPeta (B.kit.next s) true hn1]
            dsimp only
            obtain ⟨ih1, ih2, ih3⟩ :=
              IH (k + 1) (B.kit.next s).1 (B.laws.inv_next s hinv) (by omega)
            refine ⟨ih1, ih2, ?_⟩
            rw [ih3, hn2]
            simp
    have SVfull : ∀ (k : Int) (s : σ), B.kit.inv s →
        B.kit.inv (skipValues B.kit toSkip k s).2
        ∧ skipDropAmt toSkip (skipValues B.kit toSkip k s).1 = 0
        ∧ M.mdl (skipValues B.kit toSkip k s).2 = (M.mdl s).drop (skipDropAmt toSkip k) := by
      intro k s hinv
      rcases toSkip with _ | t
      · exact ⟨hinv, rfl, by simp [skipValues, skipDropAmt]⟩
      · obtain ⟨h1, h2, h3⟩ := SVloop t ((t - k).toNat) k s hinv rfl
        exact ⟨h1, h2, h3⟩
    have SVnoop : ∀ (k : Int) (s : σ), skipDropAmt toSkip k = 0 →
        skipValues B.kit toSkip k s = (k, s) := by
      intro k s h0
      rcases toSkip with _ | t
      · rfl
      · simp only [skipDropAmt] at h0
        simp [skipValues, h0, skipValuesLoop]
    refine
      { nil_next := ?_, cons_next := ?_, mdl_hc := ?_, mdl_gc := ?_,
        gcv_hc := ?_, gcv_gc := ?_ }
    · -- nil_next
      rintro ⟨k, s⟩ hinv hm
      dsimp only at hm ⊢
      obtain ⟨hv1, hv2, hv3⟩ := SVfull k s hinv
      have hnil : M.mdl (skipValues B.kit toSkip k s).2 = [] := by rw [hv3, hm]
      obtain ⟨hn1, hn2⟩ := M.props.nil_next _ hv1 hnil
      simp only [skipKit]
      refine ⟨hn1, ?_⟩
      dsimp only
      rw [hn2]
      simp
    · -- cons_next
      rintro ⟨k, s⟩ v rest hinv hm
      dsimp only at hm ⊢
      obtain ⟨hv1, hv2, hv3⟩ := SVfull k s hinv
      have hcons : M.mdl (skipValues B.kit toSkip k s).2 = v :: rest := by rw [hv3, hm]
      obtain ⟨hn1, hn2, hn3⟩ := M.props.cons_next _ v rest hv1 hcons
      have hinv1 : B.kit.inv (B.kit.next (skipValues B.kit toSkip k s).2).1 :=
        B.laws.inv_next _ hv1
      have hh := B.laws.next_hc _ hv1
      rw [hn1] at hh
      simp only [skipKit]
      refine ⟨hn1, ?_, ?_⟩
      · dsimp only
        rw [hn2, hv2]
        simp
      · rw [if_pos hh]
        dsimp only
        rw [SVnoop _ _ hv2]
        dsimp only
        rw [M.props.gcv_hc _ hinv1]
        exact hn3
    · -- mdl_hc
      rintro ⟨k, s⟩ hinv
      simp only [skipKit]
      by_cases hb : (B.kit.hasCurrent s).2 = true
      · rw [if_pos hb]
        dsimp only
        obtain ⟨hv1, hv2, hv3⟩ := SVfull k (B.kit.hasCurrent s).1 (B.laws.inv_hc s hinv)
        rw [M.props.mdl_hc _ hv1, hv2, hv3, M.props.mdl_hc s hinv]
        simp
      · rw [if_neg hb]
        dsimp only
        rw [M.props.mdl_hc _ (B.laws.inv_hc s hinv), M.props.mdl_hc s hinv]
    · -- mdl_gc
      rintro ⟨k, s⟩ hinv
      simp only [skipKit]
      by_cases hb : (B.kit.hasCurrent s).2 = true
      · rw [if_pos hb]
        dsimp only
        obtain ⟨hv1, hv2, hv3⟩ := SVfull k (B.kit.hasCurrent s).1 (B.laws.inv_hc s hinv)
        rw [M.props.mdl_gc _ hv1, hv2, hv3, M.props.mdl_hc s hinv]
        simp
      · rw [if_neg hb]
        dsimp only
        rw [M.props.mdl_gc _ (B.laws.inv_hc s hinv), M.props.mdl_hc s hinv]
    · -- gcv_hc
      rintro ⟨k, s⟩ hinv
      simp only [skipKit]
      by_cases hb : (B.kit.hasCurrent s).2 = true
      · rw [if_pos hb]
        dsimp only
        obtain ⟨hv1, hv2, hv3⟩ := SVfull k (B.kit.hasCurrent s).1 (B.laws.inv_hc s hinv)
        have hcc : (B.kit.hasCurrent
            (B.kit.hasCurrent (skipValues B.kit toSkip k (B.kit.hasCurrent s).1).2).1).2
            = (B.kit.hasCurrent (skipValues B.kit toSkip k (B.kit.hasCurrent s).1).2).2 :=
          B.laws.hc_hc _ hv1
        rw [hcc]
        by_cases hb2 : (B.kit.hasCurrent
            (skipValues B.kit toSkip k (B.kit.hasCurrent s).1).2).2 = true
        · rw [if_pos hb2]
          dsimp only
          rw [SVnoop _ _ hv2]
          dsimp only
          rw [M.props.gcv_hc _ (B.laws.inv_hc _ hv1), M.props.gcv_hc _ hv1]
          rw [if_pos hb]
        · rw [if_neg hb2]
          dsimp only
          rw [M.props.gcv_hc _ (B.laws.inv_hc _ hv1), M.props.gcv_hc _ hv1]
          rw [if_pos hb]
      · rw [if_neg hb]
        dsimp only
        have hcc : (B.kit.hasCurrent (B.kit.hasCurrent (B.kit.hasCurrent s).1).1).2
            = (B.kit.hasCurrent s).2 := by
          rw [B.laws.hc_hc _ (B.laws.inv_hc s hinv), B.laws.hc_hc s hinv]
        rw [hcc, if_neg hb, if_neg hb]
        dsimp only
        rw [M.props.gcv_hc _ (B.laws.inv_hc _ (B.laws.inv_hc s hinv))]
        rw [M.props.gcv_hc _ (B.laws.inv_hc s hinv)]
    · -- gcv_gc
      rintro ⟨k, s⟩ hinv
      simp only [skipKit]
      by_cases hb : (B.kit.hasCurrent s).2 = true
      · rw [if_pos hb]
        dsimp only
        obtain ⟨hv1, hv2, hv3⟩ := SVfull k (B.kit.hasCurrent s).1 (B.laws.inv_hc s hinv)
        have hcg : (B.kit.hasCurrent
            (B.kit.getCurrent (skipValues B.kit toSkip k (B.kit.hasCurrent s).1).2).1).2
            = (B.kit.hasCurrent (skipValues B.kit toSkip k (B.kit.hasCurrent s).1).2).2 :=
          B.laws.hc_gc _ hv1
        rw [hcg]
        by_cases hb2 : (B.kit.hasCurrent
            (skipValues B.kit toSkip k (B.kit.hasCurrent s).1).2).2 = true
        · rw [if_pos hb2]
          dsimp only
          rw [SVnoop _ _ hv2]
          dsimp only
          rw [M.props.gcv_hc _ (B.laws.inv_gc _ hv1), M.props.gcv_gc _ hv1]
        · rw [if_neg hb2]
          dsimp only
          rw [M.props.gcv_hc _ (B.laws.inv_gc _ hv1), M.props.gcv_gc _ hv1]
      · rw [if_neg hb]
        dsimp only
        have hcg : (B.kit.hasCurrent (B.kit.getCurrent (B.kit.hasCurrent s).1).1).2
            = (B.kit.hasCurrent s).2 := by
          rw [B.laws.hc_gc _ (B.laws.inv_hc s hinv), B.laws.hc_hc s hinv]
        rw [hcg, if_neg hb]
        dsimp only
        rw [M.props.gcv_hc _ (B.laws.inv_gc _ (B.laws.inv_hc s hinv))]
        rw [M.props.gcv_gc _ (B.laws.inv_hc s hinv)]

/-- The `MapIterator` over a modelled inner iterator models the mapped inner
model; with an absent function the view is permanently empty. -/
def mapM {σ α β : Type} (B : QIter σ α) (M : IterModel B.kit)
    (f : Option (Option α → Option β)) : IterModel (mapKit B.kit f) where
  mdl s :=
    match f with
    | none => []
    | some g => (M.mdl s.2).map g
  props := by
    refine
      { nil_next := ?_, cons_next := ?_, mdl_hc := ?_, mdl_gc := ?_,
        gcv_hc := ?_, gcv_gc := ?_ }
    · -- nil_next
      rintro ⟨b, s⟩ hinv hm
      rcases f with _ | g
      · exact ⟨rfl, rfl⟩
      · dsimp only at hm ⊢
        have hmd : M.mdl s = [] := by
          rcases hx : M.mdl s with _ | _
          · rfl
          · rw [hx] at hm
            simp at hm
        obtain ⟨hn1, hn2⟩ := M.props.nil_next s hinv hmd
        simp only [mapKit]
        exact ⟨hn1, by rw [hn2]; rfl⟩
    · -- cons_next
      rintro ⟨b, s⟩ v rest hinv hm
      rcases f with _ | g
      · simp at hm
      · dsimp only at hm ⊢
        rcases hx : M.mdl s with _ | ⟨v0, r0⟩
        · rw [hx] at hm
          simp at hm
        · rw [hx] at hm
          simp only [List.map] at hm
          obtain ⟨h1, h2⟩ := List.cons.inj hm
          obtain ⟨hn1, hn2, hn3⟩ := M.props.cons_next s v0 r0 hinv hx
          have hinv1 : B.kit.inv (B.kit.next s).1 := B.laws.inv_next s hinv
          have hh := B.laws.next_hc s hinv
          rw [hn1] at hh
          simp only [mapKit]
          refine ⟨hn1, by rw [hn2, h2], ?_⟩
          dsimp only
          rw [if_pos hh]
          dsimp only
          rw [M.props.gcv_hc _ hinv1, hn3]
          exact h1
    · -- mdl_hc
      rintro ⟨b, s⟩ hinv
      rcases f with _ | g
      · rfl
      · simp only [mapKit]
        rw [M.props.mdl_hc s hinv]
    · -- mdl_gc
      rintro ⟨b, s⟩ hinv
      rcases f with _ | g
      · rfl
      · simp only [mapKit]
        by_cases hb : (B.kit.hasCurrent s).2 = true
        · rw [if_pos hb]
          dsimp only
          rw [M.props.mdl_gc _ (B.laws.inv_hc s hinv), M.props.mdl_hc s hinv]
        · rw [if_neg hb]
          dsimp only
          rw [M.props.mdl_hc s hinv]
    · -- gcv_hc
      rintro ⟨b, s⟩ hinv
      rcases f with _ | g
      · rfl
      · simp only [mapKit]
        have hcc := B.laws.hc_hc s hinv
        rw [hcc]
        by_cases hb : (B.kit.hasCurrent s).2 = true
        · rw [if_pos hb, if_pos hb]
          dsimp only
          rw [M.props.gcv_hc _ (B.laws.inv_hc s hinv)]
        · rw [if_neg hb, if_neg hb]
    · -- gcv_gc
      rintro ⟨b, s⟩ hinv
      rcases f with _ | g
      · rfl
      · simp only [mapKit]
        by_cases hb : (B.kit.hasCurrent s).2 = true
        · rw [if_pos hb]
          dsimp only
          have hcg : (B.kit.hasCurrent (B.kit.getCurrent (B.kit.hasCurrent s).1).1).2
              = (B.kit.hasCurrent s).2 := by
            rw [B.laws.hc_gc _ (B.laws.inv_hc s hinv), B.laws.hc_hc s hinv]
          rw [hcg, if_pos hb]
          dsimp only
          rw [M.props.gcv_hc _ (B.laws.inv_gc _ (B.laws.inv_hc s hinv))]
          rw [M.props.gcv_gc _ (B.laws.inv_hc s hinv)]
        · rw [if_neg hb]
          dsimp only
          have hcc : (B.kit.hasCurrent (B.kit.hasCurrent s).1).2 = (B.kit.hasCurrent s).2 :=
            B.laws.hc_hc s hinv
          rw [hcc, if_neg hb]

/-- The `WhereIterator` over a modelled inner iterator models the filtered
inner model. -/
def whereM {σ α : Type} (B : QIter σ α) (M : IterModel B.kit) (c : Option α → Bool) :
    IterModel (whereKit B.kit B.laws (some c)) where
  mdl s := (M.mdl s.1).filter c
  props := by
    have WLchar : ∀ (n : Nat) (s : {x : σ // B.kit.inv x}), B.kit.rem s.1 = n →
        ((M.mdl s.1).filter c = [] →
          (B.kit.hasCurrent (whereLoop B.kit B.laws c s).1).2 = false
          ∧ (M.mdl (whereLoop B.kit B.laws c s).1).filter c = [])
        ∧ (∀ v rest, (M.mdl s.1).filter c = v :: rest →
          (B.kit.hasCurrent (whereLoop B.kit B.laws c s).1).2 = true
          ∧ (B.kit.getCurrent (whereLoop B.kit B.laws c s).1).2 = v
          ∧ (M.mdl (whereLoop B.kit B.laws c s).1).filter c = rest) := by
      intro n
      induction n using Nat.strong_induction_on with
      | _ n IH =>
        intro s hn
        rcases hmx : M.mdl s.1 with _ | ⟨v0, r0⟩
        · obtain ⟨hn1, hn2⟩ := M.props.nil_next s.1 s.2 hmx
          have hb : (B.kit.next s.1).2 = false := hn1
          have heq : whereLoop B.kit B.laws c s =
              ⟨(B.kit.next s.1).1, B.laws.inv_next s.1 s.2⟩ := by
            conv_lhs => rw [whereLoop]
            rw [dif_pos hb]
          rw [heq]
          dsimp only
          constructor
          · intro _
            refine ⟨?_, ?_⟩
            · exact (B.laws.dead_hc _ (B.laws.next_false_dead s.1 s.2 hb)).1
            · rw [hn2]
              rfl
          · intro v rest h
            simp at h
        · obtain ⟨hn1, hn2, hn3⟩ := M.props.cons_next s.1 v0 r0 s.2 hmx
          have hinv1 : B.kit.inv (B.kit.next s.1).1 := B.laws.inv_next s.1 s.2
          have hb : ¬ (B.kit.next s.1).2 = false := by rw [hn1]; simp
          by_cases hcv : c v0 = true
          · have heq : whereLoop B.kit B.laws c s =
                ⟨(B.kit.getCurrent (B.kit.next s.1).1).1, B.laws.inv_gc _ hinv1⟩ := by
              conv_lhs => rw [whereLoop]
              rw [dif_neg hb, if_pos (by rw [hn3]; exact hcv)]
            rw [heq]
            dsimp only
            have hmr : M.mdl (B.kit.getCurrent (B.kit.next s.1).1).1 = r0 := by
              rw [M.props.mdl_gc _ hinv1, hn2]
            constructor
            · intro h
              rw [List.filter_cons, if_pos (by rw [hcv])] at h
              simp at h
            · intro v rest h
              rw [List.filter_cons, if_pos (by rw [hcv])] at h
              obtain ⟨h1, h2⟩ := List.cons.inj h
              refine ⟨?_, ?_, ?_⟩
              · rw [B.laws.hc_gc _ hinv1, B.laws.next_hc s.1 s.2, hn1]
              · rw [M.props.gcv_gc _ hinv1, hn3]
                exact h1
              · rw [hmr, h2]
          · have hcv' : c v0 = false := by
              revert hcv; cases c v0 <;> simp
            have heq : whereLoop B.kit B.laws c s =
                whereLoop B.kit B.laws c
                  ⟨(B.kit.getCurrent (B.kit.next s.1).1).1, B.laws.inv_gc _ hinv1⟩ := by
              conv_lhs => rw [whereLoop]
              rw [dif_neg hb, if_neg (by rw [hn3, hcv']; simp)]
            rw [heq]
            have hmr : M.mdl ((⟨(B.kit.getCurrent (B.kit.next s.1).1).1,
                B.laws.inv_gc _ hinv1⟩ : {x : σ // B.kit.inv x}) : {x : σ // B.kit.inv x}).1
                = r0 := by
              dsimp only
              rw [M.props.mdl_gc _ hinv1, hn2]
            have hlt : B.kit.rem (B.kit.getCurrent (B.kit.next s.1).1).1 < n := by
              have t1 := B.laws.rem_next_true s.1 s.2 hn1
              have t2 := B.laws.rem_gc _ hinv1
              omega
            obtain ⟨ih1, ih2⟩ := IH (B.kit.rem (B.kit.getCurrent (B.kit.next s.1).1).1)
              hlt ⟨(B.kit.getCurrent (B.kit.next s.1).1).1, B.laws.inv_gc _ hinv1⟩ rfl
            rw [hmr] at ih1 ih2
            have hfe : List.filter c (v0 :: r0) = List.filter c r0 := by
              rw [List.filter_cons, if_neg (by rw [hcv']; simp)]
            rw [hfe]
            exact ⟨ih1, ih2⟩
    refine
      { nil_next := ?_, cons_next := ?_, mdl_hc := ?_, mdl_gc := ?_,
        gcv_hc := ?_, gcv_gc := ?_ }
    · -- nil_next
      intro s hinv hm
      obtain ⟨h1, h2⟩ := (WLchar (B.kit.rem s.1) s rfl).1 hm
      simp only [whereKit]
      refine ⟨h1, ?_⟩
      dsimp only
      rw [M.props.mdl_hc _ (whereLoop B.kit B.laws c s).2]
      exact h2
    · -- cons_next
      intro s v rest hinv hm
      obtain ⟨h1, h2, h3⟩ := (WLchar (B.kit.rem s.1) s rfl).2 v rest hm
      simp only [whereKit]
      refine ⟨h1, ?_, ?_⟩
      · dsimp only
        rw [M.props.mdl_hc _ (whereLoop B.kit B.laws c s).2]
        exact h3
      · dsimp only
        rw [M.props.gcv_hc _ (whereLoop B.kit B.laws c s).2]
        exact h2
    · -- mdl_hc
      intro s hinv
      simp only [whereKit]
      rw [M.props.mdl_hc s.1 s.2]
    · -- mdl_gc
      intro s hinv
      simp only [whereKit]
      rw [M.props.mdl_gc s.1 s.2]
    · -- gcv_hc
      intro s hinv
      simp only [whereKit]
      rw [M.props.gcv_hc s.1 s.2]
    · -- gcv_gc
      intro s hinv
      simp only [whereKit]
      rw [M.props.gcv_gc s.1 s.2]

/-- A user predicate as `WhereIterator` hands it the raw `getCurrent()`
value (a JS comparison predicate applied to `undefined` is false). -/
def liftCond {α : Type} (c : α → Bool) : Option α → Bool :=
  fun ov => (ov.map c).getD false

/-- A user map function as `MapIterator` hands it the raw `getCurrent()`
value (it is only ever called while a current value exists). -/
def liftMapFn {α β : Type} (g : α → β) : Option α → Option β :=
  fun ov => ov.map g

/-- The element-preserving `Iterable` views of the library: an array-backed
`ArrayList` (src 935-1010) and the `WhereIterable` (src 722-735),
`SkipIterable` (src 736-763) and `TakeIterable` (src 765-789) wrappers. -/
inductive Ible (α : Type) : Type where
  | arr (data : List α)
  | whereI (inner : Ible α) (cond : α → Bool)
  | skipI (inner : Ible α) (toSkip : Int)
  | takeI (inner : Ible α) (toTake : Int)

/-- An `Iterator` as `iterate()` returns it: its state type, kit with laws,
model, and fresh start state. -/
structure PackIter (α : Type) : Type 1 where
  St : Type
  Q : QIter St α
  M : IterModel Q.kit
  s0 : St
  hfresh : Q.kit.fresh s0

/-- `iterate()` of each view (src 726-728, 742-744, 769-771, 1011-1013):
each wrapper wraps the inner `iterate()` in the corresponding iterator
decorator, so a fresh view iterator wraps the fresh inner iterator. -/
def Ible.iterate {α : Type} : Ible α → PackIter α
  | .arr data => ⟨Option Nat, arrQ data, arrM data, none, rfl⟩
  | .whereI inner c =>
      let p := inner.iterate
      ⟨{x // p.Q.kit.inv x}, whereQ p.Q (some (liftCond c)), whereM p.Q p.M (liftCond c),
        ⟨p.s0, p.Q.laws.fresh_inv _ p.hfresh⟩, p.hfresh⟩
  | .skipI inner t =>
      let p := inner.iterate
      ⟨Int × p.St, skipQ p.Q (some t), skipM p.Q p.M (some t), (0, p.s0), rfl, p.hfresh⟩
  | .takeI inner t =>
      let p := inner.iterate
      ⟨Int × p.St, takeQ p.Q (some t), takeM p.Q p.M (some t), (0, p.s0), rfl, p.hfresh⟩

/-- `toArray()` of a fresh iterator (src 686-688, 193-199). -/
def PackIter.jsToArray {α : Type} (p : PackIter α) : List (Option α) :=
  (drainJs p.Q p.s0 (p.Q.laws.fresh_inv _ p.hfresh)).1

/-- `Iterable.toArray()` (src 686-688). -/
def Ible.jsToArray {α : Type} (i : Ible α) : List (Option α) :=
  i.iterate.jsToArray

/-- `IterableBase.getCount` (src 601-603): count by iterating. -/
def PackIter.getCountIt {α : Type} (p : PackIter α) : Nat :=
  getCountJs p.Q p.s0 (p.Q.laws.fresh_inv _ p.hfresh)

/-- `IterableBase.getCount` (src 601-603) of a view. -/
def Ible.getCountIt {α : Type} (i : Ible α) : Nat :=
  i.iterate.getCountIt

/-- `IterableBase.where` (src 644-646):
`condition ? new WhereIterable<T>(this, condition) : this`. -/
def Ible.whereD {α : Type} (i : Ible α) (cond : Option (α → Bool)) : Ible α :=
  match cond with
  | none => i
  | some c => .whereI i c

/-- `IterableBase.skip` (src 648-650):
`toSkip && 0 < toSkip ? new SkipIterable(this, toSkip) : this`
(an absent count is falsy, and `0 && ...` is falsy as well). -/
def Ible.skipD {α : Type} (i : Ible α) (toSkip : Option Int) : Ible α :=
  match toSkip with
  | none => i
  | some t => if t ≠ 0 ∧ 0 < t then .skipI i t else i

/-- `IterableBase.take` (src 657-659):
`toTake && 0 < toTake ? new TakeIterable(this, toTake) : new ArrayList<T>()`. -/
def Ible.takeD {α : Type} (i : Ible α) (toTake : Option Int) : Ible α :=
  match toTake with
  | none => .arr []
  | some t => if t ≠ 0 ∧ 0 < t then .takeI i t else .arr []

/-- `IterableBase.map` (src 678-680):
`mapFunction ? new MapIterable(this, mapFunction) : new ArrayList<U>()`,
followed by `iterate()` (src 793-795 wraps the inner iterator in a
`MapIterator`, whose constructor copies the inner `hasStarted()`). -/
def Ible.mapD {α β : Type} (i : Ible α) (f : Option (α → β)) : PackIter β :=
  match f with
  | none => (Ible.arr ([] : List β)).iterate
  | some g =>
      let p := i.iterate
      ⟨Bool × p.St, mapQ p.Q (some (liftMapFn g)), mapM p.Q p.M (some (liftMapFn g)),
        mapMk p.Q.kit p.s0, p.Q.laws.fresh_started _ p.hfresh, p.hfresh⟩

/-- `SkipIterable.getCount` (src 749-758). -/
def skipIterableGetCount (innerCount : Int) (toSkip : Int) : Int :=
  if innerCount ≤ toSkip then 0 else innerCount - toSkip

/-- `TakeIterable.getCount` (src 778-784). -/
def takeIterableGetCount (innerCount : Int) (toTake : Int) : Int :=
  if toTake < innerCount then toTake else innerCount

/-- `SkipIterable.get` (src 760-762): `this._innerIterable.get(index + this._toSkip)`
over an array-backed inner iterable — with no bounds check of its own.
An undefined index makes `index + toSkip` NaN, which the inner bounds check
rejects. -/
def skipIterableGet {α : Type} (data : List α) (toSkip : Int) : Option Int → Option α
  | none => none
  | some i => arrayListGet data (some (i + toSkip))

/-- `TakeIterable.get` (src 786-788):
`0 <= index && index < this.getCount() ? this._innerIterable.get(index) : undefined`. -/
def takeIterableGet {α : Type} (data : List α) (toTake : Int) : Option Int → Option α
  | none => none
  | some i =>
      if 0 ≤ i ∧ i < takeIterableGetCount data.length toTake then
        arrayListGet data (some i)
      else none

/-- Concatenation of the texts of a drained lex stream (`undefined` lexes
contribute nothing). -/
def lexTextsJoin : List (Option Lex) → List Char
  | [] => []
  | some lex :: rest => lex.text ++ lexTextsJoin rest
  | none :: rest => lexTextsJoin rest

/-- JavaScript `Array.prototype.slice(start, end)` for the non-negative
arguments the spec uses: elements from `start` up to (excluding) `end`,
clamped to the array. -/
def jsSlice {γ : Type} (l : List γ) (start stop : Int) : List γ :=
  (l.take stop.toNat).drop start.toNat

/-! ### Theorems -/

/-- The `toArray` loop produces exactly the model of its start state. -/
theorem drainLoop_mdl {σ α : Type} (B : QIter σ α) (M : IterModel B.kit) :
    ∀ (n : Nat) (s : σ) (h : B.kit.inv s), (M.mdl s).length = n →
      (drainLoop B s h).1 = M.mdl s := by
  intro n
  induction n with
  | zero =>
      intro s h hn
      have hmx : M.mdl s = [] := by
        rcases hx : M.mdl s with _ | _
        · rfl
        · rw [hx] at hn; simp at hn
      obtain ⟨hn1, _⟩ := M.props.nil_next s h hmx
      rw [drainLoop, dif_neg (by rw [hn1]; simp)]
      exact hmx.symm
  | succ n IH =>
      intro s h hn
      rcases hmx : M.mdl s with _ | ⟨v, rest⟩
      · rw [hmx] at hn; simp at hn
      · rw [hmx] at hn
        simp only [List.length_cons] at hn
        obtain ⟨hn1, hn2, hn3⟩ := M.props.cons_next s v rest h hmx
        rw [drainLoop, dif_pos hn1]
        dsimp only
        have hml : M.mdl (B.kit.getCurrent (B.kit.next s).1).1 = rest := by
          rw [M.props.mdl_gc _ (B.laws.inv_next s h), hn2]
        have hlen2 : (M.mdl (B.kit.getCurrent (B.kit.next s).1).1).length = n := by
          rw [hml]; omega
        rw [IH _ _ hlen2, hml, hn3]

/-- `toArray()` from a fresh iterator state is the model of that state. -/
theorem drainJs_fresh_mdl {σ α : Type} (B : QIter σ α) (M : IterModel B.kit)
    (s : σ) (h : B.kit.fresh s) :
    (drainJs B s (B.laws.fresh_inv s h)).1 = M.mdl s := by
  rw [drainJs, if_neg (by rw [B.laws.fresh_hc s h]; simp)]
  rw [drainLoop_mdl B M ((M.mdl (B.kit.hasCurrent s).1).length) _ _ rfl]
  rw [M.props.mdl_hc s (B.laws.fresh_inv s h)]

/-- The `getCount` loop counts exactly the model of its start state. -/
theorem getCountLoop_mdl {σ α : Type} (B : QIter σ α) (M : IterModel B.kit) :
    ∀ (n : Nat) (s : σ) (h : B.kit.inv s), (M.mdl s).length = n →
      getCountLoop B s h = n := by
  intro n
  induction n with
  | zero =>
      intro s h hn
      have hmx : M.mdl s = [] := by
        rcases hx : M.mdl s with _ | _
        · rfl
        · rw [hx] at hn; simp at hn
      obtain ⟨hn1, _⟩ := M.props.nil_next s h hmx
      rw [getCountLoop, dif_neg (by rw [hn1]; simp)]
  | succ n IH =>
      intro s h hn
      rcases hmx : M.mdl s with _ | ⟨v, rest⟩
      · rw [hmx] at hn; simp at hn
      · rw [hmx] at hn
        simp only [List.length_cons] at hn
        obtain ⟨hn1, hn2, _⟩ := M.props.cons_next s v rest h hmx
        rw [getCountLoop, dif_pos hn1]
        have hlen2 : (M.mdl (B.kit.next s).1).length = n := by rw [hn2]; omega
        rw [IH _ _ hlen2]
        omega

/-- `getCount()` from a fresh iterator state is the length of its model. -/
theorem getCountJs_fresh_mdl {σ α : Type} (B : QIter σ α) (M : IterModel B.kit)
    (s : σ) (h : B.kit.fresh s) :
    getCountJs B s (B.laws.fresh_inv s h) = (M.mdl s).length := by
  rw [getCountJs]
  rw [if_neg (by rw [B.laws.fresh_hc s h]; simp)]
  rw [getCountLoop_mdl B M ((M.mdl (B.kit.hasCurrent s).1).length) _ _ rfl]
  rw [M.props.mdl_hc s (B.laws.fresh_inv s h)]
  omega

/-- `toArray()` of any iterable view is the model of its fresh iterator. -/
theorem Ible.jsToArray_mdl {α : Type} (i : Ible α) :
    i.jsToArray = (i.iterate).M.mdl (i.iterate).s0 :=
  drainJs_fresh_mdl (i.iterate).Q (i.iterate).M (i.iterate).s0 (i.iterate).hfresh

/-- `getCount()` by iteration of any iterable view is the length of the model
of its fresh iterator. -/
theorem Ible.getCountIt_mdl {α : Type} (i : Ible α) :
    i.getCountIt = ((i.iterate).M.mdl (i.iterate).s0).length :=
  getCountJs_fresh_mdl (i.iterate).Q (i.iterate).M (i.iterate).s0 (i.iterate).hfresh

/-- The model of a fresh `ArrayList` iterator: all elements. -/
theorem iterate_mdl_arr {α : Type} (data : List α) :
    ((Ible.arr data).iterate).M.mdl ((Ible.arr data).iterate).s0 = data.map some := rfl

/-- The model of a fresh `WhereIterable` iterator: the filtered inner model. -/
theorem iterate_mdl_where {α : Type} (inner : Ible α) (c : α → Bool) :
    ((Ible.whereI inner c).iterate).M.mdl ((Ible.whereI inner c).iterate).s0
      = ((inner.iterate).M.mdl (inner.iterate).s0).filter (liftCond c) := rfl

/-- The model of a fresh `SkipIterable` iterator: the inner model without its
first `toSkip` values. -/
theorem iterate_mdl_skip {α : Type} (inner : Ible α) (t : Int) :
    ((Ible.skipI inner t).iterate).M.mdl ((Ible.skipI inner t).iterate).s0
      = ((inner.iterate).M.mdl (inner.iterate).s0).drop t.toNat := by
  show ((inner.iterate).M.mdl (inner.iterate).s0).drop (skipDropAmt (some t) 0)
      = ((inner.iterate).M.mdl (inner.iterate).s0).drop t.toNat
  simp [skipDropAmt]

/-- The model of a fresh `TakeIterable` iterator: the first `toTake` values of
the inner model. -/
theorem iterate_mdl_take {α : Type} (inner : Ible α) (t : Int) :
    ((Ible.takeI inner t).iterate).M.mdl ((Ible.takeI inner t).iterate).s0
      = ((inner.iterate).M.mdl (inner.iterate).s0).take t.toNat := by
  show ((inner.iterate).M.mdl (inner.iterate).s0).take (takeAmt (some t) 0)
      = ((inner.iterate).M.mdl (inner.iterate).s0).take t.toNat
  simp [takeAmt]

/-- `skip` through the dispatch: the drained view drops the first
`toSkip` values (identity when the count is not positive). -/
theorem skipD_toArray {α : Type} (s : Ible α) (a : Int) (ha : 0 ≤ a) :
    (s.skipD (some a)).jsToArray = s.jsToArray.drop a.toNat := by
  by_cases hpos : 0 < a
  · have hd : s.skipD (some a) = Ible.skipI s a := by
      simp only [Ible.skipD]
      rw [if_pos ⟨by omega, hpos⟩]
    rw [hd, Ible.jsToArray_mdl, iterate_mdl_skip, Ible.jsToArray_mdl]
  · have ha0 : a = 0 := by omega
    subst ha0
    have hd : s.skipD (some 0) = s := by
      simp only [Ible.skipD]
      rw [if_neg (by omega)]
    rw [hd]
    simp

/-- `take` through the dispatch: the drained view keeps the first
`toTake` values (empty when the count is not positive). -/
theorem takeD_toArray {α : Type} (s : Ible α) (b : Int) (hb : 0 ≤ b) :
    (s.takeD (some b)).jsToArray = s.jsToArray.take b.toNat := by
  by_cases hpos : 0 < b
  · have hd : s.takeD (some b) = Ible.takeI s b := by
      simp only [Ible.takeD]
      rw [if_pos ⟨by omega, hpos⟩]
    rw [hd, Ible.jsToArray_mdl, iterate_mdl_take, Ible.jsToArray_mdl]
  · have hb0 : b = 0 := by omega
    subst hb0
    have hd : s.takeD (some 0) = Ible.arr [] := by
      simp only [Ible.takeD]
      rw [if_neg (by omega)]
    rw [hd, Ible.jsToArray_mdl, iterate_mdl_arr]
    simp

/-- C3: the operators are total on absent or degenerate arguments:
`where` with an undefined predicate returns the iterable itself, `skip` with
an undefined or non-positive count returns the iterable itself, `take` with
an undefined or non-positive bound returns a fresh empty `ArrayList` (whose
`toArray` is empty), and `map` with an undefined function returns a fresh
empty `ArrayList`, so `s.map(undefined).toArray() == []` for every `s`. -/
theorem C3_operators_total_on_absent_args {α β : Type} (s : Ible α) (t : Int) :
    s.whereD none = s
    ∧ s.skipD none = s
    ∧ (t ≤ 0 → s.skipD (some t) = s)
    ∧ s.takeD none = Ible.arr []
    ∧ (t ≤ 0 → s.takeD (some t) = Ible.arr [])
    ∧ (Ible.arr ([] : List α)).jsToArray = []
    ∧ (s.mapD (none : Option (α → β))).jsToArray = [] := by
  refine ⟨rfl, rfl, ?_, rfl, ?_, ?_, ?_⟩
  · intro ht
    simp only [Ible.skipD]
    rw [if_neg (by omega)]
  · intro ht
    simp only [Ible.takeD]
    rw [if_neg (by omega)]
  · rw [Ible.jsToArray_mdl, iterate_mdl_arr]
    simp
  · show (Ible.arr ([] : List β)).jsToArray = []
    rw [Ible.jsToArray_mdl, iterate_mdl_arr]
    simp

/-- C3 witness at a concrete non-empty sequence. -/
theorem C3_operators_total_on_absent_args_witness :
    ((-1 : Int) ≤ 0)
    ∧ ((Ible.arr [5, 6, 7]).mapD (none : Option (Nat → Nat))).jsToArray = [] :=
  ⟨by decide, (C3_operators_total_on_absent_args (Ible.arr [5, 6, 7]) (-1)).2.2.2.2.2.2⟩

/-- C4: for counts `a, b ≥ 0`, `s.skip(a).take(b).toArray()` equals
`s.toArray().slice(a, a + b)`; `skip(0)` is the identity dispatch and
`take(0)` drains to nothing. -/
theorem C4_skip_take_slice {α : Type} (s : Ible α) (a b : Int)
    (ha : 0 ≤ a) (hb : 0 ≤ b) :
    ((s.skipD (some a)).takeD (some b)).jsToArray = jsSlice s.jsToArray a (a + b)
    ∧ s.skipD (some 0) = s
    ∧ (s.takeD (some 0)).jsToArray = [] := by
  refine ⟨?_, ?_, ?_⟩
  · rw [takeD_toArray _ b hb, skipD_toArray s a ha]
    rw [jsSlice, List.drop_take]
    congr 1
    omega
  · simp only [Ible.skipD]
    rw [if_neg (by omega)]
  · rw [takeD_toArray s 0 (by omega)]
    simp

/-- C4 witness: `[10, 20, 30, 40].skip(1).take(2).toArray()` is the slice
`[20, 30]` (as `some`-wrapped values). -/
theorem C4_skip_take_slice_witness :
    ((0 : Int) ≤ 1) ∧ ((0 : Int) ≤ 2)
    ∧ (((Ible.arr [10, 20, 30, 40]).skipD (some 1)).takeD (some 2)).jsToArray
        = jsSlice (Ible.arr [10, 20, 30, 40]).jsToArray 1 (1 + 2) :=
  ⟨by decide, by decide,
    (C4_skip_take_slice (Ible.arr [10, 20, 30, 40]) 1 2 (by decide) (by decide)).1⟩

/-- C5: for positive counts, `SkipIterable.getCount()` is
`max(0, innerCount - toSkip)`, `TakeIterable.getCount()` is
`min(toTake, innerCount)`, and both agree with the number of values the
view actually produces when iterated. -/
theorem C5_skip_take_counts {α : Type} (s : Ible α) (a b : Int)
    (ha : 0 < a) (hb : 0 < b) :
    skipIterableGetCount (s.getCountIt : Int) a = max 0 ((s.getCountIt : Int) - a)
    ∧ ((s.skipD (some a)).getCountIt : Int) = skipIterableGetCount (s.getCountIt : Int) a
    ∧ takeIterableGetCount (s.getCountIt : Int) b = min b (s.getCountIt : Int)
    ∧ ((s.takeD (some b)).getCountIt : Int) = takeIterableGetCount (s.getCountIt : Int) b := by
  have hcount := Ible.getCountIt_mdl s
  refine ⟨?_, ?_, ?_, ?_⟩
  · rw [skipIterableGetCount]
    split_ifs <;> omega
  · have hd : s.skipD (some a) = Ible.skipI s a := by
      simp only [Ible.skipD]
      rw [if_pos ⟨by omega, ha⟩]
    rw [hd, Ible.getCountIt_mdl, iterate_mdl_skip, skipIterableGetCount]
    rw [List.length_drop]
    split_ifs <;> omega
  · rw [takeIterableGetCount]
    split_ifs <;> omega
  · have hd : s.takeD (some b) = Ible.takeI s b := by
      simp only [Ible.takeD]
      rw [if_pos ⟨by omega, hb⟩]
    rw [hd, Ible.getCountIt_mdl, iterate_mdl_take, takeIterableGetCount]
    rw [List.length_take]
    split_ifs <;> omega

/-- C5 witness: `[1, 2, 3, 4, 5].skip(2)` and `.take(2)` counts. -/
theorem C5_skip_take_counts_witness :
    ((0 : Int) < 2)
    ∧ (((Ible.arr [1, 2, 3, 4, 5]).skipD (some 2)).getCountIt : Int)
        = skipIterableGetCount ((Ible.arr [1, 2, 3, 4, 5]).getCountIt : Int) 2 :=
  ⟨by decide, (C5_skip_take_counts (Ible.arr [1, 2, 3, 4, 5]) 2 2 (by decide) (by decide)).2.1⟩

/-- C7 (amended): `afterEndIndex = startIndex + length` and
`endIndex = afterEndIndex - 1` for every span, with no special case for a
zero length; the `Span(3,2)` example behaves as the spec says. -/
theorem C7_span_derived_fields (s : Span) :
    s.afterEndIndex = s.startIndex + s.length
    ∧ s.endIndex = s.afterEndIndex - 1
    ∧ (Span.mk 3 2).startIndex = 3 ∧ (Span.mk 3 2).length = 2
    ∧ (Span.mk 3 2).afterEndIndex = 5 ∧ (Span.mk 3 2).endIndex = 4
    ∧ (Span.mk 3 2).asString = "[3,5)" :=
  ⟨rfl, rfl, rfl, rfl, rfl, rfl, rfl⟩

/-- C7 counterexample: for a zero-length span `endIndex` is
`startIndex - 1`, not `startIndex` as the spec claims. -/
theorem C7_span_zero_length_counterexample :
    (Span.mk 3 0).endIndex = 2 ∧ ¬ (Span.mk 3 0).endIndex = (Span.mk 3 0).startIndex :=
  ⟨rfl, by decide⟩

/-- `ArrayList.indexOf` finds nothing exactly when nothing matches. -/
theorem listIndexOf_none {γ : Type} (p : γ → Bool) :
    ∀ (l : List γ), listIndexOf p l = none → ∀ x ∈ l, p x = false := by
  intro l
  induction l with
  | nil => intro _ x hx; simp at hx
  | cons q rest IH =>
      intro h x hx
      simp only [listIndexOf] at h
      by_cases hq : p q = true
      · rw [if_pos hq] at h
        simp at h
      · rw [if_neg hq] at h
        rw [List.mem_cons] at hx
        rcases hx with hx | hx
        · subst hx
          revert hq; cases p x <;> simp
        · rcases hrest : listIndexOf p rest with _ | i
          · exact IH hrest x hx
          · rw [hrest] at h
            simp at h

/-- `ArrayList.remove` of the first match, when the list holds at most one
match: the result holds none, a matchless list is unchanged, and removing
an existing match shortens the list by one. -/
theorem listRemoveFirst_char {γ : Type} (p : γ → Bool) :
    ∀ (l : List γ), l.countP p ≤ 1 →
      (∀ x ∈ listRemoveFirst p l, p x = false)
      ∧ (l.countP p = 0 → listRemoveFirst p l = l)
      ∧ (l.countP p = 1 → (listRemoveFirst p l).length + 1 = l.length) := by
  intro l
  induction l with
  | nil =>
      intro _
      refine ⟨?_, fun _ => rfl, ?_⟩
      · intro x hx
        simp [listRemoveFirst, listIndexOf] at hx
      · intro h
        simp at h
  | cons q rest IH =>
      intro hone
      by_cases hq : p q = true
      · have hcnt : rest.countP p = 0 := by
          rw [List.countP_cons, if_pos hq] at hone
          omega
        have hrf : listRemoveFirst p (q :: rest) = rest := by
          rw [listRemoveFirst]
          simp only [listIndexOf, if_pos hq]
          rfl
        refine ⟨?_, ?_, ?_⟩
        · intro x hx
          rw [hrf] at hx
          have := List.countP_eq_zero.mp hcnt x hx
          revert this; cases p x <;> simp
        · intro h
          rw [List.countP_cons, if_pos hq] at h
          omega
        · intro _
          rw [hrf]
          simp
      · have hq' : p q = false := by revert hq; cases p q <;> simp
        have hcons : (q :: rest).countP p = rest.countP p := by
          rw [List.countP_cons, if_neg hq]
          omega
        have hone' : rest.countP p ≤ 1 := by omega
        obtain ⟨ih1, ih2, ih3⟩ := IH hone'
        rcases hrest : listIndexOf p rest with _ | i
        · have hrf : listRemoveFirst p (q :: rest) = q :: rest := by
            rw [listRemoveFirst]
            simp only [listIndexOf, if_neg hq, hrest]
            rfl
          have hall := listIndexOf_none p rest hrest
          refine ⟨?_, fun _ => hrf, ?_⟩
          · intro x hx
            rw [hrf] at hx
            rw [List.mem_cons] at hx
            rcases hx with hx | hx
            · subst hx; exact hq'
            · exact hall x hx
          · intro h
            rw [hcons] at h
            have : rest.countP p = 0 := List.countP_eq_zero.mpr (by
              intro x hx
              rw [hall x hx]
              simp)
            omega
        · have hrfr : listRemoveFirst p rest = rest.eraseIdx i := by
            rw [listRemoveFirst, hrest]
          have hrf : listRemoveFirst p (q :: rest) = q :: rest.eraseIdx i := by
            rw [listRemoveFirst]
            simp only [listIndexOf, if_neg hq, hrest]
            rfl
          refine ⟨?_, ?_, ?_⟩
          · intro x hx
            rw [hrf] at hx
            rw [List.mem_cons] at hx
            rcases hx with hx | hx
            · subst hx; exact hq'
            · exact ih1 x (by rw [hrfr]; exact hx)
          · intro h
            rw [hcons] at h
            rw [hrf, ← hrfr, ih2 h]
          · intro h
            rw [hcons] at h
            rw [hrf]
            have := ih3 h
            rw [hrfr] at this
            simp only [List.length_cons]
            omega

/-- `first` over an appended pair list skips a matchless prefix. -/
theorem find_append_none {γ : Type} (p : γ → Bool) :
    ∀ (l1 l2 : List γ), (∀ x ∈ l1, p x = false) →
      List.find? p (l1 ++ l2) = List.find? p l2 := by
  intro l1
  induction l1 with
  | nil => intro l2 _; rfl
  | cons q rest IH =>
      intro l2 hall
      have hq := hall q (by simp)
      simp only [List.cons_append, List.find?]
      rw [hq]
      exact IH l2 (fun x hx => hall x (by simp [hx]))

/-- C8 (amended): re-adding a key overwrites its value (`get` returns the
last value), `add` removes the old pair and appends the new one at the end
(so a re-added key moves to the end of the pair list), a map built from
empty by two same-key adds holds one pair, and `add` of an existing key
keeps the pair count — all provided the map holds at most one pair for the
key, as every map built through `add` does. -/
theorem C8_map_add_last_write_wins {κ β : Type} [DecidableEq κ]
    (pairs : List (κ × β)) (k : κ) (v1 v2 : β)
    (hone : pairs.countP (fun pr => pr.1 = k) ≤ 1) :
    qubMapGet (qubMapAdd (qubMapAdd pairs k v1) k v2) k = some v2
    ∧ qubMapAdd pairs k v1
        = listRemoveFirst (fun pr => pr.1 = k) pairs ++ [(k, v1)]
    ∧ (∀ p ∈ listRemoveFirst (fun pr => pr.1 = k) pairs, ¬ p.1 = k)
    ∧ qubMapGetCount (qubMapAdd (qubMapAdd ([] : List (κ × β)) k v1) k v2) = 1
    ∧ (pairs.countP (fun pr => pr.1 = k) = 1 →
        qubMapGetCount (qubMapAdd pairs k v1) = qubMapGetCount pairs) := by
  obtain ⟨lr1, lr2, lr3⟩ := listRemoveFirst_char (fun pr => pr.1 = k) pairs hone
  refine ⟨?_, rfl, ?_, ?_, ?_⟩
  · have h0 : (listRemoveFirst (fun pr => pr.1 = k) pairs).countP (fun pr => pr.1 = k) = 0 :=
      List.countP_eq_zero.mpr (by intro x hx; simp [lr1 x hx])
    have hcA1 : (qubMapAdd pairs k v1).countP (fun pr => pr.1 = k) = 1 := by
      rw [qubMapAdd, List.countP_append, h0]
      simp
    obtain ⟨lrA1, _, _⟩ :=
      listRemoveFirst_char (fun pr => pr.1 = k) (qubMapAdd pairs k v1) (by omega)
    rw [qubMapGet, qubMapAdd]
    rw [find_append_none _ _ _ lrA1]
    simp
  · intro p hp
    have := lr1 p hp
    simp at this
    exact this
  · simp [qubMapAdd, listRemoveFirst, listIndexOf, qubMapGetCount, List.eraseIdx]
  · intro h
    rw [qubMapGetCount, qubMapGetCount, qubMapAdd]
    rw [List.length_append]
    have := lr3 h
    simp only [List.length_cons, List.length_nil]
    omega

/-- C8 witness: building a map from empty and adding key `7` twice. -/
theorem C8_map_add_last_write_wins_witness :
    (([] : List (Nat × Nat)).countP (fun pr => pr.1 = 7) ≤ 1)
    ∧ qubMapGet (qubMapAdd (qubMapAdd ([] : List (Nat × Nat)) 7 1) 7 2) 7 = some 2 :=
  ⟨by decide, (C8_map_add_last_write_wins [] 7 1 2 (by decide)).1⟩

/-- C8 counterexample: on a map that already holds another key, re-adding a
key still overwrites its value, but `getCount()` is 2, not 1 as the claim
("for every Map m ... m.getCount() returns 1") states. -/
theorem C8_map_add_precount_counterexample :
    qubMapGet (qubMapAdd (qubMapAdd [((1 : Nat), (5 : Nat))] 7 1) 7 2) 7 = some 2
    ∧ qubMapGetCount (qubMapAdd (qubMapAdd [((1 : Nat), (5 : Nat))] 7 1) 7 2) = 2
    ∧ ¬ qubMapGetCount (qubMapAdd (qubMapAdd [((1 : Nat), (5 : Nat))] 7 1) 7 2) = 1 := by
  refine ⟨?_, ?_, ?_⟩ <;> decide

/-- C6: `ArrayList.get` does return the undefined sentinel on undefined,
negative and too-large indices — but `SkipIterable.get` forwards
`index + toSkip` to the inner `get` with no bounds check of its own, so on
the view `[0,1,2,3,4].skip(2)` the negative index `-1` returns element `1`
instead of the undefined sentinel. -/
theorem C6_skip_get_negative_index :
    arrayListGet ([0, 1, 2, 3, 4] : List Nat) (some (-1)) = none
    ∧ arrayListGet ([0, 1, 2, 3, 4] : List Nat) none = none
    ∧ arrayListGet ([0, 1, 2, 3, 4] : List Nat) (some 5) = none
    ∧ takeIterableGet ([0, 1, 2, 3, 4] : List Nat) 3 (some (-1)) = none
    ∧ skipIterableGet ([0, 1, 2, 3, 4] : List Nat) 2 (some (-1)) = some 1
    ∧ ¬ skipIterableGet ([0, 1, 2, 3, 4] : List Nat) 2 (some (-1)) = none := by
  refine ⟨?_, ?_, ?_, ?_, ?_, ?_⟩ <;> decide

/-- C2: the carriage-return lookahead of `Lexer.next` consumes both
characters of `"\r\n"` and produces a single two-character lex — but the
`CarriageReturnNewLine` factory (src 1883-1885) passes `LexType.NewLine`,
so the produced lex's type is `NewLine`, not `CarriageReturnNewLine` as the
spec states.  `"\ra"` produces a one-character `CarriageReturn` lex and then
a `Letters` lex for `"a"`. -/
theorem C2_carriage_return_lookahead :
    lexNext (some ['\r', '\n']) 0 ((false, 0), none)
      = (((true, 2), some (Lex.mk ['\r', '\n'] 0 LexType.NewLine)), true)
    ∧ lexNext (some ['\r', '\n']) 0
        ((true, 2), some (Lex.mk ['\r', '\n'] 0 LexType.NewLine))
      = (((true, 2), none), false)
    ∧ (∀ i : Int, CarriageReturnNewLine i = Lex.mk ['\r', '\n'] i LexType.NewLine)
    ∧ ¬ (CarriageReturnNewLine 0).type = LexType.CarriageReturnNewLine
    ∧ lexNext (some ['\r', 'a']) 0 ((false, 0), none)
      = (((true, 1), some (Lex.mk ['\r'] 0 LexType.CarriageReturn)), true)
    ∧ (CarriageReturn 0).type = LexType.CarriageReturn := by
  refine ⟨?_, ?_, fun i => rfl, by decide, ?_, rfl⟩ <;> decide

/-- The `ArrayList` forward iterator visits index `m` after `m + 1` calls of
`next()` from fresh. -/
theorem arr_nextIter_fresh {α : Type} (data : List α) :
    ∀ (m : Nat), m < data.length → nextIter (arrKit data) none (m + 1) = some m := by
  intro m
  induction m with
  | zero =>
      intro _
      simp [nextIter, arrKit, arrFwdNextIdx]
  | succ m IH =>
      intro hlt
      show (nextIter (arrKit data) none ((m + 1) + 1)) = some (m + 1)
      rw [nextIter, IH (by omega)]
      simp only [arrKit, arrFwdNextIdx]
      rw [if_neg (by omega)]

/-- Drains from equal states are equal (the invariant proof is irrelevant). -/
theorem drainLoop_congr {σ α : Type} (B : QIter σ α) {s s' : σ} (e : s = s') :
    ∀ (h : B.kit.inv s), drainLoop B s h = drainLoop B s' (e ▸ h) := by
  cases e
  intro h
  rfl

/-- The drain of a `take(n)` view over an `ArrayList` iterator, from the
state reached after emitting elements `0..j`: it emits elements
`j+1..n-1` and stops with `_taken = n + 1` and the shared inner iterator
on element `n`. -/
theorem c10_drain_loop {α : Type} (data : List α) (n : Nat) (hn : n < data.length) :
    ∀ (d j : Nat), j < n → n - 1 - j = d →
    ∀ (h : (takeQ (arrQ data) (some (n : Int))).kit.inv (((j : Int) + 1), some j)),
      drainLoop (takeQ (arrQ data) (some (n : Int))) (((j : Int) + 1), some j) h
        = (((data.drop (j + 1)).take (n - (j + 1))).map some, (((n : Int) + 1), some n)) := by
  intro d
  induction d with
  | zero =>
      intro j hj hd h
      have hjn : j + 1 = n := by omega
      have hct : canTakeValue (some (n : Int)) ((j : Int) + 1) = true := by
        simp [canTakeValue]
        omega
      have hjlen : ¬ (j = data.length) := by omega
      have hj1len : (((j + 1 : Nat) : Int).toNat = j + 1) := by omega
      have e1 : (takeKit (arrKit data) (some (n : Int))).next (((j : Int) + 1), some j)
          = ((((j : Int) + 1) + 1, some (j + 1)),
              true && canTakeValue (some (n : Int)) (((j : Int) + 1) + 1)) := by
        simp only [takeKit, arrKit]
        rw [if_pos hct]
        simp only [arrFwdNextIdx, arrFwdAtEnd]
        rw [if_neg hjlen]
        simp only [Option.isSome_some, Bool.true_and]
        rw [show ((j + 1 : Nat) == data.length) = false from by simp; omega]
        simp
      have hcf : canTakeValue (some (n : Int)) (((j : Int) + 1) + 1) = false := by
        simp [canTakeValue]
        omega
      rw [drainLoop]
      rw [dif_neg ?hnb]
      case hnb =>
        show ¬ ((takeQ (arrQ data) (some (n : Int))).kit.next _).2 = true
        rw [show (takeQ (arrQ data) (some (n : Int))).kit = takeKit (arrKit data) (some (n : Int)) from rfl]
        rw [e1, hcf]
        simp
      rw [show (takeQ (arrQ data) (some (n : Int))).kit = takeKit (arrKit data) (some (n : Int)) from rfl]
      rw [e1]
      dsimp only
      rw [show n - (j + 1) = 0 from by omega]
      simp only [List.take_zero, List.map_nil]
      have e3 : ((takeKit (arrKit data) (some (n : Int))).getCurrent
          ((((j : Int) + 1) + 1), some (j + 1))).1 = ((((j : Int) + 1) + 1), some (j + 1)) := by
        simp only [takeKit, arrKit]
        rw [if_neg (by rw [hcf]; simp)]
      rw [e3, hjn]
      rw [show ((j : Int) + 1) + 1 = ((n : Int) + 1) from by omega]
  | succ d IH =>
      intro j hj hd h
      have hct : canTakeValue (some (n : Int)) ((j : Int) + 1) = true := by
        simp [canTakeValue]
        omega
      have hjlen : ¬ (j = data.length) := by omega
      have hctt : canTakeValue (some (n : Int)) (((j : Int) + 1) + 1) = true := by
        simp [canTakeValue]
        omega
      have e1 : (takeQ (arrQ data) (some (n : Int))).kit.next (((j : Int) + 1), some j)
          = ((((j : Int) + 1) + 1, some (j + 1)),
              true && canTakeValue (some (n : Int)) (((j : Int) + 1) + 1)) := by
        show (takeKit (arrKit data) (some (n : Int))).next (((j : Int) + 1), some j) = _
        simp only [takeKit, arrKit]
        rw [if_pos hct]
        simp only [arrFwdNextIdx, arrFwdAtEnd]
        rw [if_neg hjlen]
        simp only [Option.isSome_some, Bool.true_and]
        rw [show ((j + 1 : Nat) == data.length) = false from by simp; omega]
        simp
      have e2 : (takeQ (arrQ data) (some (n : Int))).kit.getCurrent
          ((((j : Int) + 1) + 1), some (j + 1))
          = (((((j : Int) + 1) + 1), some (j + 1)), some (data.get ⟨j + 1, by omega⟩)) := by
        show (takeKit (arrKit data) (some (n : Int))).getCurrent
            ((((j : Int) + 1) + 1), some (j + 1)) = _
        have hcnd : (((arrKit data).hasCurrent (some (j + 1))).2
            && canTakeValue (some (n : Int)) (((j : Int) + 1) + 1)) = true := by
          rw [hctt, Bool.and_true]
          simp only [arrKit, arrFwdAtEnd, Option.isSome_some, Bool.true_and]
          simp
          omega
        have hgetv : arrayListGet data (some ((j + 1 : Nat) : Int))
            = some (data.get ⟨j + 1, by omega⟩) := by
          simp only [arrayListGet]
          rw [dif_pos (by constructor <;> omega)]
          simp
        simp only [takeKit]
        rw [if_pos hcnd]
        show ((((j : Int) + 1) + 1, some (j + 1)),
            arrayListGet data (some ((j + 1 : Nat) : Int))) = _
        rw [hgetv]
      have heq1 : (((j : Int) + 1) + 1) = (((j + 1 : Nat) : Int) + 1) := by push_cast; omega
      have eS : ((takeQ (arrQ data) (some (n : Int))).kit.getCurrent
            ((takeQ (arrQ data) (some (n : Int))).kit.next (((j : Int) + 1), some j)).1).1
          = ((((j + 1 : Nat) : Int) + 1), some (j + 1)) := by
        rw [congrArg Prod.fst e1]
        rw [congrArg Prod.fst e2, heq1]
      have eV : ((takeQ (arrQ data) (some (n : Int))).kit.getCurrent
            ((takeQ (arrQ data) (some (n : Int))).kit.next (((j : Int) + 1), some j)).1).2
          = some (data.get ⟨j + 1, by omega⟩) := by
        rw [congrArg Prod.fst e1]
        rw [congrArg Prod.snd e2]
      rw [drainLoop]
      rw [dif_pos ?hb]
      case hb =>
        rw [congrArg Prod.snd e1, hctt]
        rfl
      rw [drainLoop_congr (takeQ (arrQ data) (some (n : Int))) eS]
      rw [IH (j + 1) (by omega) (by omega)]
      rw [eV]
      have hdrop := List.drop_eq_getElem_cons (show j + 1 < data.length from by omega)
      rw [hdrop]
      rw [show n - (j + 1) = (n - (j + 2)) + 1 from by omega]
      simp only [List.take_succ_cons, List.map_cons]
      simp [List.get_eq_getElem]

/-- C10: draining `take(n)` over an iterator of a longer `ArrayList` yields
exactly the first `n` elements, yet consumes `n + 1` elements from the shared
inner iterator: the final `next()` that reports exhaustion still advances the
inner iterator, leaving its current value on element `n` (0-indexed), one
past the last element the view exposed. -/
theorem C10_take_overconsumes {α : Type} (data : List α) (n : Nat)
    (h1 : 1 ≤ n) (h2 : n < data.length) :
    ∀ (h : (takeQ (arrQ data) (some (n : Int))).kit.inv (0, none)),
      (drainJs (takeQ (arrQ data) (some (n : Int))) (0, none) h).1 = (data.take n).map some
      ∧ (drainJs (takeQ (arrQ data) (some (n : Int))) (0, none) h).2
          = (((n : Int) + 1), some n)
      ∧ nextIter (arrKit data) none (n + 1) = some n
      ∧ ((arrKit data).getCurrent (some n)).2 = some (data.get ⟨n, h2⟩) := by
  intro h
  have hlen0 : 0 < data.length := by omega
  have hhc : ((takeQ (arrQ data) (some (n : Int))).kit.hasCurrent (0, none))
      = (((0 : Int), (none : Option Nat)), false) := by
    show (takeKit (arrKit data) (some (n : Int))).hasCurrent (0, none) = _
    simp [takeKit, arrKit]
  have hczero : canTakeValue (some (n : Int)) 0 = true := by
    simp [canTakeValue]
  have hcone : canTakeValue (some (n : Int)) ((0 : Int) + 1) = true := by
    simp [canTakeValue]
    omega
  have e1f : (takeQ (arrQ data) (some (n : Int))).kit.next ((0 : Int), (none : Option Nat))
      = (((0 : Int) + 1, some 0), true && canTakeValue (some (n : Int)) ((0 : Int) + 1)) := by
    show (takeKit (arrKit data) (some (n : Int))).next (0, none) = _
    simp only [takeKit]
    rw [if_pos hczero]
    simp only [arrKit, arrFwdNextIdx, arrFwdAtEnd, Option.isSome_some, Bool.true_and]
    rw [show ((0 : Nat) == data.length) = false from by simp; omega]
    simp
  have e2f : (takeQ (arrQ data) (some (n : Int))).kit.getCurrent ((0 : Int) + 1, some 0)
      = ((((0 : Int) + 1), some 0), some (data.get ⟨0, hlen0⟩)) := by
    show (takeKit (arrKit data) (some (n : Int))).getCurrent ((0 : Int) + 1, some 0) = _
    have hcnd : (((arrKit data).hasCurrent (some 0)).2
        && canTakeValue (some (n : Int)) ((0 : Int) + 1)) = true := by
      rw [hcone, Bool.and_true]
      simp only [arrKit, arrFwdAtEnd, Option.isSome_some, Bool.true_and]
      simp
      omega
    have hgetv : arrayListGet data (some ((0 : Nat) : Int))
        = some (data.get ⟨0, hlen0⟩) := by
      simp only [arrayListGet]
      rw [dif_pos (by constructor <;> omega)]
      simp
    simp only [takeKit]
    rw [if_pos hcnd]
    show (((0 : Int) + 1, some 0), arrayListGet data (some ((0 : Nat) : Int))) = _
    rw [hgetv]
  have htake : data.take n = data.get ⟨0, hlen0⟩ :: (data.drop 1).take (n - 1) := by
    rcases data with _ | ⟨a, l⟩
    · simp at h2
    · rcases n with _ | m
      · omega
      · simp [List.get_eq_getElem]
  have hall : drainJs (takeQ (arrQ data) (some (n : Int))) (0, none) h
      = ((data.take n).map some, (((n : Int) + 1), some n)) := by
    rw [drainJs]
    rw [if_neg (by rw [congrArg Prod.snd hhc]; simp)]
    rw [drainLoop_congr (takeQ (arrQ data) (some (n : Int))) (congrArg Prod.fst hhc)]
    rw [drainLoop]
    rw [dif_pos ?hb]
    case hb =>
      rw [congrArg Prod.snd e1f, hcone]
      rfl
    have eSf : ((takeQ (arrQ data) (some (n : Int))).kit.getCurrent
          ((takeQ (arrQ data) (some (n : Int))).kit.next ((0 : Int), (none : Option Nat))).1).1
        = ((((0 : Nat) : Int) + 1), some 0) := by
      rw [congrArg Prod.fst e1f]
      rw [congrArg Prod.fst e2f]
      norm_num
    have eVf : ((takeQ (arrQ data) (some (n : Int))).kit.getCurrent
          ((takeQ (arrQ data) (some (n : Int))).kit.next ((0 : Int), (none : Option Nat))).1).2
        = some (data.get ⟨0, hlen0⟩) := by
      rw [congrArg Prod.fst e1f]
      rw [congrArg Prod.snd e2f]
    rw [drainLoop_congr (takeQ (arrQ data) (some (n : Int))) eSf]
    rw [c10_drain_loop data n h2 (n - 1 - 0) 0 (by omega) rfl]
    rw [eVf]
    rw [htake]
    simp
  refine ⟨by rw [hall], by rw [hall], arr_nextIter_fresh data n h2, ?_⟩
  show arrayListGet data (some ((n : Nat) : Int)) = some (data.get ⟨n, h2⟩)
  simp only [arrayListGet]
  rw [dif_pos (by constructor <;> omega)]
  simp

/-- C10 witness: `[10, 20, 30].take(1)` yields `[10]` but the inner iterator
ends on element 1 (value `20`). -/
theorem C10_take_overconsumes_witness :
    1 ≤ 1 ∧ 1 < [10, 20, 30].length
    ∧ ((takeQ (arrQ [10, 20, 30]) (some ((1 : Nat) : Int))).kit.inv (0, none)
        → nextIter (arrKit [10, 20, 30]) none (1 + 1) = some 1) := by
  refine ⟨by decide, by decide, fun h => ?_⟩
  exact (C10_take_overconsumes [10, 20, 30] 1 (by decide) (by decide) h).2.2.1

/-- A dead iterator stays exhausted forever. -/
theorem dead_exhausted {σ α : Type} {K : IterKit σ α} (L : IterLaws K) :
    ∀ s, K.dead s → ExhaustedForever K s := by
  intro s hd
  have hall : ∀ n, K.dead (nextIter K s n) := by
    intro n
    induction n with
    | zero => exact hd
    | succ n IH => exact (L.dead_next _ IH).2
  intro n
  exact ⟨(L.dead_next _ (hall n)).1, (L.dead_gc _ (hall n)).1⟩

/-- Every law-abiding iterator of the library meets the three-clause
contract: fresh states are unstarted with no current value, `next()` returns
exactly what `hasCurrent()` then returns, and a false `next()` is final. -/
theorem laws_meet_contract {σ α : Type} (B : QIter σ α) : MeetsContract B.kit := by
  refine ⟨?_, ?_, ?_⟩
  · intro s h
    exact ⟨B.laws.fresh_started s h, B.laws.fresh_hc s h⟩
  · intro s h
    exact B.laws.next_hc s h
  · intro s h hb
    exact dead_exhausted B.laws _ (B.laws.next_false_dead s h hb)

/-- `StringIterator.next` always leaves `_started` set. -/
theorem strNextSt_started (startIndex endIndex : Int) :
    ∀ s : StrSt, (strNextSt startIndex endIndex s).1.1 = true := by
  rintro ⟨b, i⟩
  cases b
  · rfl
  · simp only [strNextSt, strNextIdx]
    split_ifs <;> rfl

/-- The `readWhile` loop always leaves the character iterator started. -/
theorem readWhileLoop_started (text : Option (List Char)) (startIndex endIndex : Int)
    (cond : Char → Bool) :
    ∀ (n : Nat) (s : StrSt), strRem startIndex endIndex s = n →
      (readWhileLoop text startIndex endIndex cond s).2.1 = true := by
  intro n
  induction n using Nat.strong_induction_on with
  | _ n IH =>
    intro s hn
    by_cases hb : (strNextSt startIndex endIndex s).2 = true
    · rcases hgcv : strGetCur text startIndex endIndex (strNextSt startIndex endIndex s).1
        with _ | ch
      · have heq : readWhileLoop text startIndex endIndex cond s
            = ([], (strNextSt startIndex endIndex s).1) := by
          conv_lhs => rw [readWhileLoop]
          rw [dif_pos hb]
          rw [hgcv]
        rw [heq]
        exact strNextSt_started startIndex endIndex s
      · by_cases hcnd : cond ch = true
        · have heq : readWhileLoop text startIndex endIndex cond s
              = (ch :: (readWhileLoop text startIndex endIndex cond
                    (strNextSt startIndex endIndex s).1).1,
                  (readWhileLoop text startIndex endIndex cond
                    (strNextSt startIndex endIndex s).1).2) := by
            conv_lhs => rw [readWhileLoop]
            rw [dif_pos hb]
            rw [hgcv]
            dsimp only
            rw [if_pos hcnd]
          rw [heq]
          dsimp only
          have hlt : strRem startIndex endIndex (strNextSt startIndex endIndex s).1 < n := by
            have key : strRem startIndex endIndex (strNextSt startIndex endIndex s).1
                < strRem startIndex endIndex s := by
              rcases s with ⟨b, i⟩
              cases b
              · simp only [strNextSt, strNextIdx] at hb ⊢
                simp [strRem]
              · simp only [strNextSt, strNextIdx] at hb ⊢
                by_cases hm : strHasMoreB startIndex endIndex i = true
                · rw [if_pos hm] at hb ⊢
                  simp only [strRem, strHasMoreB, strStep] at *
                  split_ifs at * <;> simp_all <;> omega
                · rw [if_neg hm] at hb
                  simp only at hb
                  exact absurd hb hm
            omega
          exact IH _ hlt _ rfl
        · have heq : readWhileLoop text startIndex endIndex cond s
              = ([], (strNextSt startIndex endIndex s).1) := by
            conv_lhs => rw [readWhileLoop]
            rw [dif_pos hb]
            rw [hgcv]
            dsimp only
            rw [if_neg hcnd]
          rw [heq]
          exact strNextSt_started startIndex endIndex s
    · have heq : readWhileLoop text startIndex endIndex cond s
          = ([], (strNextSt startIndex endIndex s).1) := by
        conv_lhs => rw [readWhileLoop]
        rw [dif_neg hb]
      rw [heq]
      exact strNextSt_started startIndex endIndex s

/-- Every arm of the classification switch leaves the character iterator
started. -/
theorem lexClassify_started (text : Option (List Char)) (offset : Int)
    (it0 : StrSt) (c : Char) : (lexClassify text offset it0 c).2.1 = true := by
  have hA := strNextSt_started 0 (jsGetLength text) it0
  have hB := strNextSt_started 0 (jsGetLength text) (strNextSt 0 (jsGetLength text) it0).1
  have hL : (readWhile text 0 (jsGetLength text) isLetter it0).2.1 = true := by
    simp only [readWhile]
    exact readWhileLoop_started text 0 (jsGetLength text) isLetter _ it0 rfl
  have hD : (readWhile text 0 (jsGetLength text) isDigit it0).2.1 = true := by
    simp only [readWhile]
    exact readWhileLoop_started text 0 (jsGetLength text) isDigit _ it0 rfl
  rcases hf : singleCharLexFactory c with _ | f
  · simp only [lexClassify, hf]
    split_ifs <;> first | exact hA | exact hB | exact hL | exact hD
  · simp only [lexClassify, hf]
    exact hA

/-- `Lexer.next` always leaves the lexer started. -/
theorem lexNext_started (text : Option (List Char)) (offset : Int) (s : LexSt) :
    (lexerKit text offset).hasStarted ((lexerKit text offset).next s).1 = true := by
  have hit : (lexStartIt text s).1 = true := by
    by_cases hb : s.1.1 = false
    · simp [lexStartIt, hb, strNextSt, strNextIdx]
    · simp only [lexStartIt, if_neg hb]
      revert hb
      cases s.1.1 <;> simp
  rcases hg : strGetCur text 0 (jsGetLength text) (lexStartIt text s) with _ | c
  · simp only [lexerKit, lexNext, hg]
    exact hit
  · simp only [lexerKit, lexNext, hg]
    exact lexClassify_started text offset (lexStartIt text s) c

/-- The `WhereIterator` loop preserves startedness of the first `next()`. -/
theorem whereLoop_started {σ α : Type} (B : QIter σ α) (c : Option α → Bool) :
    ∀ (n : Nat) (s : {x : σ // B.kit.inv x}), B.kit.rem s.1 = n →
      B.kit.hasStarted (B.kit.next s.1).1 = true →
      B.kit.hasStarted (whereLoop B.kit B.laws c s).1 = true := by
  intro n
  induction n using Nat.strong_induction_on with
  | _ n IH =>
    intro s hn hs
    by_cases hb : (B.kit.next s.1).2 = false
    · have heq : whereLoop B.kit B.laws c s =
          ⟨(B.kit.next s.1).1, B.laws.inv_next s.1 s.2⟩ := by
        conv_lhs => rw [whereLoop]
        rw [dif_pos hb]
      rw [heq]
      exact hs
    · have hbt : (B.kit.next s.1).2 = true := by
        revert hb; cases hx : (B.kit.next s.1).2 <;> simp
      have hinv1 : B.kit.inv (B.kit.next s.1).1 := B.laws.inv_next s.1 s.2
      by_cases hcv : c (B.kit.getCurrent (B.kit.next s.1).1).2 = true
      · have heq : whereLoop B.kit B.laws c s =
            ⟨(B.kit.getCurrent (B.kit.next s.1).1).1, B.laws.inv_gc _ hinv1⟩ := by
          conv_lhs => rw [whereLoop]
          rw [dif_neg hb, if_pos hcv]
        rw [heq]
        exact B.laws.started_gc _ hinv1 hs
      · have heq : whereLoop B.kit B.laws c s =
            whereLoop B.kit B.laws c
              ⟨(B.kit.getCurrent (B.kit.next s.1).1).1, B.laws.inv_gc _ hinv1⟩ := by
          conv_lhs => rw [whereLoop]
          rw [dif_neg hb, if_neg hcv]
        rw [heq]
        have hlt : B.kit.rem (B.kit.getCurrent (B.kit.next s.1).1).1 < n := by
          have t1 := B.laws.rem_next_true s.1 s.2 hbt
          have t2 := B.laws.rem_gc _ hinv1
          omega
        refine IH _ hlt _ rfl ?_
        exact B.laws.started_next _ (B.laws.inv_gc _ hinv1)
          (B.laws.started_gc _ hinv1 hs)

/-- `skipValues` preserves the inner invariant and startedness. -/
theorem skipValuesLoop_started {σ α : Type} (B : QIter σ α) (t : Int) :
    ∀ (fuel : Nat) (k : Int) (s : σ), B.kit.inv s →
      B.kit.inv (skipValuesLoop B.kit t fuel k s).2
      ∧ (B.kit.hasStarted s = true →
          B.kit.hasStarted (skipValuesLoop B.kit t fuel k s).2 = true) := by
  intro fuel
  induction fuel with
  | zero =>
      intro k s hinv
      exact ⟨hinv, fun h => h⟩
  | succ fuel IH =>
      intro k s hinv
      simp only [skipValuesLoop]
      by_cases hkt : k < t
      · rw [if_pos hkt]
        rcases hnx : B.kit.next s with ⟨s1, b⟩
        have hs1 : s1 = (B.kit.next s).1 := by rw [hnx]
        have hinv1 : B.kit.inv s1 := by rw [hs1]; exact B.laws.inv_next s hinv
        cases b
        · exact ⟨hinv1, fun h => by
            rw [hs1]
            exact B.laws.started_next s hinv h⟩
        · obtain ⟨ih1, ih2⟩ := IH (k + 1) s1 hinv1
          exact ⟨ih1, fun h => ih2 (by
            rw [hs1]
            exact B.laws.started_next s hinv h)⟩
      · rw [if_neg hkt]
        exact ⟨hinv, fun h => h⟩

/-- C1 (amended): every iterator of the library satisfies the three-clause
contract (fresh ⇒ unstarted and no current value; `next()` equals the
following `hasCurrent()`; a false `next()` is final), and the first `next()`
starts the iterator for the array, string and lexer iterators and is
preserved by the `where`, `skip`, `map` and `concatenate` decorators and by
`take` with a defined non-negative bound — but NOT by `take` with an
undefined bound, which never starts the shared iterator (refuting the
claim's "after the first next() call hasStarted() is true" for that
decorator). -/
theorem C1_iterator_contract :
    (∀ (α : Type) (data : List α),
      MeetsContract (arrKit data) ∧ StartsOnFirstNext (arrKit data))
    ∧ (∀ (α : Type) (data : List α),
      MeetsContract (arrRevKit data) ∧ StartsOnFirstNext (arrRevKit data))
    ∧ (∀ (text : Option (List Char)) (si ei : Int),
      MeetsContract (strKit text si ei) ∧ StartsOnFirstNext (strKit text si ei))
    ∧ (∀ (text : Option (List Char)) (off : Int),
      MeetsContract (lexerKit text off) ∧ StartsOnFirstNext (lexerKit text off))
    ∧ (∀ (σ α : Type) (B : QIter σ α) (cond : Option (Option α → Bool)),
      MeetsContract (whereKit B.kit B.laws cond)
      ∧ (StartsOnFirstNext B.kit → StartsOnFirstNext (whereKit B.kit B.laws cond)))
    ∧ (∀ (σ α : Type) (B : QIter σ α) (toSkip : Option Int),
      MeetsContract (skipKit B.kit toSkip)
      ∧ (StartsOnFirstNext B.kit → StartsOnFirstNext (skipKit B.kit toSkip)))
    ∧ (∀ (σ α : Type) (B : QIter σ α) (toTake : Option Int),
      MeetsContract (takeKit B.kit toTake))
    ∧ (∀ (σ α : Type) (B : QIter σ α) (t : Int), 0 ≤ t →
      StartsOnFirstNext B.kit → StartsOnFirstNext (takeKit B.kit (some t)))
    ∧ (∀ (σ α β : Type) (B : QIter σ α) (f : Option (Option α → Option β)),
      MeetsContract (mapKit B.kit f) ∧ StartsOnFirstNext (mapKit B.kit f))
    ∧ (∀ (σ₁ σ₂ α : Type) (B₁ : QIter σ₁ α) (B₂ : QIter σ₂ α),
      MeetsContract (concatKit B₁.kit B₂.kit)
      ∧ (StartsOnFirstNext B₁.kit → StartsOnFirstNext (concatKit B₁.kit B₂.kit)))
    ∧ ¬ StartsOnFirstNext (takeKit (arrKit ([0] : List Nat)) none) := by
  refine ⟨?_, ?_, ?_, ?_, ?_, ?_, ?_, ?_, ?_, ?_, ?_⟩
  · intro α data
    refine ⟨laws_meet_contract (arrQ data), ?_⟩
    intro s hf
    have he : s = none := hf
    subst he
    simp [arrKit, arrFwdNextIdx]
  · intro α data
    refine ⟨laws_meet_contract (arrRevQ data), ?_⟩
    intro s hf
    have he : s = none := hf
    subst he
    simp [arrRevKit, arrRevNextIdx]
  · intro text si ei
    refine ⟨laws_meet_contract (strQ text si ei), ?_⟩
    intro s hf
    have he : s = (false, si) := hf
    subst he
    rfl
  · intro text off
    refine ⟨laws_meet_contract (lexerQ text off), ?_⟩
    intro s _
    exact lexNext_started text off s
  · intro σ α B cond
    refine ⟨laws_meet_contract (whereQ B cond), ?_⟩
    intro hsofn s hf
    have hf1 : B.kit.fresh s.1 := hf
    have hstart1 : B.kit.hasStarted (B.kit.next s.1).1 = true := hsofn s.1 hf1
    rcases cond with _ | c
    · simp only [whereKit]
      exact B.laws.started_hc _ (B.laws.inv_next s.1 (B.laws.fresh_inv _ hf1)) hstart1
    · simp only [whereKit]
      have hw := whereLoop_started B c (B.kit.rem s.1)
        ⟨s.1, B.laws.fresh_inv _ hf1⟩ rfl hstart1
      exact B.laws.started_hc _ (whereLoop B.kit B.laws c _).2 hw
  · intro σ α B toSkip
    refine ⟨laws_meet_contract (skipQ B toSkip), ?_⟩
    intro hsofn s hf
    obtain ⟨hk0, hf2⟩ := hf
    have hinv2 : B.kit.inv s.2 := B.laws.fresh_inv _ hf2
    simp only [skipKit]
    rcases toSkip with _ | t
    · exact hsofn s.2 hf2
    · simp only [skipValues]
      rcases hfuel : (t - s.1).toNat with _ | fuel
      · simp only [skipValuesLoop]
        exact hsofn s.2 hf2
      · simp only [skipValuesLoop]
        rw [if_pos (by omega)]
        rcases hnx : B.kit.next s.2 with ⟨s1, b⟩
        have hs1 : s1 = (B.kit.next s.2).1 := by rw [hnx]
        have hst1 : B.kit.hasStarted s1 = true := by
          rw [hs1]
          exact hsofn s.2 hf2
        have hinv1 : B.kit.inv s1 := by rw [hs1]; exact B.laws.inv_next s.2 hinv2
        cases b
        · exact B.laws.started_next s1 hinv1 hst1
        · obtain ⟨hli, hls⟩ := skipValuesLoop_started B t fuel (s.1 + 1) s1 hinv1
          exact B.laws.started_next _ hli (hls hst1)
  · intro σ α B toTake
    exact laws_meet_contract (takeQ B toTake)
  · intro σ α B t ht hsofn s hf
    obtain ⟨hk0, hf2⟩ := hf
    have hct : canTakeValue (some t) s.1 = true := by
      simp [canTakeValue]
      omega
    simp only [takeKit]
    rw [if_pos hct]
    exact B.laws.started_hc _ (B.laws.inv_next s.2 (B.laws.fresh_inv _ hf2))
      (hsofn s.2 hf2)
  · intro σ α β B f
    refine ⟨laws_meet_contract (mapQ B f), ?_⟩
    intro s hf
    rcases f with _ | g
    · rfl
    · rfl
  · intro σ₁ σ₂ α B₁ B₂
    refine ⟨laws_meet_contract (concatQ B₁ B₂), ?_⟩
    intro hsofn s hf
    obtain ⟨hf1, hf2⟩ := hf
    simp only [concatKit]
    by_cases hb : (B₁.kit.next s.1).2 = true
    · rw [if_pos hb]
      exact hsofn s.1 hf1
    · rw [if_neg hb]
      exact hsofn s.1 hf1
  · intro hsofn
    have := hsofn (0, none) ⟨rfl, rfl⟩
    revert this
    decide

/-- C1 witness: `take(2)` over the array iterator of `[7]` starts on the
first `next()`, instantiating the take clause at a concrete iterator. -/
theorem C1_iterator_contract_witness :
    ((0 : Int) ≤ 2)
    ∧ StartsOnFirstNext (takeKit (arrQ ([7] : List Nat)).kit (some 2)) :=
  ⟨by decide,
    C1_iterator_contract.2.2.2.2.2.2.2.1 (Option Nat) Nat (arrQ [7]) 2 (by decide)
      (C1_iterator_contract.1 Nat [7]).2⟩

/-- The text length seen by the lexer is the length of its character list. -/
theorem jsGetLength_chars (text : Option (List Char)) :
    jsGetLength text = ((text.getD []).length : Int) := by
  cases text <;> simp [jsGetLength]

/-- In-range character lookup on the lexer's text. -/
theorem strCharAt_in_range (text : Option (List Char)) (j : Int)
    (h0 : 0 ≤ j) (hlt : j < jsGetLength text) :
    ∀ (hj : j.toNat < (text.getD []).length),
      strCharAt text j = some ((text.getD []).get ⟨j.toNat, hj⟩) := by
  intro hj
  cases text with
  | none =>
      simp [jsGetLength] at hlt
      omega
  | some cs =>
      simp only [strCharAt]
      rw [dif_pos ⟨h0, by simpa [jsGetLength] using hlt⟩]
      rfl

/-- A current character of the string iterator is the text character at the
current index. -/
theorem strGetCur_some_char (text : Option (List Char)) (j : Int) (c : Char)
    (hg : strGetCur text 0 (jsGetLength text) (true, j) = some c) :
    0 ≤ j ∧ j < jsGetLength text
    ∧ ∀ (hj : j.toNat < (text.getD []).length), (text.getD []).get ⟨j.toNat, hj⟩ = c := by
  have hei : 0 ≤ jsGetLength text := by
    rw [jsGetLength_chars]
    omega
  have hstep : strStep 0 (jsGetLength text) = 1 := by rw [strStep, if_pos hei]
  unfold strGetCur at hg
  split_ifs at hg with hcd
  have hm : strHasMoreB 0 (jsGetLength text) j = true := by
    simpa using hcd
  have hlt : j < jsGetLength text := by
    simp [strHasMoreB, hstep] at hm
    exact hm
  have h0 : 0 ≤ j := by
    cases text with
    | none =>
        exfalso
        simp [jsGetLength] at hlt
        simp only [strCharAt] at hg
        exact absurd hg (by simp)
    | some cs =>
        simp only [strCharAt] at hg
        split_ifs at hg with hcnd
        exact hcnd.1
  refine ⟨h0, hlt, ?_⟩
  intro hj
  rw [strCharAt_in_range text j h0 hlt hj] at hg
  exact Option.some.inj hg

/-- Every simple arm of the classification switch produces a one-character
lex carrying exactly the matched character. -/
theorem singleCharLexFactory_text (c : Char) (f : Int → Lex) (j : Int)
    (h : singleCharLexFactory c = some f) : (f j).text = [c] := by
  unfold singleCharLexFactory at h
  split at h <;>
    first
      | exact Option.noConfusion h
      | (injection h with hf
         subst hf
         rfl)

/-- `hasMore` of the lexer's character iterator holds exactly below the text
length. -/
theorem strHasMoreB_iff (text : Option (List Char)) (i : Int) :
    strHasMoreB 0 (jsGetLength text) i = true ↔ i < jsGetLength text := by
  have hei : 0 ≤ jsGetLength text := by
    rw [jsGetLength_chars]
    omega
  have hstep : strStep 0 (jsGetLength text) = 1 := by rw [strStep, if_pos hei]
  simp [strHasMoreB, hstep]

/-- A `next()` of the lexer's character iterator from a started in-range state
advances by one. -/
theorem strNextSt_lt (text : Option (List Char)) (i : Int)
    (hlt : i < jsGetLength text) :
    strNextSt 0 (jsGetLength text) (true, i)
      = ((true, i + 1), strHasMoreB 0 (jsGetLength text) (i + 1)) := by
  have hei : 0 ≤ jsGetLength text := by
    rw [jsGetLength_chars]
    omega
  have hstep : strStep 0 (jsGetLength text) = 1 := by rw [strStep, if_pos hei]
  have hm : strHasMoreB 0 (jsGetLength text) i = true := (strHasMoreB_iff text i).2 hlt
  simp only [strNextSt, strNextIdx]
  rw [if_pos hm, hstep]

/-- `getCurrent` of a started in-range character-iterator state is the text
character at that index. -/
theorem strGetCur_lt (text : Option (List Char)) (idx : Int) (h0 : 0 ≤ idx)
    (hlt : idx < jsGetLength text) :
    ∀ (hj : idx.toNat < (text.getD []).length),
      strGetCur text 0 (jsGetLength text) (true, idx)
        = some ((text.getD []).get ⟨idx.toNat, hj⟩) := by
  intro hj
  have hm : strHasMoreB 0 (jsGetLength text) idx = true := (strHasMoreB_iff text idx).2 hlt
  simp only [strGetCur]
  rw [if_pos (by simp [hm])]
  exact strCharAt_in_range text idx h0 hlt hj

/-- An exhausted `getCurrent` on a started state means the index is past the
text. -/
theorem strGetCur_none_ge (text : Option (List Char)) (idx : Int) (h0 : 0 ≤ idx)
    (hg : strGetCur text 0 (jsGetLength text) (true, idx) = none) :
    jsGetLength text ≤ idx := by
  by_contra hlt
  push_neg at hlt
  have hj : idx.toNat < (text.getD []).length := by
    have := jsGetLength_chars text
    omega
  rw [strGetCur_lt text idx h0 hlt hj] at hg
  exact Option.noConfusion hg

/-- The `Lexer.next` prologue leaves the character iterator started and does
not move its index. -/
theorem lexStartIt_spec (text : Option (List Char)) (s : LexSt) :
    (lexStartIt text s).1 = true ∧ (lexStartIt text s).2 = s.1.2 := by
  by_cases hb : s.1.1 = false
  · simp [lexStartIt, hb, strNextSt, strNextIdx]
  · simp only [lexStartIt, if_neg hb]
    exact ⟨by revert hb; cases s.1.1 <;> simp, trivial⟩

/-- The `readWhile` loop from a started in-range state consumes a prefix of
the characters after the current one and leaves the iterator right past the
consumed block, never past the end of the text. -/
theorem readWhileLoop_take (text : Option (List Char)) (cond : Char → Bool) :
    ∀ (n : Nat) (i : Int), strRem 0 (jsGetLength text) (true, i) = n → 0 ≤ i →
      i < jsGetLength text →
      ∃ k : Nat,
        (readWhileLoop text 0 (jsGetLength text) cond (true, i)).1
            = ((text.getD []).drop (i.toNat + 1)).take k
        ∧ (readWhileLoop text 0 (jsGetLength text) cond (true, i)).2
            = (true, i + 1 + (k : Int))
        ∧ i + 1 + (k : Int) ≤ jsGetLength text := by
  have hlen := jsGetLength_chars text
  have hrem : ∀ j : Int, strRem 0 (jsGetLength text) (true, j)
      = (jsGetLength text - j).toNat := by
    intro j
    have hei : 0 ≤ jsGetLength text := by omega
    have hstep : strStep 0 (jsGetLength text) = 1 := by rw [strStep, if_pos hei]
    simp [strRem, hstep]
  intro n
  induction n using Nat.strong_induction_on with
  | _ n IH =>
    intro i hn h0 hlt
    have hnext := strNextSt_lt text i hlt
    by_cases hm1 : strHasMoreB 0 (jsGetLength text) (i + 1) = true
    · have hb : (strNextSt 0 (jsGetLength text) (true, i)).2 = true := by
        rw [congrArg Prod.snd hnext]
        exact hm1
      have hlt1 : i + 1 < jsGetLength text := (strHasMoreB_iff text (i + 1)).1 hm1
      have hj1 : (i + 1).toNat < (text.getD []).length := by omega
      have hgcv : strGetCur text 0 (jsGetLength text)
          (strNextSt 0 (jsGetLength text) (true, i)).1
          = some ((text.getD []).get ⟨(i + 1).toNat, hj1⟩) := by
        rw [congrArg Prod.fst hnext]
        exact strGetCur_lt text (i + 1) (by omega) hlt1 hj1
      by_cases hcnd : cond ((text.getD []).get ⟨(i + 1).toNat, hj1⟩) = true
      · have heq : readWhileLoop text 0 (jsGetLength text) cond (true, i)
            = ((text.getD []).get ⟨(i + 1).toNat, hj1⟩
                  :: (readWhileLoop text 0 (jsGetLength text) cond
                      (strNextSt 0 (jsGetLength text) (true, i)).1).1,
                (readWhileLoop text 0 (jsGetLength text) cond
                    (strNextSt 0 (jsGetLength text) (true, i)).1).2) := by
          conv_lhs => rw [readWhileLoop]
          rw [dif_pos hb]
          rw [hgcv]
          dsimp only
          rw [if_pos hcnd]
        obtain ⟨k, hk1, hk2, hk3⟩ := IH ((jsGetLength text - (i + 1)).toNat)
            (by rw [hrem] at hn; omega) (i + 1) (hrem (i + 1)) (by omega) hlt1
        refine ⟨k + 1, ?_, ?_, ?_⟩
        · rw [congrArg Prod.fst heq]
          dsimp only
          rw [congrArg Prod.fst hnext, hk1]
          have ht : (i + 1).toNat = i.toNat + 1 := by omega
          simp only [ht]
          rw [List.drop_eq_getElem_cons
            (show i.toNat + 1 < (text.getD []).length from by omega)]
          rw [List.take_succ_cons]
          simp [List.get_eq_getElem]
        · rw [congrArg Prod.snd heq]
          dsimp only
          rw [congrArg Prod.fst hnext, hk2]
          simp only [Prod.mk.injEq, true_and]
          push_cast
          ring
        · push_cast at hk3 ⊢
          omega
      · have heq : readWhileLoop text 0 (jsGetLength text) cond (true, i)
            = ([], (strNextSt 0 (jsGetLength text) (true, i)).1) := by
          conv_lhs => rw [readWhileLoop]
          rw [dif_pos hb]
          rw [hgcv]
          dsimp only
          rw [if_neg hcnd]
        refine ⟨0, ?_, ?_, ?_⟩
        · rw [congrArg Prod.fst heq]
          simp
        · rw [congrArg Prod.snd heq, congrArg Prod.fst hnext]
          simp
        · push_cast
          omega
    · have hb : ¬ (strNextSt 0 (jsGetLength text) (true, i)).2 = true := by
        rw [congrArg Prod.snd hnext]
        exact hm1
      have heq : readWhileLoop text 0 (jsGetLength text) cond (true, i)
          = ([], (strNextSt 0 (jsGetLength text) (true, i)).1) := by
        conv_lhs => rw [readWhileLoop]
        rw [dif_neg hb]
      refine ⟨0, ?_, ?_, ?_⟩
      · rw [congrArg Prod.fst heq]
        simp
      · rw [congrArg Prod.snd heq, congrArg Prod.fst hnext]
        simp
      · push_cast
        omega

/-- Every arm of the classification switch consumes at least one character,
stays inside the text, and produces a lex whose text is exactly the block of
consumed characters. -/
theorem lexClassify_take (text : Option (List Char)) (offset : Int) (idx : Int) (c : Char)
    (h0 : 0 ≤ idx)
    (hg : strGetCur text 0 (jsGetLength text) (true, idx) = some c) :
    ∃ k : Nat, 1 ≤ k ∧ idx + (k : Int) ≤ jsGetLength text
      ∧ (lexClassify text offset (true, idx) c).2 = (true, idx + (k : Int))
      ∧ (lexClassify text offset (true, idx) c).1.text
          = ((text.getD []).drop idx.toNat).take k := by
  have hlen := jsGetLength_chars text
  obtain ⟨hb0, hblt, hbch⟩ := strGetCur_some_char text idx c hg
  have hj : idx.toNat < (text.getD []).length := by omega
  have hcql : (text.getD []).get ⟨idx.toNat, hj⟩ = c := hbch hj
  have hdropc : (text.getD []).drop idx.toNat = c :: (text.getD []).drop (idx.toNat + 1) := by
    rw [List.drop_eq_getElem_cons hj]
    simp only [List.get_eq_getElem] at hcql
    rw [hcql]
  have hnext := strNextSt_lt text idx hblt
  rcases hf : singleCharLexFactory c with _ | f
  · by_cases hcr : c = '\x0d'
    · subst hcr
      by_cases hm1 : (strNextSt 0 (jsGetLength text) (true, idx)).2 = true
      · by_cases hnl : strGetCur text 0 (jsGetLength text)
            (strNextSt 0 (jsGetLength text) (true, idx)).1 = some '\x0a'
        · have hcl : lexClassify text offset (true, idx) '\x0d'
              = (CarriageReturnNewLine (idx + offset),
                  (strNextSt 0 (jsGetLength text)
                      (strNextSt 0 (jsGetLength text) (true, idx)).1).1) := by
            simp only [lexClassify, hf]
            rw [if_pos hm1, if_pos hnl, if_pos trivial]
          have hlt1 : idx + 1 < jsGetLength text := by
            rw [congrArg Prod.snd hnext] at hm1
            exact (strHasMoreB_iff text (idx + 1)).1 hm1
          have hnl1 : strGetCur text 0 (jsGetLength text) (true, idx + 1) = some '\x0a' := by
            rw [congrArg Prod.fst hnext] at hnl
            exact hnl
          obtain ⟨hc0, hc1, hc2⟩ := strGetCur_some_char text (idx + 1) '\x0a' hnl1
          have ht : (idx + 1).toNat = idx.toNat + 1 := by omega
          simp only [ht] at hc2
          have hj1 : idx.toNat + 1 < (text.getD []).length := by omega
          have hgel : (text.getD []).get ⟨idx.toNat + 1, hj1⟩ = '\x0a' := hc2 hj1
          have hdrop2 : (text.getD []).drop (idx.toNat + 1)
              = '\x0a' :: (text.getD []).drop (idx.toNat + 2) := by
            rw [List.drop_eq_getElem_cons hj1]
            simp only [List.get_eq_getElem] at hgel
            rw [hgel]
          refine ⟨2, by omega, by push_cast; omega, ?_, ?_⟩
          · rw [congrArg Prod.snd hcl]
            rw [congrArg Prod.fst hnext,
              congrArg Prod.fst (strNextSt_lt text (idx + 1) hlt1)]
            simp only [Prod.mk.injEq, true_and]
            push_cast
            ring
          · rw [congrArg Prod.fst hcl]
            show ['\x0d', '\x0a'] = _
            rw [hdropc, hdrop2]
            rfl
        · have hcl : lexClassify text offset (true, idx) '\x0d'
              = (CarriageReturn (idx + offset),
                  (strNextSt 0 (jsGetLength text) (true, idx)).1) := by
            simp only [lexClassify, hf]
            rw [if_pos hm1, if_neg hnl, if_pos trivial]
          refine ⟨1, le_refl 1, by push_cast; omega, ?_, ?_⟩
          · rw [congrArg Prod.snd hcl, congrArg Prod.fst hnext]
            simp
          · rw [congrArg Prod.fst hcl]
            show ['\x0d'] = _
            rw [hdropc]
            rfl
      · have hcl : lexClassify text offset (true, idx) '\x0d'
            = (CarriageReturn (idx + offset),
                (strNextSt 0 (jsGetLength text) (true, idx)).1) := by
          simp only [lexClassify, hf]
          rw [if_neg hm1, if_pos trivial]
        refine ⟨1, le_refl 1, by push_cast; omega, ?_, ?_⟩
        · rw [congrArg Prod.snd hcl, congrArg Prod.fst hnext]
          simp
        · rw [congrArg Prod.fst hcl]
          show ['\x0d'] = _
          rw [hdropc]
          rfl
    · by_cases hL : isLetter c = true
      · have hcl : lexClassify text offset (true, idx) c
            = (Letters (readWhile text 0 (jsGetLength text) isLetter (true, idx)).1
                  (idx + offset),
                (readWhile text 0 (jsGetLength text) isLetter (true, idx)).2) := by
          simp only [lexClassify, hf]
          rw [if_neg hcr, if_pos hL]
        have hrw1 : (readWhile text 0 (jsGetLength text) isLetter (true, idx)).1
            = c :: (readWhileLoop text 0 (jsGetLength text) isLetter (true, idx)).1 := by
          simp only [readWhile]
          rw [hg]
          rfl
        have hrw2 : (readWhile text 0 (jsGetLength text) isLetter (true, idx)).2
            = (readWhileLoop text 0 (jsGetLength text) isLetter (true, idx)).2 := by
          simp only [readWhile]
        obtain ⟨k, hk1, hk2, hk3⟩ := readWhileLoop_take text isLetter
            (strRem 0 (jsGetLength text) (true, idx)) idx rfl h0 hblt
        refine ⟨k + 1, by omega, by push_cast at hk3 ⊢; omega, ?_, ?_⟩
        · rw [congrArg Prod.snd hcl, hrw2, hk2]
          simp only [Prod.mk.injEq, true_and]
          push_cast
          ring
        · rw [congrArg Prod.fst hcl]
          show (readWhile text 0 (jsGetLength text) isLetter (true, idx)).1 = _
          rw [hrw1, hk1, hdropc, List.take_succ_cons]
      · by_cases hD : isDigit c = true
        · have hcl : lexClassify text offset (true, idx) c
              = (Digits (readWhile text 0 (jsGetLength text) isDigit (true, idx)).1
                    (idx + offset),
                  (readWhile text 0 (jsGetLength text) isDigit (true, idx)).2) := by
            simp only [lexClassify, hf]
            rw [if_neg hcr, if_neg hL, if_pos hD]
          have hrw1 : (readWhile text 0 (jsGetLength text) isDigit (true, idx)).1
              = c :: (readWhileLoop text 0 (jsGetLength text) isDigit (true, idx)).1 := by
            simp only [readWhile]
            rw [hg]
            rfl
          have hrw2 : (readWhile text 0 (jsGetLength text) isDigit (true, idx)).2
              = (readWhileLoop text 0 (jsGetLength text) isDigit (true, idx)).2 := by
            simp only [readWhile]
          obtain ⟨k, hk1, hk2, hk3⟩ := readWhileLoop_take text isDigit
              (strRem 0 (jsGetLength text) (true, idx)) idx rfl h0 hblt
          refine ⟨k + 1, by omega, by push_cast at hk3 ⊢; omega, ?_, ?_⟩
          · rw [congrArg Prod.snd hcl, hrw2, hk2]
            simp only [Prod.mk.injEq, true_and]
            push_cast
            ring
          · rw [congrArg Prod.fst hcl]
            show (readWhile text 0 (jsGetLength text) isDigit (true, idx)).1 = _
            rw [hrw1, hk1, hdropc, List.take_succ_cons]
        · have hcl : lexClassify text offset (true, idx) c
              = (Unrecognized [c] (idx + offset),
                  (strNextSt 0 (jsGetLength text) (true, idx)).1) := by
            simp only [lexClassify, hf]
            rw [if_neg hcr, if_neg hL, if_neg hD]
          refine ⟨1, le_refl 1, by push_cast; omega, ?_, ?_⟩
          · rw [congrArg Prod.snd hcl, congrArg Prod.fst hnext]
            simp
          · rw [congrArg Prod.fst hcl]
            show [c] = _
            rw [hdropc]
            rfl
  · have hcl : lexClassify text offset (true, idx) c
        = (f (idx + offset), (strNextSt 0 (jsGetLength text) (true, idx)).1) := by
      simp only [lexClassify, hf]
    refine ⟨1, le_refl 1, by push_cast; omega, ?_, ?_⟩
    · rw [congrArg Prod.snd hcl, congrArg Prod.fst hnext]
      simp
    · rw [congrArg Prod.fst hcl]
      rw [singleCharLexFactory_text c f (idx + offset) hf]
      rw [hdropc]
      rfl

/-- Draining the lexer from any reachable state reproduces the rest of the
input text. -/
theorem lexRecon (text : Option (List Char)) (offset : Int) :
    ∀ (n : Nat) (s : LexSt), (jsGetLength text - s.1.2).toNat = n →
      ∀ (h : (lexerQ text offset).kit.inv s),
        lexTextsJoin (drainLoop (lexerQ text offset) s h).1
          = (text.getD []).drop s.1.2.toNat := by
  have hlen := jsGetLength_chars text
  intro n
  induction n using Nat.strong_induction_on with
  | _ n IH =>
    intro s hn h
    have hinv : (0 : Int) ≤ s.1.2 := h
    have hitEq : lexStartIt text s = (true, s.1.2) := by
      obtain ⟨h1, h2⟩ := lexStartIt_spec text s
      calc lexStartIt text s = ((lexStartIt text s).1, (lexStartIt text s).2) := rfl
        _ = (true, s.1.2) := by rw [h1, h2]
    rcases hg : strGetCur text 0 (jsGetLength text) (true, s.1.2) with _ | c
    · have hge := strGetCur_none_ge text s.1.2 hinv hg
      have hnextv : (lexerQ text offset).kit.next s
          = (((true, s.1.2), (none : Option Lex)), false) := by
        show lexNext text offset s = _
        simp only [lexNext]
        rw [hitEq, hg]
      conv_lhs => rw [drainLoop]
      rw [dif_neg (by rw [congrArg Prod.snd hnextv]; simp)]
      dsimp only
      simp only [lexTextsJoin]
      symm
      exact List.drop_eq_nil_of_le (by omega)
    · obtain ⟨k, hk1, hkle, hkst, hktext⟩ := lexClassify_take text offset s.1.2 c hinv hg
      have hblt : s.1.2 < jsGetLength text :=
        (strGetCur_some_char text s.1.2 c hg).2.1
      have hnextv : (lexerQ text offset).kit.next s
          = (((true, s.1.2 + (k : Int)),
              some (lexClassify text offset (true, s.1.2) c).1), true) := by
        show lexNext text offset s = _
        simp only [lexNext]
        rw [hitEq, hg]
        dsimp only
        rw [hkst]
      have hgcv : (lexerQ text offset).kit.getCurrent
            ((lexerQ text offset).kit.next s).1
          = (((true, s.1.2 + (k : Int)),
                some (lexClassify text offset (true, s.1.2) c).1),
              some (lexClassify text offset (true, s.1.2) c).1) := by
        rw [congrArg Prod.fst hnextv]
        rfl
      conv_lhs => rw [drainLoop]
      rw [dif_pos (congrArg Prod.snd hnextv)]
      rw [congrArg Prod.snd hgcv]
      rw [drainLoop_congr (lexerQ text offset) (congrArg Prod.fst hgcv)]
      simp only [lexTextsJoin]
      rw [IH ((jsGetLength text - (s.1.2 + (k : Int))).toNat) (by omega)
        ((true, s.1.2 + (k : Int)),
          some (lexClassify text offset (true, s.1.2) c).1) rfl]
      dsimp only
      rw [hktext]
      have hnv : (s.1.2 + (k : Int)).toNat = s.1.2.toNat + k := by omega
      rw [hnv, ← List.drop_drop]
      exact List.take_append_drop k _

/-- A lexer over absent or empty input produces no lexes at all. -/
theorem lexDrainNil (text : Option (List Char)) (offset : Int)
    (hnil : jsGetLength text = 0) :
    ∀ h : (lexerQ text offset).kit.inv ((false, 0), none),
      (drainJs (lexerQ text offset) ((false, 0), none) h).1 = [] := by
  intro h
  have hhc : (lexerQ text offset).kit.hasCurrent ((false, 0), none)
      = ((((false : Bool), (0 : Int)), (none : Option Lex)), false) := rfl
  have hg : strGetCur text 0 (jsGetLength text) (true, 0) = none := by
    rcases hgv : strGetCur text 0 (jsGetLength text) (true, 0) with _ | c
    · rfl
    · obtain ⟨_, hblt, _⟩ := strGetCur_some_char text 0 c hgv
      omega
  have hnextv : (lexerQ text offset).kit.next ((false, 0), none)
      = ((((true : Bool), (0 : Int)), (none : Option Lex)), false) := by
    show lexNext text offset ((false, 0), none) = _
    simp only [lexNext]
    rw [show lexStartIt text ((false, 0), none) = ((true : Bool), (0 : Int)) from rfl]
    rw [hg]
  unfold drainJs
  rw [if_neg (by rw [congrArg Prod.snd hhc]; simp)]
  rw [drainLoop_congr (lexerQ text offset) (congrArg Prod.fst hhc)]
  conv_lhs => rw [drainLoop]
  rw [dif_neg (by rw [congrArg Prod.snd hnextv]; simp)]

/-- C9: fully draining the lexer is total, absent and empty input yield no
lexes, and the concatenated texts of the produced lexes reconstruct the
input string exactly. -/
theorem C9_lexer_reconstructs_input (text : Option (List Char)) (offset : Int) :
    ∀ h : (lexerQ text offset).kit.inv ((false, 0), none),
      lexTextsJoin (drainJs (lexerQ text offset) ((false, 0), none) h).1 = text.getD []
      ∧ (∀ h0 : (lexerQ none offset).kit.inv ((false, 0), none),
          (drainJs (lexerQ none offset) ((false, 0), none) h0).1 = [])
      ∧ (∀ h1 : (lexerQ (some []) offset).kit.inv ((false, 0), none),
          (drainJs (lexerQ (some []) offset) ((false, 0), none) h1).1 = []) := by
  intro h
  refine ⟨?_, ?_, ?_⟩
  · have hhc : (lexerQ text offset).kit.hasCurrent ((false, 0), none)
        = ((((false : Bool), (0 : Int)), (none : Option Lex)), false) := rfl
    unfold drainJs
    rw [if_neg (by rw [congrArg Prod.snd hhc]; simp)]
    rw [drainLoop_congr (lexerQ text offset) (congrArg Prod.fst hhc)]
    rw [lexRecon text offset ((jsGetLength text - 0).toNat) ((false, 0), none) rfl]
    simp
  · intro h0
    exact lexDrainNil none offset rfl h0
  · intro h1
    exact lexDrainNil (some []) offset rfl h1

/-- C9 witness: the lexer over `"a1"` reconstructs the input exactly. -/
theorem C9_lexer_reconstructs_input_witness :
    lexTextsJoin (drainJs (lexerQ (some ['a', '1']) 0) ((false, 0), none)
        (le_refl (0 : Int))).1
      = (some ['a', '1'] : Option (List Char)).getD [] :=
  (C9_lexer_reconstructs_input (some ['a', '1']) 0 (le_refl (0 : Int))).1

/-- C1 counterexample: a `take` view with an absent count never reports
itself started, because its `next()` never calls the inner iterator. -/
theorem C1_take_undefined_never_starts :
    ¬ StartsOnFirstNext (takeKit (arrKit ([0] : List Nat)) none) := by
  intro hsofn
  have := hsofn (0, none) ⟨rfl, rfl⟩
  revert this
  decide

end Qub
